import Mathlib

/-!
# String kernels of `velox/functions/prestosql/StringFunctions.h`

A shallow embedding of the scalar string kernels and proofs of their contract.

Conventions of the embedding

* a `StringView` is the list of its bytes (`List Nat`, each byte below 256); its `size()` is a
  `uint32_t`, so well-formed inputs have fewer than `2 ^ 32` bytes;
* machine integers are `Int`/`Nat`; where the source computes in a fixed width the model wraps
  explicitly (`wrapInt`, `% 2 ^ 64`);
* a kernel that can throw returns `Except VeloxError _`; `result.setNoCopy(StringView(p, n))`
  is the list of the `n` bytes at `p`.
-/

namespace Velox

/-! ## Common definitions -/

/-- The two kinds of exception the kernels throw: `VELOX_USER_CHECK*` raises a user error,
`VELOX_UNSUPPORTED` an unsupported-operation error. -/
inductive VeloxError where
  | userError (message : String)
  | unsupported (message : String)
  deriving DecidableEq, Repr

/-- Two's complement wrap-around of `x` to a signed integer of `bits` bits. -/
def wrapInt (bits : Nat) (x : Int) : Int :=
  (x + 2 ^ (bits - 1)) % 2 ^ bits - 2 ^ (bits - 1)

/-- The values of a signed integer type of `bits` bits. -/
def InIntRange (bits : Nat) (x : Int) : Prop :=
  -(2 ^ (bits - 1)) ≤ x ∧ x < 2 ^ (bits - 1)

/-- The bytes of a string of 7-bit ASCII characters. -/
def asciiBytes (s : String) : List Nat :=
  s.toList.map Char.toNat

/-! ## `LevenshteinDistanceFunction` (lines 505-592) -/

namespace LevenshteinDistanceFunction

variable {α : Type} [DecidableEq α]

/-- Line 554: the constant `kMaxCombinedInputSize`, one million. -/
def kMaxCombinedInputSize : Nat := 1000000

/-- Lines 564-568: `distances` after
`for (int i = 0; i < rightCodePointsSize; i++) distances.push_back(i + 1);`
(`i + 1` is computed in `int`). -/
def initDistances (rightCodePointsSize : Nat) : List Int :=
  (List.range rightCodePointsSize).foldl
    (fun distances (i : Nat) => distances ++ [wrapInt 32 ((i : Int) + 1)]) []

/-- Lines 578-587: the body of the inner loop at index `j`, on the state
`(distances, leftUpDistance)`. The `+ 1` is `int32_t` arithmetic. -/
def innerBody (leftCodePoints rightCodePoints : List α) (i : Nat)
    (state : List Int × Int) (j : Nat) : List Int × Int :=
  let distances := state.1
  let leftUpDistance := state.2
  let leftUpDistanceNext := distances.getD j 0
  if leftCodePoints[i]? = rightCodePoints[j]? then
    (distances.set j leftUpDistance, leftUpDistanceNext)
  else
    (distances.set j
      (wrapInt 32 (min (distances.getD (j - 1) 0) (min leftUpDistance (distances.getD j 0)) + 1)),
     leftUpDistanceNext)

/-- Lines 571-588: the body of the outer loop at index `i`: the update of `distances[0]`
followed by `for (int j = 1; j < rightCodePointsSize; j++)`. -/
def outerBody (leftCodePoints rightCodePoints : List α) (distances : List Int) (i : Nat) :
    List Int :=
  let leftUpDistance := distances.getD 0 0
  let distances :=
    if leftCodePoints[i]? = rightCodePoints[0]? then
      distances.set 0 (i : Int)
    else
      distances.set 0 (wrapInt 32 (min (i : Int) (distances.getD 0 0) + 1))
  ((List.range' 1 (rightCodePoints.length - 1)).foldl
    (innerBody leftCodePoints rightCodePoints i) (distances, leftUpDistance)).1

/-- Lines 549-590: `doCall` when `leftCodePointsSize >= rightCodePointsSize`, that is past the
swap of line 540. The product of the sizes is a `size_t` product. -/
def doCallOrdered (leftCodePoints rightCodePoints : List α) : Except VeloxError Int :=
  if rightCodePoints.length = 0 then
    .ok (leftCodePoints.length : Int)
  else
    let combinedInputSize := (leftCodePoints.length * rightCodePoints.length) % 2 ^ 64
    if ¬ combinedInputSize ≤ kMaxCombinedInputSize then
      .error (.userError
        "The combined inputs size exceeded max Levenshtein distance combined input size")
    else
      let distances := (List.range leftCodePoints.length).foldl
        (outerBody leftCodePoints rightCodePoints) (initDistances rightCodePoints.length)
      .ok (distances.getD (rightCodePoints.length - 1) 0)

/-- Lines 533-591: `doCall<TCodePoint>`. When the left input is the shorter one the source
calls itself with the arguments exchanged (lines 540-548); that call does not exchange again,
so the recursion is unrolled here. -/
def doCall (leftCodePoints rightCodePoints : List α) : Except VeloxError Int :=
  if leftCodePoints.length < rightCodePoints.length then
    doCallOrdered rightCodePoints leftCodePoints
  else
    doCallOrdered leftCodePoints rightCodePoints

/-- Lines 509-521: `call` runs `doCall<int32_t>` on the code points of the two inputs;
`stringImpl::stringToCodePoints`, which is not in this slice, is a parameter. -/
def call (stringToCodePoints : List Nat → List Int) (left right : List Nat) :
    Except VeloxError Int :=
  doCall (stringToCodePoints left) (stringToCodePoints right)

/-- Lines 523-531: `callAscii` runs `doCall<uint8_t>` on the bytes of the two inputs. -/
def callAscii (left right : List Nat) : Except VeloxError Int :=
  doCall left right


/-! ### Reference semantics: the Levenshtein edit distance -/

/-- The standard Levenshtein edit distance of Mathlib, with unit costs for insertion, deletion
and substitution (`Levenshtein.defaultCost`). -/
def lev {α : Type} [DecidableEq α] (xs ys : List α) : Nat :=
  levenshtein Levenshtein.defaultCost xs ys

/-- One single-element edit of a sequence: the insertion, the deletion or the substitution of
one element, at any place. -/
inductive EditStep {α : Type} : List α → List α → Prop
  | insert (l : List α) (x : α) (r : List α) : EditStep (l ++ r) (l ++ x :: r)
  | delete (l : List α) (x : α) (r : List α) : EditStep (l ++ x :: r) (l ++ r)
  | substitute (l : List α) (x y : α) (r : List α) : EditStep (l ++ x :: r) (l ++ y :: r)

/-- The relation `EditSequence a b n`: `n` single-element edits, one after the other, turn `a` into `b`. -/
inductive EditSequence {α : Type} : List α → List α → Nat → Prop
  | refl (a : List α) : EditSequence a a 0
  | step {a b c : List α} {n : Nat} :
      EditStep a b → EditSequence b c n → EditSequence a c (n + 1)

/-- The relation `EditScript xs ys n`: an alignment of `xs` with `ys`, read from left to right, in which `n`
elements are inserted, deleted or substituted and the others kept. Used in the proofs only. -/
inductive EditScript {α : Type} : List α → List α → Nat → Prop
  | done : EditScript [] [] 0
  | keep (x : α) {xs ys : List α} {n : Nat} :
      EditScript xs ys n → EditScript (x :: xs) (x :: ys) n
  | substitute (x y : α) {xs ys : List α} {n : Nat} :
      EditScript xs ys n → EditScript (x :: xs) (y :: ys) (n + 1)
  | delete (x : α) {xs ys : List α} {n : Nat} :
      EditScript xs ys n → EditScript (x :: xs) ys (n + 1)
  | insert (y : α) {xs ys : List α} {n : Nat} :
      EditScript xs ys n → EditScript xs (y :: ys) (n + 1)

/-- The inner loop of lines 577-588 as a recursion over the cells `distances[j..]`, for the
left code point `c`; `leftUp` is `leftUpDistance` and `leftNew` the new `distances[j - 1]`.
Used in the proofs only (`foldl_innerBody` relates it to `innerBody`). -/
def rowStep {α : Type} [DecidableEq α] (c : α) : List α → List Int → Int → Int → List Int
  | r :: rs, d :: ds, leftUp, leftNew =>
    let v := if c = r then leftUp else wrapInt 32 (min leftNew (min leftUp d) + 1)
    v :: rowStep c rs ds d v
  | _, _, _, _ => []

/-- The row of the distance matrix for the left input `L`: the distances from `L` to
`Rp ++ [r₁]`, `Rp ++ [r₁, r₂]`, ... where `rs = [r₁, r₂, ...]`. -/
def levRow {α : Type} [DecidableEq α] (L : List α) : List α → List α → List Int
  | _, [] => []
  | Rp, r :: rs => (lev L (Rp ++ [r]) : Int) :: levRow L (Rp ++ [r]) rs

end LevenshteinDistanceFunction

/-! ## The code point decoder (external: utf8proc) -/

/-- The signature of `utf8proc_codepoint(data + position, data + length, size)`: from the
buffer and the position of the cursor to the returned code point (negative for a malformed
unit) and the byte count stored in `size`. The kernels are parametric in the decoder. -/
abbrev Decoder := List Nat → Int → Int × Int

/-- Lines 468-469: the bytes the cursor moves over one unit,
`codePoint >= 0 ? size : -codePoint`. -/
def advance (decode : Decoder) (buffer : List Nat) (position : Int) : Int :=
  if (decode buffer position).1 ≥ 0 then (decode buffer position).2
  else -(decode buffer position).1

/-- The relation `Decodes decode buffer position units`: walking `buffer` from `position` with the decoder
moves the cursor forward at every unit and stops exactly on the end of the buffer (the decoding
never consumes past the end); `units` lists, for each unit met, the value the decoder returned
and the bytes of the unit. -/
inductive Decodes (decode : Decoder) (buffer : List Nat) : Int → List (Int × List Nat) → Prop
  | done (position : Int) : position = buffer.length → Decodes decode buffer position []
  | unit (position : Int) (units : List (Int × List Nat)) :
      0 ≤ position → position < buffer.length → 0 < advance decode buffer position →
      Decodes decode buffer (position + advance decode buffer position) units →
      Decodes decode buffer position
        (((decode buffer position).1,
          (buffer.drop position.toNat).take (advance decode buffer position).toNat) :: units)

/-- A continuation byte `10xxxxxx`. -/
def isContinuationByte (b : Nat) : Bool :=
  0x80 ≤ b && b < 0xC0

/-- Modelled from the spec: `utf8proc_codepoint`, the Codepoint Decoder of section 4.1, whose
source is not in this slice. It "decodes one codepoint starting at a byte offset, returning
(codepoint value, consumed byte count) for valid sequences, or a distinguished invalid marker
with a recovery byte count for malformed sequences". The valid sequences are the one- to
four-byte UTF-8 forms that fit in the buffer; the invalid marker is `-1`, whose negation is the
recovery count 1 the callers advance by. -/
def utf8proc_codepoint : Decoder := fun buffer position =>
  let p := position.toNat
  let u0 := buffer.getD p 0
  let u1 := buffer.getD (p + 1) 0
  let u2 := buffer.getD (p + 2) 0
  let u3 := buffer.getD (p + 3) 0
  if u0 < 0x80 then
    ((u0 : Int), 1)
  else if 0xC0 ≤ u0 ∧ u0 < 0xE0 ∧ p + 2 ≤ buffer.length ∧ isContinuationByte u1 then
    ((((u0 - 0xC0) * 64 + (u1 - 0x80) : Nat) : Int), 2)
  else if 0xE0 ≤ u0 ∧ u0 < 0xF0 ∧ p + 3 ≤ buffer.length ∧ isContinuationByte u1 ∧
      isContinuationByte u2 then
    ((((u0 - 0xE0) * 4096 + (u1 - 0x80) * 64 + (u2 - 0x80) : Nat) : Int), 3)
  else if 0xF0 ≤ u0 ∧ u0 < 0xF8 ∧ p + 4 ≤ buffer.length ∧ isContinuationByte u1 ∧
      isContinuationByte u2 ∧ isContinuationByte u3 then
    ((((u0 - 0xF0) * 262144 + (u1 - 0x80) * 4096 + (u2 - 0x80) * 64 + (u3 - 0x80) : Nat) : Int),
      4)
  else
    (-1, 0)

/-! ## `HammingDistanceFunction` (lines 441-503) -/

namespace HammingDistanceFunction

/-- The message of the two length checks (lines 475-477 and 488-491). -/
def sameLengthMessage : String :=
  "The input strings to hamming_distance function must have the same length"

/-- The local variables of `call` that live across the iterations of the loop. -/
structure State where
  leftPosition : Int
  rightPosition : Int
  distance : Int
  deriving DecidableEq, Repr

/-- Lines 457: the condition of the `while` loop. -/
def loopCondition (left right : List Nat) (s : State) : Prop :=
  s.leftPosition < (left.length : Int) ∧ s.rightPosition < (right.length : Int)

instance (left right : List Nat) (s : State) : Decidable (loopCondition left right s) :=
  inferInstanceAs (Decidable (_ ∧ _))

/-- Lines 458-473: one iteration of the loop. -/
def loopBody (decode : Decoder) (left right : List Nat) (s : State) : State :=
  let codePointLeft := (decode left s.leftPosition).1
  let leftSize := (decode left s.leftPosition).2
  let codePointRight := (decode right s.rightPosition).1
  let rightSize := (decode right s.rightPosition).2
  { leftPosition := s.leftPosition + (if codePointLeft ≥ 0 then leftSize else -codePointLeft)
    rightPosition := s.rightPosition + (if codePointRight ≥ 0 then rightSize else -codePointRight)
    distance := if codePointLeft ≠ codePointRight then s.distance + 1 else s.distance }

/-- Lines 457-474: the `while` loop, run for at most `fuel` iterations; `none` when the
condition still holds after `fuel` iterations. -/
def loop (decode : Decoder) (left right : List Nat) : Nat → State → Option State
  | 0, s => if loopCondition left right s then none else some s
  | fuel + 1, s =>
    if loopCondition left right s then loop decode left right fuel (loopBody decode left right s)
    else some s

/-- Lines 447-480: `call`, the generic path, with the loop bounded by `fuel` iterations. -/
def call (decode : Decoder) (fuel : Nat) (left right : List Nat) :
    Option (Except VeloxError Int) :=
  (loop decode left right fuel { leftPosition := 0, rightPosition := 0, distance := 0 }).map
    fun s =>
      if s.leftPosition = (left.length : Int) ∧ s.rightPosition = (right.length : Int) then
        .ok s.distance
      else .error (.userError sameLengthMessage)

/-- Lines 482-502: `callAscii`, the byte path. The loop counter is an `int`; the inputs of the
model are those whose length fits in it. -/
def callAscii (left right : List Nat) : Except VeloxError Int :=
  if left.length ≠ right.length then
    .error (.userError sameLengthMessage)
  else
    .ok ((List.range left.length).foldl
      (fun (distance : Int) (i : Nat) =>
        if left.getD i 0 ≠ right.getD i 0 then distance + 1 else distance) 0)

/-- The number of positions at which two sequences of decoded values differ. -/
def mismatches (us vs : List Int) : Nat :=
  (List.zip us vs).countP (fun p => p.1 ≠ p.2)

end HammingDistanceFunction

/-! ## The string helpers of `StringImpl.h` and `StringCore.h` (external) -/

namespace stringImpl

/-- Modelled from the spec: the sequential decoding of `stringImpl::length<false>`
(section 4.1), the number of units the decoder meets walking `buffer` from `position`, counting
at most `fuel` of them. -/
def countUnits (decode : Decoder) (buffer : List Nat) : Nat → Int → Nat
  | 0, _ => 0
  | fuel + 1, position =>
    if position < (buffer.length : Int) then
      countUnits decode buffer fuel (position + advance decode buffer position) + 1
    else 0

/-- Modelled from the spec: `stringImpl::length<isAscii>`, whose source is not in this slice.
Section 4.1: "under the ascii flag it returns `bytes.length` in O(1); otherwise it decodes
sequentially and counts codepoints in O(n)". A unit takes at least one byte, so the count is
bounded by the number of bytes, which is the fuel of the walk. -/
def length (decode : Decoder) (isAscii : Bool) (input : List Nat) : Int :=
  if isAscii then (input.length : Int)
  else (countUnits decode input input.length 0 : Int)

end stringImpl

namespace stringCore

/-- Modelled from the spec: the walk of `stringCore::getByteRange<false>` (section 4.3), the
position of the cursor after `count` units from `position`. -/
def skipUnits (decode : Decoder) (buffer : List Nat) : Nat → Int → Int
  | 0, position => position
  | count + 1, position =>
    skipUnits decode buffer count (position + advance decode buffer position)

/-- Modelled from the spec: `stringCore::getByteRange<isAscii>`, whose source is not in this
slice: the half-open byte range of the `length` characters from the 1-based character position
`startCharPosition`. Section 4.3: "the byte range is then derived by walking characters from
the decoder (O(1) per character under ascii, O(k) under generic where k is the number of
characters skipped)"; on the ascii path "byte offset == character offset" (glossary). -/
def getByteRange (decode : Decoder) (isAscii : Bool) (str : List Nat)
    (startCharPosition length : Int) : Nat × Nat :=
  if isAscii then
    ((startCharPosition - 1).toNat, (startCharPosition + length - 1).toNat)
  else
    let startByteIndex := skipUnits decode str (startCharPosition - 1).toNat 0
    let endByteIndex := skipUnits decode str length.toNat startByteIndex
    (startByteIndex.toNat, endByteIndex.toNat)

end stringCore

/-- The value `StringView(data + first, second - first)` views: the bytes of `input` in the
half-open byte range. -/
def viewOf (input : List Nat) (byteRange : Nat × Nat) : List Nat :=
  (input.drop byteRange.1).take (byteRange.2 - byteRange.1)

/-- The value of `std::numeric_limits<I>::max()` for a signed integer type `I` of `bits` bits. -/
def numericLimitsMax (bits : Nat) : Int :=
  2 ^ (bits - 1) - 1

/-! ## `SubstrFunction` (lines 107-188) -/

namespace SubstrFunction

/-- Lines 150-187: `doCall<isAscii, I>` for a signed integer type `I` of `bits` bits; every
operation on an `I` wraps to `bits` bits. `result.setEmpty()` is the empty string; the kernel
has no `throw`, so every path is `.ok`. -/
def doCall (decode : Decoder) (bits : Nat) (isAscii : Bool) (input : List Nat)
    (start length : Int) : Except VeloxError (List Nat) :=
  if start = 0 ∨ length ≤ 0 then
    .ok []
  else
    let numCharacters := wrapInt bits (stringImpl.length decode isAscii input)
    let start :=
      if start < 0 then wrapInt bits (wrapInt bits (numCharacters + start) + 1) else start
    if start ≤ 0 ∨ start > numCharacters then
      .ok []
    else
      let length :=
        if wrapInt bits (wrapInt bits (numCharacters - start) + 1) < length then
          wrapInt bits (wrapInt bits (numCharacters - start) + 1)
        else length
      let byteRange := stringCore.getByteRange decode isAscii input start length
      .ok (viewOf input byteRange)

/-- Lines 132-139: `call`, the generic path. An omitted `length` is `numericLimitsMax bits`. -/
def call (decode : Decoder) (bits : Nat) (input : List Nat) (start length : Int) :
    Except VeloxError (List Nat) :=
  doCall decode bits false input start length

/-- Lines 141-148: `callAscii`, the ascii path. An omitted `length` is
`numericLimitsMax bits`. -/
def callAscii (decode : Decoder) (bits : Nat) (input : List Nat) (start length : Int) :
    Except VeloxError (List Nat) :=
  doCall decode bits true input start length

/-- The characters of `input`: its bytes on the ascii path, the byte spans of its decoded
units on the generic path. -/
def characters (isAscii : Bool) (input : List Nat) (units : List (Int × List Nat)) :
    List (List Nat) :=
  if isAscii then input.map (fun b => [b]) else units.map Prod.snd

/-- The 1-based position a non-zero `start` denotes in a string of `n` characters. -/
def startPosition (n start : Int) : Int :=
  if start > 0 then start else n + start + 1

end SubstrFunction

/-- Lines 295-306: `LengthFunction`, `call` (generic) and `callAscii`. -/
def LengthFunction.call (decode : Decoder) (input : List Nat) : Int :=
  stringImpl.length decode false input

/-- Lines 303-305: `LengthFunction::callAscii`. -/
def LengthFunction.callAscii (decode : Decoder) (input : List Nat) : Int :=
  stringImpl.length decode true input

/-! ## The ascii contract of the decoder and the arguments of `getByteRange` -/

namespace stringCore

/-- Modelled from the spec: `stringCore::isAscii(data, size)`, whose source is not in this slice:
whether the bytes are "pure 7-bit ASCII" (glossary). -/
def isAscii (data : List Nat) : Bool :=
  data.all (fun b => b < 128)

end stringCore

/-- The contract of the decoder on 7-bit ASCII: a byte below 128 is a valid unit of one byte
whose code point is the byte. -/
def DecodesAsciiBytes (decode : Decoder) : Prop :=
  ∀ (buffer : List Nat) (position : Nat), position < buffer.length →
    buffer.getD position 0 < 128 →
    decode buffer (position : Int) = ((buffer.getD position 0 : Int), 1)

/-- The units of a buffer of 7-bit ASCII bytes: each byte is a unit, whose code point is the
byte. -/
def asciiUnits (input : List Nat) : List (Int × List Nat) :=
  input.map (fun (b : Nat) => ((b : Int), [b]))

namespace SubstrFunction

/-- The arguments `doCall` passes to `getByteRange` (lines 157-182) for a string of
`characterCount` characters, `none` when it returns the empty string before. Used in the
proofs only (`doCall_eq_byteRangeArguments` relates it to `doCall`). -/
def byteRangeArguments (bits : Nat) (characterCount start length : Int) : Option (Int × Int) :=
  if start = 0 ∨ length ≤ 0 then none
  else
    let numCharacters := wrapInt bits characterCount
    let start :=
      if start < 0 then wrapInt bits (wrapInt bits (numCharacters + start) + 1) else start
    if start ≤ 0 ∨ start > numCharacters then none
    else
      let length :=
        if wrapInt bits (wrapInt bits (numCharacters - start) + 1) < length then
          wrapInt bits (wrapInt bits (numCharacters - start) + 1)
        else length
      some (start, length)

end SubstrFunction

/-! ## `TrailFunction` (lines 53-105) -/

namespace TrailFunction

/-- Lines 81-104: `doCall<isAscii, I>` for a signed integer type `I` of `bits` bits; every
operation on an `I` wraps to `bits` bits. -/
def doCall (decode : Decoder) (bits : Nat) (isAscii : Bool) (input : List Nat) (N : Int) :
    Except VeloxError (List Nat) :=
  if N ≤ 0 then
    .ok []
  else
    let numCharacters := wrapInt bits (stringImpl.length decode isAscii input)
    let start :=
      if N > numCharacters then 1 else wrapInt bits (wrapInt bits (numCharacters - N) + 1)
    let adjustedLength := min N numCharacters
    let byteRange := stringCore.getByteRange decode isAscii input start adjustedLength
    .ok (viewOf input byteRange)

/-- Lines 66-72: `callNullFree`, the generic path. -/
def callNullFree (decode : Decoder) (bits : Nat) (input : List Nat) (N : Int) :
    Except VeloxError (List Nat) :=
  doCall decode bits false input N

/-- Lines 74-78: `callAscii`, the ascii path. -/
def callAscii (decode : Decoder) (bits : Nat) (input : List Nat) (N : Int) :
    Except VeloxError (List Nat) :=
  doCall decode bits true input N

end TrailFunction

/-! ## `SubstrVarbinaryFunction` (lines 190-224) -/

namespace SubstrVarbinaryFunction

/-- Lines 197-223: `call`. The arithmetic is on `int64_t` and wraps to 64 bits; `input.size()`
is a `uint32_t`, whose conversion to `int64_t` is exact. The result views the `length` bytes at
`input.data() + start - 1`. -/
def call (input : List Nat) (start length : Int) : Except VeloxError (List Nat) :=
  if start = 0 ∨ length ≤ 0 then
    .ok []
  else
    let size : Int := input.length
    let start :=
      if start < 0 then wrapInt 64 (wrapInt 64 (size + start) + 1) else start
    if start ≤ 0 ∨ start > size then
      .ok []
    else
      let length :=
        if wrapInt 64 (wrapInt 64 (size - start) + 1) < length then
          wrapInt 64 (wrapInt 64 (size - start) + 1)
        else length
      .ok ((input.drop (start - 1).toNat).take length.toNat)

end SubstrVarbinaryFunction


/-! ## The byte ranges of the slicing kernels, with checked arithmetic -/

/-- The exact result `x` of an operation on a signed integer type of `bits` bits: `none` when
it is not a value of the type, that is when the operation overflows. -/
def checkedInt (bits : Nat) (x : Int) : Option Int :=
  if -(2 ^ (bits - 1)) ≤ x ∧ x < 2 ^ (bits - 1) then some x else none

/-- Lines 197-223 of `SubstrVarbinaryFunction::call` with every `int64_t` operation checked:
`none` on an overflow, `some none` for `setEmpty()`, otherwise the half-open byte range
`[start - 1, start - 1 + length)` of the view. -/
def SubstrVarbinaryFunction.byteRangeChecked (input : List Nat) (start length : Int) :
    Option (Option (Int × Int)) :=
  if start = 0 ∨ length ≤ 0 then
    some none
  else
    let size : Int := input.length
    (if start < 0 then
        (checkedInt 64 (size + start)).bind fun sum => checkedInt 64 (sum + 1)
      else some start).bind fun start =>
    if start ≤ 0 ∨ start > size then
      some none
    else
      ((checkedInt 64 (size - start)).bind fun difference =>
          checkedInt 64 (difference + 1)).bind fun maxLength =>
      let length := if maxLength < length then maxLength else length
      some (some (start - 1, start - 1 + length))

/-- Lines 150-187 of `SubstrFunction::doCall<true, I>` with every operation on `I` checked:
`none` on an overflow, `some none` for `setEmpty()`, otherwise the byte range
`getByteRange<true>` computes from `start` and `length`. -/
def SubstrFunction.byteRangeAsciiChecked (bits : Nat) (input : List Nat) (start length : Int) :
    Option (Option (Int × Int)) :=
  if start = 0 ∨ length ≤ 0 then
    some none
  else
    (checkedInt bits (input.length : Int)).bind fun numCharacters =>
    (if start < 0 then
        (checkedInt bits (numCharacters + start)).bind fun sum => checkedInt bits (sum + 1)
      else some start).bind fun start =>
    if start ≤ 0 ∨ start > numCharacters then
      some none
    else
      ((checkedInt bits (numCharacters - start)).bind fun difference =>
          checkedInt bits (difference + 1)).bind fun maxLength =>
      let length := if maxLength < length then maxLength else length
      some (some (start - 1, start + length - 1))

/-- Lines 81-104 of `TrailFunction::doCall<true, I>` with every operation on `I` checked:
`none` on an overflow, `some none` for `setEmpty()`, otherwise the byte range
`getByteRange<true>` computes from `start` and `adjustedLength`. -/
def TrailFunction.byteRangeAsciiChecked (bits : Nat) (input : List Nat) (N : Int) :
    Option (Option (Int × Int)) :=
  if N ≤ 0 then
    some none
  else
    (checkedInt bits (input.length : Int)).bind fun numCharacters =>
    (if N > numCharacters then some 1
      else (checkedInt bits (numCharacters - N)).bind fun difference =>
        checkedInt bits (difference + 1)).bind fun start =>
    let adjustedLength := min N numCharacters
    some (some (start - 1, start + adjustedLength - 1))

/-- The byte-range invariant of a slicing kernel on `input`: its checked run does not overflow,
and it returns either the empty string or the view of a byte range `[first, last)` with
`0 <= first <= last <= input.size()`. -/
def ByteRangeInvariant (input : List Nat) (checked : Option (Option (Int × Int)))
    (result : Except VeloxError (List Nat)) : Prop :=
  ∃ range, checked = some range ∧
    match range with
    | none => result = .ok []
    | some (first, last) =>
      0 ≤ first ∧ first ≤ last ∧ last ≤ (input.length : Int) ∧
        result = .ok (viewOf input (first.toNat, last.toNat))

/-! ## `StartsWithFunction` and `EndsWithFunction` (lines 318-351) -/

/-- The C library's `memcmp(a, b, n)`: zero when the first `n` bytes of `a` and `b` are equal,
otherwise the sign of the difference of the first two bytes that differ. Its callers never
read past a buffer; the model then answers by the buffer that ends first. -/
def memcmp : List Nat → List Nat → Nat → Int
  | _, _, 0 => 0
  | x :: xs, y :: ys, n + 1 => if x = y then memcmp xs ys n else (x : Int) - (y : Int)
  | [], [], _ + 1 => 0
  | [], _ :: _, _ + 1 => -1
  | _ :: _, [], _ + 1 => 1

/-- Lines 322-332: `StartsWithFunction::call`. -/
def StartsWithFunction.call (x y : List Nat) : Bool :=
  if x.length < y.length then
    false
  else
    decide (memcmp x y y.length = 0)

/-- Lines 339-350: `EndsWithFunction::call`; the first argument of `memcmp` is
`x.data() + (x.size() - y.size())`. -/
def EndsWithFunction.call (x y : List Nat) : Bool :=
  if x.length < y.length then
    false
  else
    decide (memcmp (x.drop (x.length - y.length)) y y.length = 0)

/-! ## `TrimFunctionBase` with custom trim characters (lines 249-282) -/

/-- Modelled from the spec: `stringImpl::trimAscii<leftTrim, rightTrim>(result, input,
shouldTrim)`, whose source is not in this slice. Section 4.4: trimming "removes characters
... from either or both ends per variant" and the result "is a sub-range of the original":
the bytes `shouldTrim` accepts are dropped from the left end when `leftTrim`, from the right
end when `rightTrim`. -/
def stringImpl.trimAscii (leftTrim rightTrim : Bool) (input : List Nat)
    (shouldTrim : Nat → Bool) : List Nat :=
  let afterLeft := if leftTrim then input.dropWhile shouldTrim else input
  if rightTrim then (afterLeft.reverse.dropWhile shouldTrim).reverse else afterLeft

namespace TrimFunctionBase

/-- The message of `VELOX_UNSUPPORTED` (lines 256-257). -/
def unsupportedMessage : String :=
  "trim functions with custom trim characters and non-ASCII inputs are not supported yet"

/-- Lines 274-281: the predicate passed to `trimAscii`, a loop over `trimCharacters` that
returns `true` at the first character equal to `c`. -/
def isTrimCharacter (trimCharacters : List Nat) (c : Nat) : Bool :=
  trimCharacters.any (fun t => c == t)

/-- Lines 268-282: `callAscii(result, input, trimCharacters)`, the overload with custom trim
characters, of `TrimFunctionBase<T, leftTrim, rightTrim>`. -/
def callAscii (leftTrim rightTrim : Bool) (input trimCharacters : List Nat) :
    Except VeloxError (List Nat) :=
  .ok (stringImpl.trimAscii leftTrim rightTrim input (isTrimCharacter trimCharacters))

/-- Lines 249-259: `call(result, input, trimCharacters)`, the overload with custom trim
characters: the guard is on the encoding of `trimCharacters`. -/
def call (leftTrim rightTrim : Bool) (input trimCharacters : List Nat) :
    Except VeloxError (List Nat) :=
  if stringCore.isAscii trimCharacters then
    callAscii leftTrim rightTrim input trimCharacters
  else
    .error (.unsupported unsupportedMessage)

end TrimFunctionBase

/-! ## `NormalizeFunction` (lines 594-654) -/

namespace NormalizeFunction

/-- The option bits `UTF8PROC_STABLE`, `UTF8PROC_COMPOSE`, `UTF8PROC_DECOMPOSE` and
`UTF8PROC_COMPAT` of the utf8proc library, which the kernel takes from its headers. -/
structure Utf8procOptions where
  stable : Nat
  compose : Nat
  decompose : Nat
  compat : Nat

/-- The signature of `utf8proc_map(str, strlen, &output, options)`: from the input bytes and
the options to the returned length (negative on failure) and the bytes of the buffer stored in
`output`. The kernel is parametric in the transform. -/
abbrev Utf8procMap := List Nat → Nat → Int × List Nat

/-- The exception `std::unordered_map::at` throws for a key that is not in the map. -/
inductive StdException where
  | outOfRange
  deriving DecidableEq, Repr

/-- Lines 598-604: the map `normalizationOptions`, as the list of its entries. -/
def normalizationOptions (o : Utf8procOptions) : List (List Nat × Nat) :=
  [(asciiBytes "NFC", o.stable ||| o.compose),
   (asciiBytes "NFD", o.stable ||| o.decompose),
   (asciiBytes "NFKC", o.stable ||| o.compose ||| o.compat),
   (asciiBytes "NFKD", o.stable ||| o.decompose ||| o.compat)]

/-- The value of `normalizationOptions.count(key)`: the number of entries with the key. -/
def count (o : Utf8procOptions) (key : List Nat) : Nat :=
  ((normalizationOptions o).filter (fun entry => entry.1 = key)).length

/-- Lines 606-616: the hook `initialize` of the kernel; `form` is `none` for a null pointer.
`VELOX_USER_CHECK_NOT_NULL` and `VELOX_USER_CHECK_NE` raise user errors. -/
def initializeForm (o : Utf8procOptions) (form : Option (List Nat)) : Except VeloxError Unit :=
  match form with
  | none => .error (.userError "form must not be null")
  | some form =>
    if count o form ≠ 0 then .ok ()
    else .error (.userError "Normalization form must be one of [NFD, NFC, NFKD, NFKC]")

/-- Lines 633-653: `doCall`. `normalizationOptions.at(form)` throws `std::out_of_range` for a
missing key. For a length that is not negative the result is resized to `outputLength` bytes,
copied from `output`; the copy is skipped when `result.data()` is null, which after the
`resize` is the case of an empty result only. -/
def doCall (o : Utf8procOptions) (utf8proc_map : Utf8procMap) (string form : List Nat) :
    Except StdException (List Nat) :=
  match (normalizationOptions o).lookup form with
  | none => .error .outOfRange
  | some options =>
    let outputLength := (utf8proc_map string options).1
    let output := (utf8proc_map string options).2
    if outputLength < 0 then
      .ok string
    else
      .ok ((List.range outputLength.toNat).map (fun i => output.getD i 0))

/-- Lines 624-629: `call(result, string, form)`. -/
def call (o : Utf8procOptions) (utf8proc_map : Utf8procMap) (string form : List Nat) :
    Except StdException (List Nat) :=
  doCall o utf8proc_map string form

/-- Lines 618-622: `call(result, string)`, with the form `"NFC"`. -/
def callWithoutForm (o : Utf8procOptions) (utf8proc_map : Utf8procMap) (string : List Nat) :
    Except StdException (List Nat) :=
  doCall o utf8proc_map string (asciiBytes "NFC")

/-- The four forms of Unicode normalization. -/
def validForms : List (List Nat) :=
  [asciiBytes "NFC", asciiBytes "NFD", asciiBytes "NFKC", asciiBytes "NFKD"]

end NormalizeFunction

/-! ## `PadFunctionBase` (lines 353-390) -/

/-- Modelled from the spec: `stringImpl::pad<lpad, isAscii>(result, string, size, padString)`,
whose source is not in this slice. Section 4.4: "if `targetLength <= currentLength`, the
result is `s` truncated to `targetLength` characters (no padding occurs ...). Otherwise the pad
string is repeated/truncated as needed and concatenated on the requested side; `padString`
must be non-empty — an empty pad string with `targetLength > currentLength` is a hard error".
The comment of lines 354-361 adds that the size must not be negative. The padding is whole
copies of the pad string followed by its first characters. -/
def stringImpl.pad (decode : Decoder) (lpad isAscii : Bool) (string : List Nat) (size : Int)
    (padString : List Nat) : Except VeloxError (List Nat) :=
  if size < 0 then
    .error (.userError "pad size must not be negative")
  else
    let stringCharLength := stringImpl.length decode isAscii string
    if size ≤ stringCharLength then
      .ok (viewOf string (stringCore.getByteRange decode isAscii string 1 size))
    else if padString.length = 0 then
      .error (.userError "padString must not be empty")
    else
      let padStringCharLength := stringImpl.length decode isAscii padString
      let fullPaddingCount := (size - stringCharLength) / padStringCharLength
      let partialPadCharLength := (size - stringCharLength) % padStringCharLength
      let padding := (List.replicate fullPaddingCount.toNat padString).flatten ++
        viewOf padString
          (stringCore.getByteRange decode isAscii padString 1 partialPadCharLength)
      .ok (if lpad then padding ++ string else string ++ padding)

namespace PadFunctionBase

/-- Lines 369-375: `call` of `PadFunctionBase<T, lpad>`, the generic path. -/
def call (decode : Decoder) (lpad : Bool) (string : List Nat) (size : Int)
    (padString : List Nat) : Except VeloxError (List Nat) :=
  stringImpl.pad decode lpad false string size padString

/-- Lines 377-383: `callAscii` of `PadFunctionBase<T, lpad>`, the ascii path. -/
def callAscii (decode : Decoder) (lpad : Bool) (string : List Nat) (size : Int)
    (padString : List Nat) : Except VeloxError (List Nat) :=
  stringImpl.pad decode lpad true string size padString

/-- The characters of the padding that brings a string of `count` characters to `size`
characters: whole copies of the characters of the pad string, then its first characters. -/
def paddingCharacters (padCharacters : List (List Nat)) (count : Nat) (size : Int) :
    List (List Nat) :=
  (List.replicate ((size - count) / padCharacters.length).toNat padCharacters).flatten ++
    padCharacters.take ((size - count) % padCharacters.length).toNat

end PadFunctionBase

namespace HammingDistanceFunction

/-- The assumption of forward progress on the decoder: called inside the buffer, a valid code
point (a non-negative value) comes with a consumed size of at least 1. Every other value is
negative, the marker of a malformed unit, whose negation the loop advances by. -/
def DecoderProgress (decode : Decoder) : Prop :=
  ∀ (buffer : List Nat) (position : Int), 0 ≤ position → position < (buffer.length : Int) →
    0 ≤ (decode buffer position).1 → 1 ≤ (decode buffer position).2

/-- Line 457: an upper bound on the iterations left in state `s`, the smaller of the two
distances to the end of the buffers. -/
def remaining (left right : List Nat) (s : State) : Nat :=
  min ((left.length : Int) - s.leftPosition).toNat ((right.length : Int) - s.rightPosition).toNat

end HammingDistanceFunction

/-! ## `LevenshteinDistanceFunction::doCall` with every index checked -/

namespace LevenshteinDistanceFunction

/-- The element read `v[index]` with the index checked: `none` when `index` is not within
`[0, v.size())`. -/
def elementAt {β : Type} (v : List β) (index : Int) : Option β :=
  if 0 ≤ index ∧ index < (v.length : Int) then v[index.toNat]? else none

/-- The element write `v[index] = value` with the index checked: `none` when `index` is not
within `[0, v.size())`. -/
def storeAt {β : Type} (v : List β) (index : Int) (value : β) : Option (List β) :=
  if 0 ≤ index ∧ index < (v.length : Int) then some (v.set index.toNat value) else none

/-- Lines 578-587 with every index checked: the reads `distances[j]`, `leftCodePoints[i]`,
`rightCodePoints[j]`, `distances[j - 1]` and the write `distances[j]`. -/
def innerBodyInBounds {α : Type} [DecidableEq α] (leftCodePoints rightCodePoints : List α)
    (i : Nat) (state : List Int × Int) (j : Nat) : Option (List Int × Int) :=
  let distances := state.1
  let leftUpDistance := state.2
  (elementAt distances (j : Int)).bind fun leftUpDistanceNext =>
  (elementAt leftCodePoints (i : Int)).bind fun leftCodePoint =>
  (elementAt rightCodePoints (j : Int)).bind fun rightCodePoint =>
  if leftCodePoint = rightCodePoint then
    (storeAt distances (j : Int) leftUpDistance).map fun distances =>
      (distances, leftUpDistanceNext)
  else
    (elementAt distances ((j : Int) - 1)).bind fun left =>
    (elementAt distances (j : Int)).bind fun up =>
    (storeAt distances (j : Int) (wrapInt 32 (min left (min leftUpDistance up) + 1))).map
      fun distances => (distances, leftUpDistanceNext)

/-- Lines 571-588 with every index checked: the reads `distances[0]`, `leftCodePoints[i]`,
`rightCodePoints[0]`, the write `distances[0]`, and the inner loop. -/
def outerBodyInBounds {α : Type} [DecidableEq α] (leftCodePoints rightCodePoints : List α)
    (distances : List Int) (i : Nat) : Option (List Int) :=
  (elementAt distances 0).bind fun leftUpDistance =>
  (elementAt leftCodePoints (i : Int)).bind fun leftCodePoint =>
  (elementAt rightCodePoints 0).bind fun rightCodePoint =>
  (if leftCodePoint = rightCodePoint then
      storeAt distances 0 (i : Int)
    else
      (elementAt distances 0).bind fun up =>
        storeAt distances 0 (wrapInt 32 (min (i : Int) up + 1))).bind fun distances =>
  ((List.range' 1 (rightCodePoints.length - 1)).foldlM
    (innerBodyInBounds leftCodePoints rightCodePoints i) (distances, leftUpDistance)).map
    Prod.fst

/-- Lines 549-590 with every index checked, the final read `distances[rightCodePointsSize - 1]`
included: `none` when an index is out of bounds, otherwise the outcome of the kernel. -/
def doCallOrderedInBounds {α : Type} [DecidableEq α] (leftCodePoints rightCodePoints : List α) :
    Option (Except VeloxError Int) :=
  if rightCodePoints.length = 0 then
    some (.ok (leftCodePoints.length : Int))
  else
    let combinedInputSize := (leftCodePoints.length * rightCodePoints.length) % 2 ^ 64
    if ¬ combinedInputSize ≤ kMaxCombinedInputSize then
      some (.error (.userError
        "The combined inputs size exceeded max Levenshtein distance combined input size"))
    else
      ((List.range leftCodePoints.length).foldlM
        (outerBodyInBounds leftCodePoints rightCodePoints)
        (initDistances rightCodePoints.length)).bind fun distances =>
      (elementAt distances ((rightCodePoints.length : Int) - 1)).map Except.ok

/-- Lines 533-591 with every index checked. -/
def doCallInBounds {α : Type} [DecidableEq α] (leftCodePoints rightCodePoints : List α) :
    Option (Except VeloxError Int) :=
  if leftCodePoints.length < rightCodePoints.length then
    doCallOrderedInBounds rightCodePoints leftCodePoints
  else
    doCallOrderedInBounds leftCodePoints rightCodePoints

end LevenshteinDistanceFunction

/-! ## `LevenshteinDistanceFunction::doCall` with every `int` operation checked -/

namespace LevenshteinDistanceFunction

/-- A value stored in the row `distances`, checked against a bound: `none` unless
`0 <= value <= bound`. -/
def storedValue (bound value : Int) : Option Int :=
  if 0 ≤ value ∧ value ≤ bound then some value else none

/-- Lines 564-568 with the `int` sum `i + 1` checked for overflow (it is also the value of the
counter after `i++`) and the value pushed checked against `bound`. -/
def initDistancesNoOverflow (bound : Int) (rightCodePointsSize : Nat) : Option (List Int) :=
  (List.range rightCodePointsSize).foldlM
    (fun distances (i : Nat) =>
      (checkedInt 32 ((i : Int) + 1)).bind fun next =>
      (storedValue bound next).map fun value => distances ++ [value]) []

/-- Lines 578-587 with the `int32_t` sum `min(...) + 1` and the counter increment `j++`
checked for overflow, and the value stored in `distances[j]` checked against `bound`. -/
def innerBodyNoOverflow {α : Type} [DecidableEq α] (bound : Int)
    (leftCodePoints rightCodePoints : List α) (i : Nat) (state : List Int × Int) (j : Nat) :
    Option (List Int × Int) :=
  let distances := state.1
  let leftUpDistance := state.2
  let leftUpDistanceNext := distances.getD j 0
  (if leftCodePoints[i]? = rightCodePoints[j]? then
      storedValue bound leftUpDistance
    else
      (checkedInt 32
        (min (distances.getD (j - 1) 0) (min leftUpDistance (distances.getD j 0)) + 1)).bind
        (storedValue bound)).bind fun value =>
  (checkedInt 32 ((j : Int) + 1)).map fun _ =>
    (distances.set j value, leftUpDistanceNext)

/-- Lines 571-588 with the `int` sum `min(i, distances[0]) + 1` and the counter increment
`i++` checked for overflow, and the value stored in `distances[0]` checked against `bound`. -/
def outerBodyNoOverflow {α : Type} [DecidableEq α] (bound : Int)
    (leftCodePoints rightCodePoints : List α) (distances : List Int) (i : Nat) :
    Option (List Int) :=
  let leftUpDistance := distances.getD 0 0
  (if leftCodePoints[i]? = rightCodePoints[0]? then
      storedValue bound (i : Int)
    else
      (checkedInt 32 (min (i : Int) (distances.getD 0 0) + 1)).bind
        (storedValue bound)).bind fun value =>
  ((List.range' 1 (rightCodePoints.length - 1)).foldlM
    (innerBodyNoOverflow bound leftCodePoints rightCodePoints i)
    (distances.set 0 value, leftUpDistance)).bind fun state =>
  (checkedInt 32 ((i : Int) + 1)).map fun _ => state.1

/-- Lines 549-590 with every `int` operation checked for overflow and every value stored in
the row checked to lie between 0 and `max(leftCodePointsSize, rightCodePointsSize)`: `none`
when a check fails, otherwise the outcome of the kernel. -/
def doCallOrderedNoOverflow {α : Type} [DecidableEq α] (leftCodePoints rightCodePoints : List α) :
    Option (Except VeloxError Int) :=
  if rightCodePoints.length = 0 then
    some (.ok (leftCodePoints.length : Int))
  else
    let combinedInputSize := (leftCodePoints.length * rightCodePoints.length) % 2 ^ 64
    if ¬ combinedInputSize ≤ kMaxCombinedInputSize then
      some (.error (.userError
        "The combined inputs size exceeded max Levenshtein distance combined input size"))
    else
      let bound : Int := max (leftCodePoints.length : Int) (rightCodePoints.length : Int)
      (initDistancesNoOverflow bound rightCodePoints.length).bind fun distances =>
      ((List.range leftCodePoints.length).foldlM
        (outerBodyNoOverflow bound leftCodePoints rightCodePoints) distances).map
        fun distances => .ok (distances.getD (rightCodePoints.length - 1) 0)

/-- Lines 533-591 with every `int` operation and every stored value checked. -/
def doCallNoOverflow {α : Type} [DecidableEq α] (leftCodePoints rightCodePoints : List α) :
    Option (Except VeloxError Int) :=
  if leftCodePoints.length < rightCodePoints.length then
    doCallOrderedNoOverflow rightCodePoints leftCodePoints
  else
    doCallOrderedNoOverflow leftCodePoints rightCodePoints

end LevenshteinDistanceFunction

/-! ## The decoder on valid units -/

/-- The contract of the decoder on valid units: a valid code point (a non-negative value) whose
bytes lie within the buffer is decoded from those bytes alone, so the same bytes, wherever they
stand in whichever buffer, decode to the same code point and size. -/
def DecoderLocal (decode : Decoder) : Prop :=
  ∀ (buffer other : List Nat) (position place : Nat),
    0 ≤ (decode buffer position).1 →
    (position : Int) + (decode buffer position).2 ≤ buffer.length →
    (other.drop place).take (decode buffer position).2.toNat
      = (buffer.drop position).take (decode buffer position).2.toNat →
    decode other place = decode buffer position

/-- A valid unit of the decoder: a non-negative code point together with the bytes it is
decoded from, at some place of some buffer that holds them all. Used in the proofs only. -/
def ValidUnit (decode : Decoder) (u : Int × List Nat) : Prop :=
  0 ≤ u.1 ∧ 0 < u.2.length ∧ ∃ (buffer : List Nat) (position : Nat),
    decode buffer position = (u.1, (u.2.length : Int)) ∧
    position + u.2.length ≤ buffer.length ∧
    (buffer.drop position).take u.2.length = u.2

end Velox

/-! # Theorems -/

namespace Velox

namespace LevenshteinDistanceFunction

/-! ### The reference distance -/

theorem lev_nil_nil {α : Type} [DecidableEq α] : lev ([] : List α) [] = 0 := by
  simp [lev]

theorem lev_nil_cons {α : Type} [DecidableEq α] (y : α) (ys : List α) : lev [] (y :: ys) = lev [] ys + 1 := by
  simp [lev, Levenshtein.defaultCost, Nat.add_comm]

theorem lev_cons_nil {α : Type} [DecidableEq α] (x : α) (xs : List α) : lev (x :: xs) [] = lev xs [] + 1 := by
  simp [lev, Levenshtein.defaultCost, Nat.add_comm]

theorem lev_cons_cons {α : Type} [DecidableEq α] (x y : α) (xs ys : List α) :
    lev (x :: xs) (y :: ys) =
      min (lev xs (y :: ys) + 1) (min (lev (x :: xs) ys + 1) (lev xs ys + if x = y then 0 else 1)) := by
  simp [lev, Levenshtein.defaultCost, Nat.add_comm]

theorem lev_nil_left {α : Type} [DecidableEq α] (ys : List α) : lev [] ys = ys.length := by
  induction ys with
  | nil => exact lev_nil_nil
  | cons y ys ih => rw [lev_nil_cons, ih, List.length_cons]

theorem lev_nil_right {α : Type} [DecidableEq α] (xs : List α) : lev xs [] = xs.length := by
  induction xs with
  | nil => exact lev_nil_nil
  | cons x xs ih => rw [lev_cons_nil, ih, List.length_cons]

theorem lev_le_of_editScript {α : Type} [DecidableEq α] {xs ys : List α} {n : Nat} (h : EditScript xs ys n) :
    lev xs ys ≤ n := by
  induction h with
  | done => simp [lev_nil_nil]
  | keep x _ ih =>
    rw [lev_cons_cons]; simp only [if_true]; omega
  | substitute x y _ ih =>
    rw [lev_cons_cons]; split <;> omega
  | @delete x xs ys n _ ih =>
    cases ys with
    | nil => rw [lev_cons_nil]; omega
    | cons y ys => rw [lev_cons_cons]; omega
  | @insert y xs ys n _ ih =>
    cases xs with
    | nil => rw [lev_nil_cons]; omega
    | cons x xs => rw [lev_cons_cons]; omega

theorem editScript_lev {α : Type} [DecidableEq α] (xs ys : List α) : EditScript xs ys (lev xs ys) := by
  induction xs generalizing ys with
  | nil =>
    induction ys with
    | nil => rw [lev_nil_nil]; exact .done
    | cons y ys ih => rw [lev_nil_cons]; exact .insert y ih
  | cons x xs ihx =>
    induction ys with
    | nil => rw [lev_cons_nil]; exact .delete x (ihx [])
    | cons y ys ihy =>
      rw [lev_cons_cons]
      rcases Nat.le_total (lev xs (y :: ys) + 1)
          (min (lev (x :: xs) ys + 1) (lev xs ys + if x = y then 0 else 1)) with h | h
      · rw [Nat.min_eq_left h]; exact .delete x (ihx _)
      · rw [Nat.min_eq_right h]
        rcases Nat.le_total (lev (x :: xs) ys + 1) (lev xs ys + if x = y then 0 else 1) with h2 | h2
        · rw [Nat.min_eq_left h2]; exact .insert y ihy
        · rw [Nat.min_eq_right h2]
          by_cases hxy : x = y
          · subst hxy; simp only [if_true, Nat.add_zero]; exact .keep x (ihx _)
          · simp only [hxy, if_false]; exact .substitute x y (ihx _)


theorem EditScript.symm {α : Type} {xs ys : List α} {n : Nat} (h : EditScript xs ys n) :
    EditScript ys xs n := by
  induction h with
  | done => exact .done
  | keep x _ ih => exact .keep x ih
  | substitute x y _ ih => exact .substitute y x ih
  | delete x _ ih => exact .insert x ih
  | insert y _ ih => exact .delete y ih

theorem EditScript.keep_snoc {α : Type} (z : α) {xs ys : List α} {n : Nat} (h : EditScript xs ys n) :
    EditScript (xs ++ [z]) (ys ++ [z]) n := by
  induction h with
  | done => exact .keep z .done
  | keep x _ ih => exact .keep x ih
  | substitute x y _ ih => exact .substitute x y ih
  | delete x _ ih => exact .delete x ih
  | insert y _ ih => exact .insert y ih

theorem EditScript.substitute_snoc {α : Type} (z w : α) {xs ys : List α} {n : Nat}
    (h : EditScript xs ys n) : EditScript (xs ++ [z]) (ys ++ [w]) (n + 1) := by
  induction h with
  | done => exact .substitute z w .done
  | keep x _ ih => exact .keep x ih
  | substitute x y _ ih => exact .substitute x y ih
  | delete x _ ih => exact .delete x ih
  | insert y _ ih => exact .insert y ih

theorem EditScript.delete_snoc {α : Type} (z : α) {xs ys : List α} {n : Nat} (h : EditScript xs ys n) :
    EditScript (xs ++ [z]) ys (n + 1) := by
  induction h with
  | done => exact .delete z .done
  | keep x _ ih => exact .keep x ih
  | substitute x y _ ih => exact .substitute x y ih
  | delete x _ ih => exact .delete x ih
  | insert y _ ih => exact .insert y ih

theorem EditScript.insert_snoc {α : Type} (w : α) {xs ys : List α} {n : Nat} (h : EditScript xs ys n) :
    EditScript xs (ys ++ [w]) (n + 1) :=
  (h.symm.delete_snoc w).symm

theorem EditScript.reverse {α : Type} {xs ys : List α} {n : Nat} (h : EditScript xs ys n) :
    EditScript xs.reverse ys.reverse n := by
  induction h with
  | done => exact .done
  | keep x _ ih => simpa using ih.keep_snoc x
  | substitute x y _ ih => simpa using ih.substitute_snoc x y
  | delete x _ ih => simpa using ih.delete_snoc x
  | insert y _ ih => simpa using ih.insert_snoc y

theorem lev_comm {α : Type} [DecidableEq α] (xs ys : List α) : lev xs ys = lev ys xs :=
  Nat.le_antisymm (lev_le_of_editScript (editScript_lev ys xs).symm)
    (lev_le_of_editScript (editScript_lev xs ys).symm)

theorem lev_reverse {α : Type} [DecidableEq α] (xs ys : List α) : lev xs.reverse ys.reverse = lev xs ys := by
  apply Nat.le_antisymm
  · exact lev_le_of_editScript (editScript_lev xs ys).reverse
  · have h := lev_le_of_editScript (editScript_lev xs.reverse ys.reverse).reverse
    simpa using h

theorem lev_snoc_snoc {α : Type} [DecidableEq α] (x y : α) (xs ys : List α) :
    lev (xs ++ [x]) (ys ++ [y]) =
      min (lev xs (ys ++ [y]) + 1)
        (min (lev (xs ++ [x]) ys + 1) (lev xs ys + if x = y then 0 else 1)) := by
  rw [← lev_reverse (xs ++ [x]) (ys ++ [y]), ← lev_reverse xs (ys ++ [y]),
    ← lev_reverse (xs ++ [x]) ys, ← lev_reverse xs ys]
  simp only [List.reverse_append, List.reverse_cons, List.reverse_nil, List.nil_append,
    List.singleton_append]
  exact lev_cons_cons x y xs.reverse ys.reverse

theorem lev_self {α : Type} [DecidableEq α] (xs : List α) : lev xs xs = 0 := by
  have h : EditScript xs xs 0 := by
    induction xs with
    | nil => exact .done
    | cons x xs ih => exact .keep x ih
  exact Nat.le_zero.mp (lev_le_of_editScript h)

theorem lev_le_max {α : Type} [DecidableEq α] (xs ys : List α) : lev xs ys ≤ max xs.length ys.length := by
  induction xs generalizing ys with
  | nil => rw [lev_nil_left]; exact Nat.le_max_right _ _
  | cons x xs ih =>
    cases ys with
    | nil => rw [lev_nil_right]; exact Nat.le_max_left _ _
    | cons y ys =>
      have h := ih ys
      rw [lev_cons_cons]
      simp only [List.length_cons]
      split <;> omega

theorem lev_le_cons_right {α : Type} [DecidableEq α] (xs : List α) (y : α) (ys : List α) :
    lev xs ys ≤ lev xs (y :: ys) + 1 := by
  obtain ⟨n, hn, h⟩ : ∃ n, n = lev xs (y :: ys) ∧ EditScript xs (y :: ys) n :=
    ⟨_, rfl, editScript_lev _ _⟩
  rw [← hn]
  clear hn
  generalize hb : y :: ys = b at h
  induction h generalizing ys with
  | done => cases hb
  | keep x h _ =>
    cases hb
    exact lev_le_of_editScript (.delete _ h)
  | substitute x y' h _ =>
    cases hb
    exact Nat.le_succ_of_le (lev_le_of_editScript (.delete _ h))
  | delete x _ ih =>
    have := ih ys hb
    exact Nat.le_trans (lev_le_of_editScript (.delete x (editScript_lev _ _))) (by omega)
  | insert y' h _ =>
    cases hb
    exact Nat.le_succ_of_le ( Nat.le_succ_of_le (lev_le_of_editScript h))

theorem lev_le_snoc_right {α : Type} [DecidableEq α] (xs ys : List α) (y : α) : lev xs ys ≤ lev xs (ys ++ [y]) + 1 := by
  have h := lev_le_cons_right xs.reverse y ys.reverse
  have e : y :: ys.reverse = (ys ++ [y]).reverse := by simp
  rw [e, lev_reverse, lev_reverse] at h
  exact h

theorem lev_le_snoc_left {α : Type} [DecidableEq α] (xs ys : List α) (x : α) : lev xs ys ≤ lev (xs ++ [x]) ys + 1 := by
  rw [lev_comm xs ys, lev_comm (xs ++ [x]) ys]
  exact lev_le_snoc_right ys xs x


/-! ### Sequences of single-element edits -/

theorem editStep_cons {α : Type} (z : α) {a b : List α} (h : EditStep a b) :
    EditStep (z :: a) (z :: b) := by
  cases h with
  | insert l x r => exact .insert (z :: l) x r
  | delete l x r => exact .delete (z :: l) x r
  | substitute l x y r => exact .substitute (z :: l) x y r

theorem editSequence_cons {α : Type} (z : α) {a b : List α} {n : Nat}
    (h : EditSequence a b n) : EditSequence (z :: a) (z :: b) n := by
  induction h with
  | refl a => exact .refl _
  | step hs _ ih => exact .step (editStep_cons z hs) ih

theorem editSequence_snoc {α : Type} {a b c : List α} {n : Nat}
    (h : EditSequence a b n) (hs : EditStep b c) : EditSequence a c (n + 1) := by
  induction h with
  | refl a => exact .step hs (.refl _)
  | step hs' _ ih => exact .step hs' (ih hs)

theorem editSequence_of_editScript {α : Type} {a b : List α} {n : Nat}
    (h : EditScript a b n) : EditSequence a b n := by
  induction h with
  | done => exact .refl []
  | keep x _ ih => exact editSequence_cons x ih
  | substitute x y _ ih => exact .step (.substitute [] x y _) (editSequence_cons y ih)
  | delete x _ ih => exact .step (.delete [] x _) ih
  | insert y _ ih => exact editSequence_snoc ih (.insert [] y _)

theorem lev_le_substitute_head {α : Type} [DecidableEq α] (a : List α) (x y : α) (r : List α) :
    lev a (y :: r) ≤ lev a (x :: r) + 1 := by
  induction a with
  | nil => simp [lev_nil_left]
  | cons w a ih =>
    have h1 := lev_le_cons_right a x r
    rw [lev_cons_cons, lev_cons_cons]
    split <;> split <;> omega

theorem lev_le_of_editStep {α : Type} [DecidableEq α] {b c : List α} (h : EditStep b c) :
    ∀ a : List α, lev a c ≤ lev a b + 1 := by
  have key : ∀ (l : List α) (b' c' : List α), (∀ a, lev a c' ≤ lev a b' + 1) →
      ∀ a, lev a (l ++ c') ≤ lev a (l ++ b') + 1 := by
    intro l
    induction l with
    | nil => intro b' c' h a; simpa using h a
    | cons z l ihl =>
      intro b' c' h a
      have hl := ihl b' c' h
      induction a with
      | nil =>
        have := hl []
        simp only [lev_nil_left, List.cons_append, List.length_cons] at this ⊢
        omega
      | cons w a iha =>
        have h1 := hl (w :: a)
        have h2 := hl a
        simp only [List.cons_append] at iha ⊢
        rw [lev_cons_cons, lev_cons_cons]
        split <;> omega
  cases h with
  | insert l x r =>
    refine key l r (x :: r) (fun a => ?_)
    exact lev_le_of_editScript (.insert x (editScript_lev a r))
  | delete l x r => exact key l (x :: r) r (fun a => lev_le_cons_right a x r)
  | substitute l x y r => exact key l (x :: r) (y :: r) (fun a => lev_le_substitute_head a x y r)

theorem lev_le_of_editSequence {α : Type} [DecidableEq α] {a b : List α} {n : Nat}
    (h : EditSequence a b n) : lev a b ≤ n := by
  have key : ∀ {b c : List α} {n : Nat}, EditSequence b c n → ∀ a, lev a c ≤ lev a b + n := by
    intro b c n h
    induction h with
    | refl _ => intro a; omega
    | step hs _ ih =>
      intro a
      have h1 := lev_le_of_editStep hs a
      have h2 := ih a
      omega
  have := key h a
  rw [lev_self] at this
  omega

/-! ### The dynamic-programming row -/

theorem wrapInt32_eq_self (x : Int) (h1 : -2147483648 ≤ x) (h2 : x < 2147483648) :
    wrapInt 32 x = x := by
  unfold wrapInt
  norm_num
  omega

theorem getD_append_cons {β : Type} (P : List β) (v : β) (S : List β) (d : β) :
    (P ++ v :: S).getD P.length d = v := by
  induction P with
  | nil => rfl
  | cons p P ih => simpa using ih

theorem getD_append_cons_succ {β : Type} (P : List β) (v w : β) (S : List β) (d : β) :
    (P ++ v :: w :: S).getD (P.length + 1) d = w := by
  induction P with
  | nil => rfl
  | cons p P ih => simpa using ih

theorem set_append_cons_succ {β : Type} (P : List β) (v w x : β) (S : List β) :
    (P ++ v :: w :: S).set (P.length + 1) x = P ++ v :: x :: S := by
  induction P with
  | nil => rfl
  | cons p P ih => simp [ih]

theorem getElem?_append_cons {β : Type} (P : List β) (v : β) (S : List β) :
    (P ++ v :: S)[P.length]? = some v := by
  induction P with
  | nil => simp
  | cons p P ih => simpa using ih

theorem foldl_innerBody {α : Type} [DecidableEq α] (left : List α) (i : Nat) (c : α)
    (hc : left[i]? = some c) :
    ∀ (S : List Int) (rs : List α) (P : List Int) (v up : Int) (Rpre : List α),
      S.length = rs.length → Rpre.length = P.length + 1 →
      ((List.range' (P.length + 1) S.length).foldl (innerBody left (Rpre ++ rs) i)
        (P ++ v :: S, up)).1 = P ++ v :: rowStep c rs S up v := by
  intro S
  induction S with
  | nil => intro rs P v up Rpre _ _; cases rs <;> simp [rowStep]
  | cons d S ih =>
    intro rs P v up Rpre hS hlen
    cases rs with
    | nil => simp at hS
    | cons r rs =>
      have hS2 : S.length = rs.length := by simpa using hS
      have hr : (Rpre ++ r :: rs)[P.length + 1]? = some r := by
        rw [← hlen]; exact getElem?_append_cons Rpre r rs
      have hstep : innerBody left (Rpre ++ r :: rs) i (P ++ v :: d :: S, up) (P.length + 1)
          = ((P ++ [v]) ++ (if c = r then up else wrapInt 32 (min v (min up d) + 1)) :: S, d) := by
        unfold innerBody
        simp only [hc, hr, Option.some.injEq, getD_append_cons_succ, set_append_cons_succ,
          Nat.add_sub_cancel, getD_append_cons]
        split <;> simp
      rw [List.length_cons, List.range'_succ, List.foldl_cons, hstep]
      have hR : Rpre ++ r :: rs = (Rpre ++ [r]) ++ rs := by simp
      rw [hR]
      have := ih rs (P ++ [v]) (if c = r then up else wrapInt 32 (min v (min up d) + 1)) d
        (Rpre ++ [r]) hS2 (by simp [hlen])
      rw [List.length_append, List.length_singleton] at this
      rw [this]
      simp [rowStep]


theorem levRow_length {α : Type} [DecidableEq α] (L : List α) (rs Rp : List α) :
    (levRow L Rp rs).length = rs.length := by
  induction rs generalizing Rp with
  | nil => rfl
  | cons r rs ih => simp [levRow, ih]

/-- The value the code stores in a cell is the distance of the two extended inputs. -/
theorem cell_eq_lev {α : Type} [DecidableEq α] (L Rp : List α) (c r : α)
    (hL : L.length < 2000000000) (hR : Rp.length < 2000000000) :
    (if c = r then (lev L Rp : Int)
      else wrapInt 32 (min (lev (L ++ [c]) Rp : Int) (min (lev L Rp : Int) (lev L (Rp ++ [r]) : Int)) + 1))
      = (lev (L ++ [c]) (Rp ++ [r]) : Int) := by
  have h1 := lev_le_snoc_right L Rp r
  have h2 := lev_le_snoc_left L Rp c
  have h3 := lev_le_max L Rp
  have h4 := lev_snoc_snoc c r L Rp
  by_cases hcr : c = r
  · simp only [hcr, if_true] at h4 ⊢
    subst hcr
    omega
  · simp only [hcr, if_false] at h4 ⊢
    rw [wrapInt32_eq_self _ (by omega) (by omega)]
    omega

theorem rowStep_levRow {α : Type} [DecidableEq α] (L : List α) (c : α)
    (hL : L.length < 2000000000) :
    ∀ (rs Rp : List α), (Rp ++ rs).length < 2000000000 →
      rowStep c rs (levRow L Rp rs) (lev L Rp) (lev (L ++ [c]) Rp) = levRow (L ++ [c]) Rp rs := by
  intro rs
  induction rs with
  | nil => intro Rp _; simp [rowStep, levRow]
  | cons r rs ih =>
    intro Rp hR
    have hR1 : Rp.length < 2000000000 := by simp at hR; omega
    have hR2 : ((Rp ++ [r]) ++ rs).length < 2000000000 := by simpa using hR
    simp only [levRow, rowStep]
    rw [cell_eq_lev L Rp c r hL hR1, ih (Rp ++ [r]) hR2]


theorem outerBody_levRow {α : Type} [DecidableEq α] (left right : List α) (i : Nat) (c : α)
    (hc : left[i]? = some c) (hi : i < 2000000000) (hr : right.length < 2000000000)
    (L : List α) (hL : L.length = i) :
    outerBody left right (levRow L [] right) i = levRow (L ++ [c]) [] right := by
  cases right with
  | nil => simp [outerBody, levRow]
  | cons r0 rs =>
    have h1 := lev_le_snoc_right L [] r0
    have h3 := lev_le_max L [r0]
    have h4 := lev_snoc_snoc c r0 L []
    rw [lev_nil_right, lev_nil_right] at h4
    rw [lev_nil_right] at h1
    simp only [List.nil_append, List.length_append, List.length_singleton,
      List.length_cons, List.length_nil] at h1 h3 h4
    have hv0 : (if c = r0 then (i : Int) else wrapInt 32 (min (i : Int) (lev L [r0] : Int) + 1))
        = (lev (L ++ [c]) [r0] : Int) := by
      by_cases hcr : c = r0
      · simp only [hcr, if_true] at h4 ⊢
        omega
      · simp only [hcr, if_false] at h4 ⊢
        rw [wrapInt32_eq_self _ (by omega) (by omega)]
        omega
    unfold outerBody
    simp only [levRow, List.nil_append, List.getD_cons_zero, List.set_cons_zero, hc,
      List.getElem?_cons_zero, Option.some.injEq, List.length_cons, Nat.add_sub_cancel]
    have hfold := foldl_innerBody left i c hc (levRow L [r0] rs) rs []
      (if c = r0 then (i : Int) else wrapInt 32 (min (i : Int) (lev L [r0] : Int) + 1))
      (lev L [r0] : Int) [r0] (levRow_length L rs [r0]) rfl
    simp only [List.length_nil, Nat.zero_add, List.nil_append, levRow_length,
      List.singleton_append] at hfold
    have hsplit : (if c = r0 then (i : Int) :: levRow L [r0] rs
        else wrapInt 32 (min (i : Int) (lev L [r0] : Int) + 1) :: levRow L [r0] rs)
        = (if c = r0 then (i : Int) else wrapInt 32 (min (i : Int) (lev L [r0] : Int) + 1))
          :: levRow L [r0] rs := by
      split <;> rfl
    rw [hsplit, hfold, hv0]
    have hrs : ([r0] ++ rs).length < 2000000000 := by simpa using hr
    have := rowStep_levRow L c (by omega) rs [r0] hrs
    rw [this]


theorem foldl_push {β : Type} (f : Nat → β) (l : List Nat) (acc : List β) :
    l.foldl (fun distances (i : Nat) => distances ++ [f i]) acc = acc ++ l.map f := by
  induction l generalizing acc with
  | nil => simp
  | cons a l ih => simp [ih]

theorem map_range'_levRow {α : Type} [DecidableEq α] (rs Rp : List α)
    (h : (Rp ++ rs).length < 2000000000) :
    (List.range' Rp.length rs.length).map (fun (i : Nat) => wrapInt 32 ((i : Int) + 1))
      = levRow [] Rp rs := by
  induction rs generalizing Rp with
  | nil => simp [levRow]
  | cons r rs ih =>
    have h1 : Rp.length < 2000000000 := by simp at h; omega
    have h2 : ((Rp ++ [r]) ++ rs).length < 2000000000 := by simpa using h
    have := ih (Rp ++ [r]) h2
    rw [List.length_append, List.length_singleton] at this
    rw [List.length_cons, List.range'_succ, List.map_cons, this, levRow, lev_nil_left,
      wrapInt32_eq_self _ (by omega) (by omega)]
    simp

theorem initDistances_eq {α : Type} [DecidableEq α] (right : List α)
    (h : right.length < 2000000000) :
    initDistances right.length = levRow [] [] right := by
  unfold initDistances
  rw [foldl_push, List.nil_append, List.range_eq_range']
  exact map_range'_levRow right [] (by simpa using h)

theorem foldl_outerBody {α : Type} [DecidableEq α] (left right : List α)
    (hl : left.length < 2000000000) (hr : right.length < 2000000000) :
    ∀ k, k ≤ left.length →
      (List.range k).foldl (outerBody left right) (initDistances right.length)
        = levRow (left.take k) [] right := by
  intro k
  induction k with
  | zero => intro _; simpa using initDistances_eq right hr
  | succ k ih =>
    intro hk
    have hk2 : k < left.length := hk
    rw [List.range_succ, List.foldl_append, ih (by omega), List.foldl_cons, List.foldl_nil]
    have hc : left[k]? = some left[k] := List.getElem?_eq_getElem hk2
    rw [outerBody_levRow left right k left[k] hc (by omega) hr (left.take k)
      (by simp; omega)]
    congr 1
    simp

theorem levRow_getD_last {α : Type} [DecidableEq α] (L : List α) (rs Rp : List α)
    (h : rs ≠ []) : (levRow L Rp rs).getD (rs.length - 1) 0 = (lev L (Rp ++ rs) : Int) := by
  induction rs generalizing Rp with
  | nil => exact absurd rfl h
  | cons r rs ih =>
    cases rs with
    | nil => simp [levRow]
    | cons r2 rs =>
      have := ih (Rp ++ [r]) (by simp)
      simp only [levRow, List.length_cons, Nat.add_sub_cancel, List.getD_cons_succ] at this ⊢
      rw [this]
      simp

/-- Past the swap and within the guard, `doCall` returns the edit distance. -/
theorem doCallOrdered_eq_lev {α : Type} [DecidableEq α] (left right : List α)
    (h : left.length * right.length ≤ 1000000) (hlr : right.length ≤ left.length) :
    doCallOrdered left right = .ok (lev left right : Int) := by
  unfold doCallOrdered
  by_cases h0 : right.length = 0
  · rw [if_pos h0, List.length_eq_zero.mp h0, lev_nil_right]
  · rw [if_neg h0]
    have hr1 : 1 ≤ right.length := Nat.pos_of_ne_zero h0
    have hl : left.length ≤ 1000000 := by
      calc left.length = left.length * 1 := (Nat.mul_one _).symm
        _ ≤ left.length * right.length := Nat.mul_le_mul_left _ hr1
        _ ≤ 1000000 := h
    have hmod : left.length * right.length % 2 ^ 64 = left.length * right.length :=
      Nat.mod_eq_of_lt (by omega)
    simp only [hmod, kMaxCombinedInputSize, h, not_true_eq_false, if_false]
    rw [foldl_outerBody left right (by omega) (by omega) left.length (Nat.le_refl _),
      List.take_length, levRow_getD_last left right [] (by intro e; simp [e] at h0)]
    simp


/-- Past the swap, a product of the sizes above the limit raises the size-limit error. -/
theorem doCallOrdered_error {α : Type} [DecidableEq α] (left right : List α)
    (hl : left.length < 2 ^ 32) (hr : right.length < 2 ^ 32)
    (h : 1000000 < left.length * right.length) :
    doCallOrdered left right = .error (.userError
      "The combined inputs size exceeded max Levenshtein distance combined input size") := by
  have hlt64 : left.length * right.length < 2 ^ 64 := by
    calc left.length * right.length < 2 ^ 32 * 2 ^ 32 :=
          Nat.mul_lt_mul_of_le_of_lt (Nat.le_of_lt hl) hr (by norm_num)
      _ = 2 ^ 64 := by norm_num
  have hr0 : right.length ≠ 0 := by
    intro h0
    rw [h0, Nat.mul_zero] at h
    omega
  unfold doCallOrdered
  rw [if_neg hr0]
  simp only [Nat.mod_eq_of_lt hlt64, kMaxCombinedInputSize, Nat.not_le.mpr h,
    not_false_eq_true, if_true]

/-- Within the guard `doCall` returns the reference distance, whichever input is longer. -/
theorem doCall_eq_lev {α : Type} [DecidableEq α] (a b : List α)
    (h : a.length * b.length ≤ 1000000) : doCall a b = .ok (lev a b : Int) := by
  unfold doCall
  by_cases hlt : a.length < b.length
  · rw [if_pos hlt, doCallOrdered_eq_lev b a (by rw [Nat.mul_comm]; exact h) (by omega),
      lev_comm]
  · rw [if_neg hlt, doCallOrdered_eq_lev a b h (by omega)]

/-- Above the guard `doCall` raises the size-limit error, whichever input is longer. -/
theorem doCall_error {α : Type} [DecidableEq α] (a b : List α)
    (ha : a.length < 2 ^ 32) (hb : b.length < 2 ^ 32) (h : 1000000 < a.length * b.length) :
    doCall a b = .error (.userError
      "The combined inputs size exceeded max Levenshtein distance combined input size") := by
  unfold doCall
  by_cases hlt : a.length < b.length
  · rw [if_pos hlt, doCallOrdered_error b a hb ha (by rw [Nat.mul_comm]; exact h)]
  · rw [if_neg hlt, doCallOrdered_error a b ha hb h]

/-! ### Claims C1-C4 -/

/-- C1: for code point sequences `a` and `b` whose lengths have a product of at most 1,000,000,
`doCall` returns the standard Levenshtein edit distance of `a` and `b` (Mathlib's
`levenshtein` with unit costs), and that distance is the minimum number of single-element
insertions, deletions and substitutions turning `a` into `b`: that many edits do it and no
sequence of fewer edits does. -/
theorem doCall_eq_levenshtein {α : Type} [DecidableEq α] (a b : List α)
    (h : a.length * b.length ≤ 1000000) :
    doCall a b = .ok ((levenshtein Levenshtein.defaultCost a b : Nat) : Int) ∧
      EditSequence a b (levenshtein Levenshtein.defaultCost a b) ∧
      ∀ n, EditSequence a b n → levenshtein Levenshtein.defaultCost a b ≤ n :=
  ⟨doCall_eq_lev a b h, editSequence_of_editScript (editScript_lev a b),
    fun _ hn => lev_le_of_editSequence hn⟩

set_option maxRecDepth 100000 in
/-- C1, the scenario of the specification: `levenshtein_distance("kitten", "sitting") = 3`, and
3 is the edit distance of the two strings. -/
theorem doCall_eq_levenshtein_witness :
    callAscii (asciiBytes "kitten") (asciiBytes "sitting") = .ok 3 ∧
      levenshtein Levenshtein.defaultCost (asciiBytes "kitten") (asciiBytes "sitting") = 3 := by
  have h := (doCall_eq_levenshtein (asciiBytes "kitten") (asciiBytes "sitting")
    (by decide)).1
  have e : doCall (asciiBytes "kitten") (asciiBytes "sitting") = .ok 3 := by rfl
  refine ⟨e, ?_⟩
  rw [e] at h
  have h' : (3 : Int) = ((levenshtein Levenshtein.defaultCost (asciiBytes "kitten")
      (asciiBytes "sitting") : Nat) : Int) := by
    injection h
  exact_mod_cast h'.symm

/-- C2: `levenshtein_distance` is symmetric: on inputs of a `StringView` size (fewer than
`2 ^ 32` elements) `doCall a b` and `doCall b a` have the same outcome, the same error or the
same integer. -/
theorem doCall_symm {α : Type} [DecidableEq α] (a b : List α)
    (ha : a.length < 2 ^ 32) (hb : b.length < 2 ^ 32) :
    doCall a b = doCall b a := by
  by_cases hp : a.length * b.length ≤ 1000000
  · rw [doCall_eq_lev a b hp, doCall_eq_lev b a (by rw [Nat.mul_comm]; exact hp), lev_comm]
  · rw [doCall_error a b ha hb (by omega),
      doCall_error b a hb ha (by rw [Nat.mul_comm]; omega)]

/-- C2 at the inputs `"kitten"` and `"sitting"`. -/
theorem doCall_symm_witness :
    doCall (asciiBytes "kitten") (asciiBytes "sitting")
      = doCall (asciiBytes "sitting") (asciiBytes "kitten") :=
  doCall_symm (asciiBytes "kitten") (asciiBytes "sitting") (by decide) (by decide)

/-- C3 as stated fails: for the string of 1001 letters `a` the product of the sizes is
1,002,001 and `levenshtein_distance(s, s)` raises the size-limit error instead of returning
0. -/
theorem doCall_self_counterexample :
    callAscii (List.replicate 1001 97) (List.replicate 1001 97) =
      .error (.userError
        "The combined inputs size exceeded max Levenshtein distance combined input size") := by
  simp only [callAscii, doCall, doCallOrdered, kMaxCombinedInputSize, List.length_replicate]
  rfl

/-- C3, amended: for every string `s` whose squared element count is at most 1,000,000 (at most
1000 elements) `levenshtein_distance(s, s)` returns 0. -/
theorem doCall_self {α : Type} [DecidableEq α] (s : List α)
    (h : s.length * s.length ≤ 1000000) : doCall s s = .ok 0 := by
  rw [doCall_eq_lev s s h, lev_self]
  rfl

/-- C3, amended, at the string `"kitten"`. -/
theorem doCall_self_witness : doCall (asciiBytes "kitten") (asciiBytes "kitten") = .ok 0 :=
  doCall_self (asciiBytes "kitten") (by decide)

/-- C4: on inputs of a `StringView` size (fewer than `2 ^ 32` elements each)
`levenshtein_distance` raises a user error if and only if the product of the two element
counts exceeds 1,000,000; for every other input it returns a result, and an input paired with
the empty string returns its element count. -/
theorem doCall_error_iff {α : Type} [DecidableEq α] (a b : List α)
    (ha : a.length < 2 ^ 32) (hb : b.length < 2 ^ 32) :
    ((∃ message, doCall a b = .error (.userError message)) ↔ 1000000 < a.length * b.length) ∧
      (a.length * b.length ≤ 1000000 → ∃ distance : Int, doCall a b = .ok distance) ∧
      doCall a [] = .ok (a.length : Int) ∧ doCall [] b = .ok (b.length : Int) := by
  refine ⟨⟨?_, ?_⟩, fun h => ⟨_, doCall_eq_lev a b h⟩, ?_, ?_⟩
  · rintro ⟨message, hm⟩
    by_contra hle
    rw [doCall_eq_lev a b (by omega)] at hm
    cases hm
  · intro hgt
    exact ⟨_, doCall_error a b ha hb hgt⟩
  · rw [doCall_eq_lev a [] (by simp), lev_nil_right]
  · rw [doCall_eq_lev [] b (by simp), lev_nil_left]

/-- C4 at two inputs of 1001 bytes: the product 1,002,001 exceeds the limit and the call
raises. -/
theorem doCall_error_iff_witness :
    ∃ message, callAscii (List.replicate 1001 97) (List.replicate 1001 98)
      = .error (.userError message) :=
  (doCall_error_iff (List.replicate 1001 97) (List.replicate 1001 98)
    (by rw [List.length_replicate]; norm_num) (by rw [List.length_replicate]; norm_num)).1.mpr
    (by rw [List.length_replicate, List.length_replicate]; norm_num)

end LevenshteinDistanceFunction

/-! ## Theorems on `HammingDistanceFunction` -/

namespace HammingDistanceFunction

theorem foldl_count (p : Nat → Prop) [DecidablePred p] (n : Nat) :
    (List.range n).foldl (fun (distance : Int) (i : Nat) => if p i then distance + 1 else distance) 0
      = (((Finset.range n).filter p).card : Int) := by
  induction n with
  | zero => simp
  | succ n ih =>
    rw [List.range_succ, List.foldl_append, ih, Finset.range_succ, Finset.filter_insert]
    by_cases h : p n
    · simp [h]
    · simp [h]

theorem decodes_nil_iff (decode : Decoder) (buffer : List Nat) (position : Int) :
    Decodes decode buffer position [] ↔ position = buffer.length := by
  constructor
  · intro h
    cases h with
    | done _ h => exact h
  · exact Decodes.done position

theorem mismatches_cons (u v : Int) (us vs : List Int) :
    mismatches (u :: us) (v :: vs) = mismatches us vs + (if u ≠ v then 1 else 0) := by
  unfold mismatches
  rw [List.zip_cons_cons, List.countP_cons]
  simp

/-- The loop run from a state whose two cursors have the units `us` and `vs` ahead. -/
theorem loop_decodes (decode : Decoder) (left right : List Nat) :
    ∀ (us vs : List (Int × List Nat)) (fuel : Nat) (s : State),
      Decodes decode left s.leftPosition us → Decodes decode right s.rightPosition vs →
      min us.length vs.length ≤ fuel →
      ∃ t, loop decode left right fuel s = some t ∧
        t.distance = s.distance + mismatches (us.map Prod.fst) (vs.map Prod.fst) ∧
        ((t.leftPosition = left.length ∧ t.rightPosition = right.length) ↔
          us.length = vs.length) := by
  intro us
  induction us with
  | nil =>
    intro vs fuel s hl hr _
    have hp : s.leftPosition = left.length := (decodes_nil_iff _ _ _).mp hl
    have hcond : ¬ loopCondition left right s := by
      unfold loopCondition
      omega
    refine ⟨s, ?_, ?_, ?_⟩
    · cases fuel <;> simp [loop, hcond]
    · simp [mismatches]
    · cases hr with
      | done _ h => simp [hp, h]
      | unit _ vs' _ h _ _ =>
        simp only [List.length_nil, List.length_cons]
        constructor
        · intro hh; omega
        · intro hh; omega
  | cons u us ih =>
    intro vs fuel s hl hr hfuel
    cases hl with
    | unit _ _ hl0 hl1 hl2 hl3 =>
      cases hr with
      | done _ h =>
        have hcond : ¬ loopCondition left right s := by
          unfold loopCondition
          omega
        refine ⟨s, ?_, ?_, ?_⟩
        · cases fuel <;> simp [loop, hcond]
        · simp [mismatches]
        · simp only [List.length_nil, List.length_cons]
          constructor
          · intro hh; omega
          · intro hh; omega
      | unit _ vs' hr0 hr1 hr2 hr3 =>
        have hcond : loopCondition left right s := ⟨hl1, hr1⟩
        cases fuel with
        | zero => simp at hfuel
        | succ fuel =>
          have hf : min us.length vs'.length ≤ fuel := by
            simp only [List.length_cons] at hfuel
            omega
          obtain ⟨t, ht1, ht2, ht3⟩ := ih vs' fuel (loopBody decode left right s)
            (by simpa [loopBody, advance] using hl3) (by simpa [loopBody, advance] using hr3) hf
          refine ⟨t, ?_, ?_, ?_⟩
          · simp only [loop, hcond, if_true]
            exact ht1
          · rw [ht2, List.map_cons, List.map_cons, mismatches_cons]
            simp only [loopBody]
            split
            · omega
            · simp
          · rw [ht3]
            simp

/-! ### Claims C5-C7 -/

/-- C5: on the ascii path `hamming_distance(a, b)` raises the "must have the same length" user
error if and only if the byte lengths of `a` and `b` differ, and when they are equal it returns
the number of indices `i` with `a[i] != b[i]`. -/
theorem callAscii_spec (a b : List Nat) :
    ((∃ message, callAscii a b = .error (.userError message)) ↔ a.length ≠ b.length) ∧
      (a.length ≠ b.length → callAscii a b = .error (.userError sameLengthMessage)) ∧
      (a.length = b.length → callAscii a b =
        .ok (((Finset.range a.length).filter
          (fun i => a.getD i 0 ≠ b.getD i 0)).card : Int)) := by
  have hne : a.length ≠ b.length → callAscii a b = .error (.userError sameLengthMessage) := by
    intro h
    unfold callAscii
    rw [if_pos h]
  have heq : a.length = b.length → callAscii a b =
      .ok (((Finset.range a.length).filter (fun i => a.getD i 0 ≠ b.getD i 0)).card : Int) := by
    intro h
    unfold callAscii
    rw [if_neg (by simpa using h), foldl_count]
  refine ⟨⟨?_, fun h => ⟨_, hne h⟩⟩, hne, heq⟩
  rintro ⟨message, hm⟩ h
  rw [heq h] at hm
  cases hm

/-- C5, the scenario of the specification: `hamming_distance("karolin", "kathrin") = 3`; and
inputs of seven and eight bytes raise the error. -/
theorem callAscii_spec_witness :
    callAscii (asciiBytes "karolin") (asciiBytes "kathrin") = .ok 3 ∧
      callAscii (asciiBytes "karolin") (asciiBytes "kathrine")
        = .error (.userError sameLengthMessage) :=
  ⟨((callAscii_spec (asciiBytes "karolin") (asciiBytes "kathrin")).2.2 (by decide)).trans
      (congrArg (fun n : Nat => (Except.ok (n : Int) : Except VeloxError Int)) (by decide)),
    (callAscii_spec (asciiBytes "karolin") (asciiBytes "kathrine")).2.1 (by decide)⟩

/-- C6: on the generic path, for inputs `a` and `b` that the decoder walks in units `us` and
`vs`, moving forward at each unit and never consuming past the end of the buffer, the loop
terminates (any `fuel` of at least the smaller unit count is enough) and `hamming_distance(a, b)` raises the "must have the same
length" user error if and only if the unit counts differ; when they are equal, whatever the
byte lengths, it returns the number of positions at which the decoded values differ. -/
theorem call_spec (decode : Decoder) (a b : List Nat) (us vs : List (Int × List Nat))
    (ha : Decodes decode a 0 us) (hb : Decodes decode b 0 vs)
    (fuel : Nat) (hfuel : min us.length vs.length ≤ fuel) :
    call decode fuel a b = some
      (if us.length = vs.length then
        .ok (mismatches (us.map Prod.fst) (vs.map Prod.fst) : Int)
      else .error (.userError sameLengthMessage)) := by
  obtain ⟨t, ht1, ht2, ht3⟩ := loop_decodes decode a b us vs fuel
    { leftPosition := 0, rightPosition := 0, distance := 0 } ha hb hfuel
  unfold call
  rw [ht1, Option.map_some']
  by_cases h : us.length = vs.length
  · rw [if_pos h, if_pos (ht3.mpr h), ht2]
    simp
  · rw [if_neg h, if_neg (fun hh => h (ht3.mp hh))]

/-- C6 at `"é"` (two bytes) against `"e"` (one byte): one unit each, which differ, so the
distance is 1 although the byte lengths differ. -/
theorem call_spec_witness :
    call utf8proc_codepoint 1 [0xC3, 0xA9] [0x65] = some (.ok 1) :=
  call_spec utf8proc_codepoint [0xC3, 0xA9] [0x65] _ _
    (Decodes.unit 0 [] (by decide) (by decide) (by decide) (Decodes.done _ (by decide)))
    (Decodes.unit 0 [] (by decide) (by decide) (by decide) (Decodes.done _ (by decide)))
    1 (by decide)

/-- C7 as stated fails: on the inputs `0xFF` and `0xFF` both sides decode to a malformed unit,
yet the iteration leaves the distance at 0 and `hamming_distance` returns 0. -/
theorem loopBody_malformed_counterexample :
    (utf8proc_codepoint [0xFF] 0).1 < 0 ∧
      (loopBody utf8proc_codepoint [0xFF] [0xFF]
        { leftPosition := 0, rightPosition := 0, distance := 0 }).distance = 0 ∧
      call utf8proc_codepoint 1 [0xFF] [0xFF] = some (.ok 0) := by
  refine ⟨by decide, by decide, by rfl⟩

/-- C7, amended: an iteration of the generic loop increments the distance by one exactly when
the two decoder results differ. So a malformed unit (negative result) is never equal to a
valid code point, and two malformed units count as a mismatch exactly when their results, the
negated recovery lengths, differ. -/
theorem loopBody_distance (decode : Decoder) (left right : List Nat) (s : State) :
    ((decode left s.leftPosition).1 ≠ (decode right s.rightPosition).1 →
        (loopBody decode left right s).distance = s.distance + 1) ∧
      ((decode left s.leftPosition).1 = (decode right s.rightPosition).1 →
        (loopBody decode left right s).distance = s.distance) ∧
      ((decode left s.leftPosition).1 < 0 → 0 ≤ (decode right s.rightPosition).1 →
        (loopBody decode left right s).distance = s.distance + 1) ∧
      (0 ≤ (decode left s.leftPosition).1 → (decode right s.rightPosition).1 < 0 →
        (loopBody decode left right s).distance = s.distance + 1) := by
  have h1 : (decode left s.leftPosition).1 ≠ (decode right s.rightPosition).1 →
      (loopBody decode left right s).distance = s.distance + 1 := by
    intro h
    simp only [loopBody, h, ne_eq, not_false_eq_true, if_true]
  refine ⟨h1, ?_, fun hl hr => h1 (by omega), fun hl hr => h1 (by omega)⟩
  intro h
  simp only [loopBody, h, ne_eq, not_true_eq_false, if_false]

/-- C7, amended, at the inputs `0xFF` (malformed) and `"A"`: the distance becomes 1. -/
theorem loopBody_distance_witness :
    (loopBody utf8proc_codepoint [0xFF] [0x41]
      { leftPosition := 0, rightPosition := 0, distance := 0 }).distance = 0 + 1 :=
  (loopBody_distance utf8proc_codepoint [0xFF] [0x41]
    { leftPosition := 0, rightPosition := 0, distance := 0 }).2.2.1 (by decide) (by decide)

end HammingDistanceFunction

/-! ## Theorems on the decoder and the string helpers -/

theorem wrapInt_eq_self (bits : Nat) (hbits : 0 < bits) (x : Int) (h : InIntRange bits x) :
    wrapInt bits x = x := by
  obtain ⟨h1, h2⟩ := h
  have hpow : (2 : Int) ^ bits = 2 * 2 ^ (bits - 1) := by
    obtain ⟨k, rfl⟩ : ∃ k, bits = k + 1 := ⟨bits - 1, by omega⟩
    simp [pow_succ, Int.mul_comm]
  unfold wrapInt
  rw [hpow, Int.emod_eq_of_lt (by omega) (by omega)]
  omega

theorem decodes_bounds {decode : Decoder} {buffer : List Nat} {position : Int}
    {units : List (Int × List Nat)} (h : Decodes decode buffer position units) :
    0 ≤ position ∧ position ≤ buffer.length := by
  cases h with
  | done _ h => omega
  | unit _ _ h0 h1 _ _ => omega

theorem decodes_length_le {decode : Decoder} {buffer : List Nat} {position : Int}
    {units : List (Int × List Nat)} (h : Decodes decode buffer position units) :
    position + units.length ≤ buffer.length := by
  induction h with
  | done _ h => simp [h]
  | unit _ _ h0 h1 h2 _ ih => simp only [List.length_cons, Nat.cast_add, Nat.cast_one]; omega

theorem countUnits_decodes {decode : Decoder} {buffer : List Nat} {position : Int}
    {units : List (Int × List Nat)} (h : Decodes decode buffer position units) :
    ∀ fuel, units.length ≤ fuel →
      stringImpl.countUnits decode buffer fuel position = units.length := by
  induction h with
  | done _ h =>
    intro fuel _
    cases fuel <;> simp [stringImpl.countUnits, h]
  | unit _ _ h0 h1 h2 _ ih =>
    intro fuel hf
    cases fuel with
    | zero => simp at hf
    | succ fuel =>
      simp only [stringImpl.countUnits, h1, if_true, List.length_cons]
      rw [ih fuel (by simpa using hf)]

theorem length_decodes {decode : Decoder} {input : List Nat} {units : List (Int × List Nat)}
    (h : Decodes decode input 0 units) :
    stringImpl.length decode false input = units.length := by
  have hle := decodes_length_le h
  simp only [stringImpl.length, Bool.false_eq_true, if_false]
  rw [countUnits_decodes h input.length (by omega)]

theorem drop_decodes {decode : Decoder} {buffer : List Nat} {position : Int}
    {units : List (Int × List Nat)} (h : Decodes decode buffer position units) :
    buffer.drop position.toNat = (units.map Prod.snd).flatten := by
  induction h with
  | done p h =>
    have : p.toNat = buffer.length := by omega
    simp [this]
  | unit p us h0 h1 h2 hrest ih =>
    have hb := decodes_bounds hrest
    have e : (p + advance decode buffer p).toNat = p.toNat + (advance decode buffer p).toNat := by
      omega
    rw [e, ← List.drop_drop] at ih
    simp only [List.map_cons, List.flatten_cons]
    rw [← ih, List.take_append_drop]


theorem skipUnits_decodes (decode : Decoder) (buffer : List Nat) :
    ∀ (count : Nat) (position : Int) (units : List (Int × List Nat)),
      Decodes decode buffer position units → count ≤ units.length →
      stringCore.skipUnits decode buffer count position
          = position + (((units.map Prod.snd).take count).flatten.length : Int) ∧
        Decodes decode buffer (stringCore.skipUnits decode buffer count position)
          (units.drop count) := by
  intro count
  induction count with
  | zero =>
    intro position units h _
    simpa [stringCore.skipUnits] using h
  | succ count ih =>
    intro position units h hc
    cases h with
    | done _ h => simp at hc
    | unit _ us h0 h1 h2 hrest =>
      have hb := decodes_bounds hrest
      obtain ⟨ih1, ih2⟩ := ih _ us hrest (by simpa using hc)
      refine ⟨?_, by simpa [stringCore.skipUnits] using ih2⟩
      simp only [stringCore.skipUnits, ih1, List.map_cons, List.take_succ_cons,
        List.flatten_cons, List.length_append, List.length_take, List.length_drop, Nat.cast_add]
      omega

theorem take_flatten_take {β : Type} (l : List (List β)) (m : Nat) :
    l.flatten.take (l.take m).flatten.length = (l.take m).flatten := by
  have h : l.flatten = (l.take m).flatten ++ (l.drop m).flatten := by
    rw [← List.flatten_append, List.take_append_drop]
  rw [h, List.take_left]

theorem flatten_map_singleton {β : Type} (l : List β) : (l.map (fun b => [b])).flatten = l := by
  induction l with
  | nil => rfl
  | cons a l ih => simp [ih]


theorem advance_utf8proc_codepoint (buffer : List Nat) (position : Int)
    (h0 : 0 ≤ position) (h1 : position < buffer.length) :
    0 < advance utf8proc_codepoint buffer position ∧
      position + advance utf8proc_codepoint buffer position ≤ buffer.length := by
  have hp : (position.toNat : Int) = position := Int.toNat_of_nonneg h0
  unfold advance utf8proc_codepoint
  simp only []
  split_ifs <;> simp_all <;> omega

theorem decodes_utf8proc_codepoint_aux (buffer : List Nat) :
    ∀ (k : Nat) (position : Int), 0 ≤ position → position ≤ buffer.length →
      buffer.length - position ≤ k → ∃ units, Decodes utf8proc_codepoint buffer position units := by
  intro k
  induction k with
  | zero =>
    intro position _ h1 h2
    exact ⟨[], Decodes.done position (by omega)⟩
  | succ k ih =>
    intro position h0 h1 h2
    by_cases he : position = buffer.length
    · exact ⟨[], Decodes.done position he⟩
    · have hlt : position < buffer.length := by omega
      obtain ⟨ha1, ha2⟩ := advance_utf8proc_codepoint buffer position h0 hlt
      obtain ⟨us, hus⟩ := ih (position + advance utf8proc_codepoint buffer position)
        (by omega) ha2 (by omega)
      exact ⟨_, Decodes.unit position us h0 hlt ha1 hus⟩

/-- Every buffer is walked to its end by the modelled decoder. -/
theorem decodes_utf8proc_codepoint (buffer : List Nat) :
    ∃ units, Decodes utf8proc_codepoint buffer 0 units :=
  decodes_utf8proc_codepoint_aux buffer buffer.length 0 (Int.le_refl 0) (Int.ofNat_nonneg _)
    (by omega)

namespace stringImpl

theorem length_nonneg (decode : Decoder) (isAscii : Bool) (input : List Nat) :
    0 ≤ length decode isAscii input := by
  unfold length
  split <;> exact Int.ofNat_nonneg _

end stringImpl


/-! ## Theorems on `SubstrFunction` -/

namespace SubstrFunction

theorem viewOf_ascii (input : List Nat) (p m : Int) (hp : 1 ≤ p) (hm : 0 ≤ m) :
    viewOf input ((p - 1).toNat, (p + m - 1).toNat)
      = (((input.map (fun b => [b])).drop (p - 1).toNat).take m.toNat).flatten := by
  have e : (p + m - 1).toNat - (p - 1).toNat = m.toNat := by omega
  simp only [viewOf, e]
  rw [← List.map_drop, ← List.map_take, flatten_map_singleton]

theorem viewOf_generic (decode : Decoder) (input : List Nat) (units : List (Int × List Nat))
    (h : Decodes decode input 0 units) (k m : Nat) (hk : k + m ≤ units.length) :
    viewOf input
        ((stringCore.skipUnits decode input k 0).toNat,
          (stringCore.skipUnits decode input m (stringCore.skipUnits decode input k 0)).toNat)
      = (((units.map Prod.snd).drop k).take m).flatten := by
  obtain ⟨h1, h2⟩ := skipUnits_decodes decode input k 0 units h (by omega)
  obtain ⟨h3, _⟩ := skipUnits_decodes decode input m _ (units.drop k) h2
    (by rw [List.length_drop]; omega)
  have hdrop := drop_decodes h2
  have hb := decodes_bounds h2
  rw [List.map_drop] at h3 hdrop
  simp only [viewOf]
  rw [hdrop, h3]
  have e : (stringCore.skipUnits decode input k 0
        + ((((units.map Prod.snd).drop k).take m).flatten.length : Int)).toNat
      - (stringCore.skipUnits decode input k 0).toNat
      = (((units.map Prod.snd).drop k).take m).flatten.length := by
    omega
  rw [e, take_flatten_take]


theorem length_characters (decode : Decoder) (isAscii : Bool) (input : List Nat)
    (units : List (Int × List Nat)) (hdec : isAscii = false → Decodes decode input 0 units) :
    stringImpl.length decode isAscii input = ((characters isAscii input units).length : Int) := by
  cases isAscii with
  | true => simp [stringImpl.length, characters]
  | false => rw [length_decodes (hdec rfl)]; simp [characters]

/-- The substring returned for a start within the string and a positive length. -/
theorem doCall_eq_characters (decode : Decoder) (bits : Nat) (isAscii : Bool) (input : List Nat)
    (start length : Int) (units : List (Int × List Nat)) (hbits : 0 < bits)
    (hdec : isAscii = false → Decodes decode input 0 units)
    (hn : InIntRange bits (characters isAscii input units).length)
    (hstart : 1 ≤ |start| ∧ |start| ≤ (characters isAscii input units).length)
    (hlength : 1 ≤ length) :
    doCall decode bits isAscii input start length = .ok
      (((characters isAscii input units).drop
          (startPosition (characters isAscii input units).length start - 1).toNat).take
        (min length ((characters isAscii input units).length
          - startPosition (characters isAscii input units).length start + 1)).toNat).flatten := by
  have hlen := length_characters decode isAscii input units hdec
  unfold doCall
  rw [hlen]
  generalize hcs : characters isAscii input units = cs at hn hstart ⊢
  obtain ⟨hn1, hn2⟩ := hn
  obtain ⟨hs1, hs2⟩ := hstart
  have hwn : wrapInt bits (cs.length : Int) = cs.length :=
    wrapInt_eq_self bits hbits _ ⟨hn1, hn2⟩
  rw [if_neg (by
    intro h
    rcases h with h | h
    · rw [h] at hs1; simp at hs1
    · omega)]
  simp only [hwn]
  -- the adjusted start
  have hp : (if start < 0 then wrapInt bits (wrapInt bits ((cs.length : Int) + start) + 1)
      else start) = startPosition cs.length start := by
    unfold startPosition
    by_cases hneg : start < 0
    · have he : |start| = -start := abs_of_neg hneg
      rw [if_pos hneg, if_neg (by omega),
        wrapInt_eq_self bits hbits ((cs.length : Int) + start) ⟨by omega, by omega⟩,
        wrapInt_eq_self bits hbits ((cs.length : Int) + start + 1) ⟨by omega, by omega⟩]
    · rw [if_neg hneg, if_pos (by
        rcases abs_cases start with ⟨he, _⟩ | ⟨he, _⟩ <;> omega)]
  rw [hp]
  have hp1 : 1 ≤ startPosition cs.length start ∧ startPosition cs.length start ≤ cs.length := by
    unfold startPosition
    rcases abs_cases start with ⟨he, _⟩ | ⟨he, _⟩ <;> split <;> omega
  generalize startPosition cs.length start = p at hp1 ⊢
  obtain ⟨hp1, hp2⟩ := hp1
  rw [if_neg (by omega)]
  have hw1 : wrapInt bits ((cs.length : Int) - p) = cs.length - p :=
    wrapInt_eq_self bits hbits _ ⟨by omega, by omega⟩
  have hw2 : wrapInt bits ((cs.length : Int) - p + 1) = cs.length - p + 1 :=
    wrapInt_eq_self bits hbits _ ⟨by omega, by omega⟩
  simp only [hw1, hw2]
  have hm : (if (cs.length : Int) - p + 1 < length then (cs.length : Int) - p + 1 else length)
      = min length ((cs.length : Int) - p + 1) := by
    split <;> omega
  rw [hm]
  have hm1 : 1 ≤ min length ((cs.length : Int) - p + 1) := by omega
  have hm2 : min length ((cs.length : Int) - p + 1) ≤ (cs.length : Int) - p + 1 := by omega
  generalize min length ((cs.length : Int) - p + 1) = m at hm1 hm2 ⊢
  subst hcs
  cases isAscii with
  | true =>
    simp only [stringCore.getByteRange, if_true]
    rw [viewOf_ascii input p m hp1 (by omega)]
    simp [characters]
  | false =>
    simp only [stringCore.getByteRange, Bool.false_eq_true, if_false]
    have hcl : (characters false input units).length = units.length := by simp [characters]
    rw [hcl] at hp2 hm2
    rw [viewOf_generic decode input units (hdec rfl) (p - 1).toNat m.toNat (by omega)]
    simp [characters]


/-- The modelled decoder walks the four bytes of `"aéb"` in three units. -/
theorem decodes_a_eacute_b :
    Decodes utf8proc_codepoint [0x61, 0xC3, 0xA9, 0x62] 0
      [(0x61, [0x61]), (0xE9, [0xC3, 0xA9]), (0x62, [0x62])] :=
  Decodes.unit 0 _ (by decide) (by decide) (by decide)
    (Decodes.unit _ _ (by decide) (by decide) (by decide)
      (Decodes.unit _ _ (by decide) (by decide) (by decide)
        (Decodes.done _ (by decide))))

/-- A `length` of zero returns the empty string. -/
theorem doCall_of_length_zero (decode : Decoder) (bits : Nat) (isAscii : Bool) (input : List Nat)
    (start : Int) : doCall decode bits isAscii input start 0 = .ok [] := by
  unfold doCall
  rw [if_pos (Or.inr (Int.le_refl 0))]

/-- The substring from position 1 of as many characters as the string has is the string. -/
theorem doCall_full (decode : Decoder) (bits : Nat) (isAscii : Bool) (input : List Nat)
    (units : List (Int × List Nat)) (hbits : 0 < bits)
    (hdec : isAscii = false → Decodes decode input 0 units)
    (hn : InIntRange bits (stringImpl.length decode isAscii input)) :
    doCall decode bits isAscii input 1 (stringImpl.length decode isAscii input) = .ok input := by
  have hlen := length_characters decode isAscii input units hdec
  have hflat : (characters isAscii input units).flatten = input := by
    cases isAscii with
    | true => simp [characters, flatten_map_singleton]
    | false =>
      have := drop_decodes (hdec rfl)
      simpa [characters] using this.symm
  rw [hlen] at hn ⊢
  by_cases h0 : (characters isAscii input units).length = 0
  · have hnil : characters isAscii input units = [] := List.length_eq_zero.mp h0
    rw [hnil] at hflat
    rw [h0, ← hflat]
    exact doCall_of_length_zero decode bits isAscii _ 1
  · have hpos : 1 ≤ ((characters isAscii input units).length : Int) := by omega
    rw [doCall_eq_characters decode bits isAscii input 1 _ units hbits hdec hn
      ⟨by simp, by simpa using hpos⟩ hpos]
    have hp : startPosition (characters isAscii input units).length 1 = 1 := by
      simp [startPosition]
    rw [hp]
    simp [hflat]

/-! ### Claims C8-C10 -/

/-- C8: `substr(s, start, length)` never raises and returns the empty string whenever
`start == 0`, or `length <= 0`, or the absolute value of `start` is greater than the character
count of `s`; for a non-zero `start` the last condition is equivalent to: after a negative
`start` is replaced by `characterCount + start + 1`, `start <= 0` or `start > characterCount`.
Holds on both paths, for every decoder and every width of the integer type `I`. -/
theorem doCall_empty (decode : Decoder) (bits : Nat) (isAscii : Bool) (input : List Nat)
    (start length : Int) (hbits : 0 < bits) (hstart : InIntRange bits start) :
    (start = 0 ∨ length ≤ 0 ∨ stringImpl.length decode isAscii input < |start| →
        doCall decode bits isAscii input start length = .ok []) ∧
      (start ≠ 0 →
        (stringImpl.length decode isAscii input < |start| ↔
          startPosition (stringImpl.length decode isAscii input) start ≤ 0 ∨
            stringImpl.length decode isAscii input
              < startPosition (stringImpl.length decode isAscii input) start)) := by
  have hn := stringImpl.length_nonneg decode isAscii input
  unfold doCall
  generalize stringImpl.length decode isAscii input = n at hn ⊢
  obtain ⟨hs1, hs2⟩ := hstart
  constructor
  · intro h
    by_cases h0 : start = 0 ∨ length ≤ 0
    · rw [if_pos h0]
    · rw [if_neg h0]
      have habs : n < |start| := by omega
      have hwn : wrapInt bits n = n := by
        apply wrapInt_eq_self bits hbits
        constructor
        · omega
        · rcases abs_cases start with ⟨he, _⟩ | ⟨he, _⟩ <;> omega
      simp only [hwn]
      by_cases hneg : start < 0
      · have he : |start| = -start := abs_of_neg hneg
        have hw1 : wrapInt bits (n + start) = n + start :=
          wrapInt_eq_self bits hbits _ ⟨by omega, by omega⟩
        have hw2 : wrapInt bits (n + start + 1) = n + start + 1 :=
          wrapInt_eq_self bits hbits _ ⟨by omega, by omega⟩
        simp only [hneg, if_true, hw1, hw2]
        rw [if_pos (by omega)]
      · have he : |start| = start := abs_of_nonneg (by omega)
        simp only [hneg, if_false]
        rw [if_pos (by omega)]
  · intro hne
    unfold startPosition
    rcases abs_cases start with ⟨he, _⟩ | ⟨he, _⟩ <;> split <;> omega

/-- C8 at `"Hello World"` (11 characters) with `start = 12` and with `start = -12`, on the
ascii and on the generic path. -/
theorem doCall_empty_witness :
    callAscii utf8proc_codepoint 64 (asciiBytes "Hello World") 12 3 = .ok [] ∧
      call utf8proc_codepoint 64 (asciiBytes "Hello World") (-12) 3 = .ok [] :=
  ⟨(doCall_empty utf8proc_codepoint 64 true (asciiBytes "Hello World") 12 3 (by decide)
      ⟨by decide, by decide⟩).1 (Or.inr (Or.inr (by decide))),
    (doCall_empty utf8proc_codepoint 64 false (asciiBytes "Hello World") (-12) 3 (by decide)
      ⟨by decide, by decide⟩).1 (Or.inr (Or.inr (by decide)))⟩

/-- C9: for a string `s` of `n` characters (its bytes on the ascii path, the units the decoder
walks it in on the generic path), every `start` with `1 <= |start| <= n` and every
`length >= 1` (an omitted length is the largest value of `I`), `substr` returns the characters
of `s` at the 1-based positions `p .. p + min(length, n - p + 1) - 1`, where `p = start` if
`start > 0` and `p = n + start + 1` if `start < 0`. -/
theorem doCall_characters (decode : Decoder) (bits : Nat) (isAscii : Bool) (input : List Nat)
    (start length : Int) (units : List (Int × List Nat)) (hbits : 0 < bits)
    (hdec : isAscii = false → Decodes decode input 0 units)
    (hn : InIntRange bits (characters isAscii input units).length)
    (hstart : 1 ≤ |start| ∧ |start| ≤ (characters isAscii input units).length)
    (hlength : 1 ≤ length) :
    doCall decode bits isAscii input start length = .ok
      (((characters isAscii input units).drop
          (startPosition (characters isAscii input units).length start - 1).toNat).take
        (min length ((characters isAscii input units).length
          - startPosition (characters isAscii input units).length start + 1)).toNat).flatten :=
  doCall_eq_characters decode bits isAscii input start length units hbits hdec hn hstart hlength

/-- C9, the scenarios of the specification: `substr("Hello World", 1, 5) = "Hello"` and
`substr("Hello World", -5) = "World"`; and on the generic path the second character of
`"aéb"` is the two bytes of `"é"`. -/
theorem doCall_characters_witness :
    callAscii utf8proc_codepoint 64 (asciiBytes "Hello World") 1 5
        = .ok (asciiBytes "Hello") ∧
      callAscii utf8proc_codepoint 64 (asciiBytes "Hello World") (-5) (numericLimitsMax 64)
        = .ok (asciiBytes "World") ∧
      call utf8proc_codepoint 64 [0x61, 0xC3, 0xA9, 0x62] 2 1 = .ok [0xC3, 0xA9] :=
  ⟨(doCall_characters utf8proc_codepoint 64 true (asciiBytes "Hello World") 1 5 []
      (by decide) (fun h => absurd h (by decide)) ⟨by decide, by decide⟩
      ⟨by decide, by decide⟩ (by decide)).trans (by rfl),
    (doCall_characters utf8proc_codepoint 64 true (asciiBytes "Hello World") (-5)
      (numericLimitsMax 64) [] (by decide) (fun h => absurd h (by decide))
      ⟨by decide, by decide⟩ ⟨by decide, by decide⟩ (by decide)).trans (by rfl),
    (doCall_characters utf8proc_codepoint 64 false [0x61, 0xC3, 0xA9, 0x62] 2 1 _
      (by decide) (fun _ => decodes_a_eacute_b) ⟨by decide, by decide⟩
      ⟨by decide, by decide⟩ (by decide)).trans (by rfl)⟩

/-- C10: full-string identity: for every string `s`, the empty string included,
`substr(s, 1, length(s))` returns `s` unchanged, on the ascii path and, for a string the decoder
walks to its end, on the generic path; the character count is a value of the integer type
`I`. -/
theorem doCall_full_string (decode : Decoder) (bits : Nat) (input : List Nat)
    (units : List (Int × List Nat)) (hbits : 0 < bits)
    (hn : InIntRange bits input.length) :
    callAscii decode bits input 1 (LengthFunction.callAscii decode input) = .ok input ∧
      (Decodes decode input 0 units →
        call decode bits input 1 (LengthFunction.call decode input) = .ok input) := by
  constructor
  · exact doCall_full decode bits true input [] hbits (fun h => absurd h (by decide))
      (by simpa [stringImpl.length] using hn)
  · intro hdec
    refine doCall_full decode bits false input units hbits (fun _ => hdec) ?_
    have hle := decodes_length_le hdec
    rw [length_decodes hdec]
    obtain ⟨h1, h2⟩ := hn
    exact ⟨by omega, by omega⟩

/-- C10 at `"Hello World"` on the ascii path, and at `"aéb"` and the empty string on the
generic path. -/
theorem doCall_full_string_witness :
    callAscii utf8proc_codepoint 64 (asciiBytes "Hello World") 1
        (LengthFunction.callAscii utf8proc_codepoint (asciiBytes "Hello World"))
        = .ok (asciiBytes "Hello World") ∧
      call utf8proc_codepoint 64 [0x61, 0xC3, 0xA9, 0x62] 1
        (LengthFunction.call utf8proc_codepoint [0x61, 0xC3, 0xA9, 0x62])
        = .ok [0x61, 0xC3, 0xA9, 0x62] ∧
      call utf8proc_codepoint 64 [] 1 (LengthFunction.call utf8proc_codepoint []) = .ok [] :=
  ⟨(doCall_full_string utf8proc_codepoint 64 (asciiBytes "Hello World") [] (by decide)
      ⟨by decide, by decide⟩).1,
    (doCall_full_string utf8proc_codepoint 64 [0x61, 0xC3, 0xA9, 0x62] _ (by decide)
      ⟨by decide, by decide⟩).2 decodes_a_eacute_b,
    (doCall_full_string utf8proc_codepoint 64 [] [] (by decide)
      ⟨by decide, by decide⟩).2 (Decodes.done 0 (by decide))⟩

end SubstrFunction

/-! ## Theorems on the ascii/generic equivalence -/

theorem utf8proc_codepoint_ascii : DecodesAsciiBytes utf8proc_codepoint := by
  intro buffer position _ h
  unfold utf8proc_codepoint
  simp only [Int.toNat_ofNat, h, if_true]

theorem wrapInt_range (bits : Nat) (hbits : 0 < bits) (x : Int) : InIntRange bits (wrapInt bits x) := by
  have hpow : (2 : Int) ^ bits = 2 * 2 ^ (bits - 1) := by
    obtain ⟨k, rfl⟩ : ∃ k, bits = k + 1 := ⟨bits - 1, by omega⟩
    simp [pow_succ, Int.mul_comm]
  have hpos : (0 : Int) < 2 ^ (bits - 1) := by positivity
  unfold wrapInt InIntRange
  rw [hpow]
  have h1 := Int.emod_nonneg (x + 2 ^ (bits - 1)) (show (2 : Int) * 2 ^ (bits - 1) ≠ 0 by omega)
  have h2 := Int.emod_lt_of_pos (x + 2 ^ (bits - 1)) (show (0 : Int) < 2 * 2 ^ (bits - 1) by omega)
  omega

theorem wrapInt_le_self (bits : Nat) (hbits : 0 < bits) (x : Int) (hx : 0 ≤ x) :
    wrapInt bits x ≤ x := by
  have hpow : (2 : Int) ^ bits = 2 * 2 ^ (bits - 1) := by
    obtain ⟨k, rfl⟩ : ∃ k, bits = k + 1 := ⟨bits - 1, by omega⟩
    simp [pow_succ, Int.mul_comm]
  have hpos : (0 : Int) < 2 ^ (bits - 1) := by positivity
  unfold wrapInt
  rw [hpow]
  by_cases hlt : x + 2 ^ (bits - 1) < 2 * 2 ^ (bits - 1)
  · rw [Int.emod_eq_of_lt (by omega) hlt]
    omega
  · have h2 := Int.emod_lt_of_pos (x + 2 ^ (bits - 1))
      (show (0 : Int) < 2 * 2 ^ (bits - 1) by omega)
    omega

namespace SubstrFunction

theorem doCall_eq_byteRangeArguments (decode : Decoder) (bits : Nat) (isAscii : Bool)
    (input : List Nat) (start length : Int) :
    doCall decode bits isAscii input start length =
      match byteRangeArguments bits (stringImpl.length decode isAscii input) start length with
      | none => .ok []
      | some (p, m) => .ok (viewOf input (stringCore.getByteRange decode isAscii input p m)) := by
  unfold doCall byteRangeArguments
  by_cases h0 : start = 0 ∨ length ≤ 0
  · simp only [h0, if_true]
  · simp only [h0, if_false]
    split_ifs <;> rfl

theorem byteRangeArguments_bounds (bits : Nat) (hbits : 0 < bits) (n start length p m : Int)
    (hn : 0 ≤ n) (h : byteRangeArguments bits n start length = some (p, m)) :
    1 ≤ p ∧ 1 ≤ m ∧ p - 1 + m ≤ wrapInt bits n ∧ wrapInt bits n ≤ n := by
  have hw := wrapInt_range bits hbits n
  have hle := wrapInt_le_self bits hbits n hn
  unfold byteRangeArguments at h
  generalize wrapInt bits n = w at h hw hle
  obtain ⟨hw1, hw2⟩ := hw
  by_cases h0 : start = 0 ∨ length ≤ 0
  · rw [if_pos h0] at h
    cases h
  · rw [if_neg h0] at h
    simp only [] at h
    generalize (if start < 0 then wrapInt bits (wrapInt bits (w + start) + 1) else start) = s
      at h
    by_cases h1 : s ≤ 0 ∨ s > w
    · rw [if_pos h1] at h
      cases h
    · rw [if_neg h1] at h
      injection h with h
      injection h with hp hm
      rw [hp] at h1 hm
      have hwp : wrapInt bits (w - p) = w - p :=
        wrapInt_eq_self bits hbits _ ⟨by omega, by omega⟩
      have hwp1 : wrapInt bits (w - p + 1) = w - p + 1 :=
        wrapInt_eq_self bits hbits _ ⟨by omega, by omega⟩
      rw [hwp, hwp1] at hm
      refine ⟨by omega, ?_, ?_, hle⟩
      · split at hm <;> omega
      · split at hm <;> omega


end SubstrFunction

/-- An ascii buffer is walked by a decoder with the ascii contract one byte at a time. -/
theorem decodes_ascii_aux (decode : Decoder) (hdec : DecodesAsciiBytes decode)
    (input : List Nat) :
    ∀ (rest pre : List Nat), input = pre ++ rest → stringCore.isAscii rest = true →
      Decodes decode input pre.length (asciiUnits rest) := by
  intro rest
  induction rest with
  | nil =>
    intro pre h _
    exact Decodes.done _ (by rw [h]; simp)
  | cons b rest ih =>
    intro pre h hascii
    simp only [stringCore.isAscii, List.all_cons, Bool.and_eq_true, decide_eq_true_eq] at hascii
    have hpos : pre.length < input.length := by rw [h]; simp
    have hget : input.getD pre.length 0 = b := by
      rw [h]; exact LevenshteinDistanceFunction.getD_append_cons pre b rest 0
    have hd : decode input (pre.length : Int) = ((b : Int), 1) := by
      have := hdec input pre.length hpos (by rw [hget]; exact hascii.1)
      rw [hget] at this
      exact this
    have hadv : advance decode input (pre.length : Int) = 1 := by
      simp [advance, hd]
    have hrest := ih (pre ++ [b]) (by rw [h]; simp) hascii.2
    have hunit := @Decodes.unit decode input (pre.length : Int)
      (asciiUnits rest) (Int.ofNat_nonneg _) (by exact_mod_cast hpos)
      (by rw [hadv]; decide)
      (by rw [hadv]; simpa using hrest)
    have hchunk : (input.drop (pre.length : Int).toNat).take
        (advance decode input (pre.length : Int)).toNat = [b] := by
      rw [hadv, h]
      simp
    rw [hd, hchunk] at hunit
    simpa [asciiUnits] using hunit

theorem decodes_ascii (decode : Decoder) (hdec : DecodesAsciiBytes decode) (input : List Nat)
    (hascii : stringCore.isAscii input = true) :
    Decodes decode input 0 (asciiUnits input) := by
  simpa using decodes_ascii_aux decode hdec input input [] rfl hascii

theorem length_ascii (decode : Decoder) (hdec : DecodesAsciiBytes decode) (input : List Nat)
    (hascii : stringCore.isAscii input = true) :
    stringImpl.length decode false input = stringImpl.length decode true input := by
  rw [length_decodes (decodes_ascii decode hdec input hascii)]
  simp [stringImpl.length, asciiUnits]

theorem viewOf_getByteRange_ascii (decode : Decoder) (hdec : DecodesAsciiBytes decode)
    (input : List Nat) (hascii : stringCore.isAscii input = true) (p m : Int)
    (hp : 1 ≤ p) (hm : 0 ≤ m) (hpm : p - 1 + m ≤ input.length) :
    viewOf input (stringCore.getByteRange decode false input p m)
      = viewOf input (stringCore.getByteRange decode true input p m) := by
  simp only [stringCore.getByteRange, Bool.false_eq_true, if_false, if_true]
  rw [SubstrFunction.viewOf_ascii input p m hp hm,
    SubstrFunction.viewOf_generic decode input _ (decodes_ascii decode hdec input hascii)
      (p - 1).toNat m.toNat (by simp only [asciiUnits, List.length_map]; omega)]
  simp [asciiUnits, Function.comp_def]

namespace SubstrFunction

theorem call_eq_callAscii_aux (decode : Decoder) (hdec : DecodesAsciiBytes decode) (bits : Nat)
    (hbits : 0 < bits) (input : List Nat) (hascii : stringCore.isAscii input = true)
    (start length : Int) :
    call decode bits input start length = callAscii decode bits input start length := by
  unfold call callAscii
  rw [doCall_eq_byteRangeArguments, doCall_eq_byteRangeArguments,
    length_ascii decode hdec input hascii]
  cases h : byteRangeArguments bits (stringImpl.length decode true input) start length with
  | none => rfl
  | some pm =>
    obtain ⟨p, m⟩ := pm
    have hb := byteRangeArguments_bounds bits hbits _ start length p m
      (stringImpl.length_nonneg decode true input) h
    have hlen : stringImpl.length decode true input = input.length := by
      simp [stringImpl.length]
    rw [hlen] at hb
    simp only []
    rw [viewOf_getByteRange_ascii decode hdec input hascii p m (by omega) (by omega) (by omega)]

/-! ### Claim C11 -/

/-- C11: ascii/generic equivalence for `substr`: for every input consisting only of 7-bit
ASCII bytes and every `start` and `length`, `call` (the generic path) and `callAscii` return
the same bytes, for a decoder that reads an ASCII byte as a one-byte unit. -/
theorem substr_call_eq_callAscii (decode : Decoder) (hdec : DecodesAsciiBytes decode)
    (bits : Nat) (hbits : 0 < bits) (input : List Nat)
    (hascii : stringCore.isAscii input = true) (start length : Int) :
    call decode bits input start length = callAscii decode bits input start length :=
  call_eq_callAscii_aux decode hdec bits hbits input hascii start length

/-- C11 at `"Hello World"` with `start = -5` and `length = 3`: both paths return `"Wor"`. -/
theorem substr_call_eq_callAscii_witness :
    call utf8proc_codepoint 64 (asciiBytes "Hello World") (-5) 3 = .ok (asciiBytes "Wor") ∧
      callAscii utf8proc_codepoint 64 (asciiBytes "Hello World") (-5) 3
        = .ok (asciiBytes "Wor") :=
  ⟨(substr_call_eq_callAscii utf8proc_codepoint utf8proc_codepoint_ascii 64 (by decide)
      (asciiBytes "Hello World") (by decide) (-5) 3).trans (by rfl), by rfl⟩

end SubstrFunction

namespace HammingDistanceFunction

theorem foldl_count_shift (p : Nat → Prop) [DecidablePred p] (l : List Nat) (c : Int) :
    l.foldl (fun (distance : Int) (i : Nat) => if p i then distance + 1 else distance) c
      = c + l.foldl (fun (distance : Int) (i : Nat) => if p i then distance + 1 else distance) 0 := by
  induction l generalizing c with
  | nil => simp
  | cons i l ih =>
    rw [List.foldl_cons, List.foldl_cons, ih, ih (if p i then 0 + 1 else 0)]
    split <;> omega

theorem foldl_eq_mismatches (a b : List Nat) (h : a.length = b.length) :
    (List.range a.length).foldl
        (fun (distance : Int) (i : Nat) =>
          if a.getD i 0 ≠ b.getD i 0 then distance + 1 else distance) 0
      = (mismatches (a.map (fun (x : Nat) => (x : Int))) (b.map (fun (x : Nat) => (x : Int))) : Int) := by
  induction a generalizing b with
  | nil => simp [mismatches]
  | cons x a ih =>
    cases b with
    | nil => simp at h
    | cons y b =>
      have h' : a.length = b.length := by simpa using h
      rw [List.length_cons, List.range_succ_eq_map, List.foldl_cons, List.foldl_map,
        foldl_count_shift]
      simp only [List.getD_cons_succ, List.getD_cons_zero, List.map_cons]
      rw [ih b h', mismatches_cons]
      by_cases hxy : x = y
      · simp [hxy]
      · have : (x : Int) ≠ (y : Int) := by exact_mod_cast hxy
        simp [hxy, this]
        omega

theorem call_ascii_aux (decode : Decoder) (hdec : DecodesAsciiBytes decode) (a b : List Nat)
    (ha : stringCore.isAscii a = true) (hb : stringCore.isAscii b = true)
    (fuel : Nat) (hfuel : min a.length b.length ≤ fuel) :
    call decode fuel a b = some (callAscii a b) := by
  obtain ⟨t, ht1, ht2, ht3⟩ := loop_decodes decode a b (asciiUnits a) (asciiUnits b) fuel
    { leftPosition := 0, rightPosition := 0, distance := 0 }
    (decodes_ascii decode hdec a ha) (decodes_ascii decode hdec b hb)
    (by simpa [asciiUnits] using hfuel)
  unfold call callAscii
  rw [ht1, Option.map_some']
  simp only [asciiUnits, List.length_map] at ht3
  by_cases h : a.length = b.length
  · rw [if_pos (ht3.mpr h), if_neg (by simpa using h), ht2, foldl_eq_mismatches a b h]
    simp [asciiUnits, Function.comp_def]
  · rw [if_neg (fun hh => h (ht3.mp hh)), if_pos h]

/-! ### Claim C12 -/

/-- C12: ascii/generic equivalence for `hamming_distance`: for inputs `a` and `b` consisting
only of 7-bit ASCII bytes, `call` (the code point path, which terminates within
`min(|a|, |b|)` iterations) and `callAscii` have the same outcome, the same-length error or
the same distance, for a decoder that reads an ASCII byte as a one-byte unit whose code point
is the byte. -/
theorem hamming_call_eq_callAscii (decode : Decoder) (hdec : DecodesAsciiBytes decode)
    (a b : List Nat) (ha : stringCore.isAscii a = true) (hb : stringCore.isAscii b = true)
    (fuel : Nat) (hfuel : min a.length b.length ≤ fuel) :
    call decode fuel a b = some (callAscii a b) :=
  call_ascii_aux decode hdec a b ha hb fuel hfuel

/-- C12 at `"karolin"` and `"kathrin"` (distance 3 on both paths) and at inputs of seven and
eight bytes (the error on both paths). -/
theorem hamming_call_eq_callAscii_witness :
    call utf8proc_codepoint 7 (asciiBytes "karolin") (asciiBytes "kathrin") = some (.ok 3) ∧
      call utf8proc_codepoint 7 (asciiBytes "karolin") (asciiBytes "kathrine")
        = some (.error (.userError sameLengthMessage)) :=
  ⟨(hamming_call_eq_callAscii utf8proc_codepoint utf8proc_codepoint_ascii
      (asciiBytes "karolin") (asciiBytes "kathrin") (by decide) (by decide) 7
      (by decide)).trans (by rfl),
    (hamming_call_eq_callAscii utf8proc_codepoint utf8proc_codepoint_ascii
      (asciiBytes "karolin") (asciiBytes "kathrine") (by decide) (by decide) 7
      (by decide)).trans (by rfl)⟩

end HammingDistanceFunction

/-! ## Theorems on `SubstrVarbinaryFunction`, `TrailFunction` and the byte ranges -/

namespace SubstrVarbinaryFunction

theorem call_eq_substr_aux (decode : Decoder) (input : List Nat) (hsize : input.length < 2 ^ 32)
    (start length : Int) :
    call input start length = SubstrFunction.callAscii decode 64 input start length := by
  have hw : wrapInt 64 (input.length : Int) = input.length :=
    wrapInt_eq_self 64 (by decide) _ ⟨by norm_num; omega, by norm_num; omega⟩
  have hlen : stringImpl.length decode true input = input.length := by
    simp [stringImpl.length]
  unfold SubstrFunction.callAscii
  rw [SubstrFunction.doCall_eq_byteRangeArguments, hlen]
  cases h : SubstrFunction.byteRangeArguments 64 (input.length : Int) start length with
  | none =>
    unfold SubstrFunction.byteRangeArguments at h
    unfold call
    rw [hw] at h
    by_cases h0 : start = 0 ∨ length ≤ 0
    · rw [if_pos h0]
    · rw [if_neg h0] at h ⊢
      simp only [] at h ⊢
      generalize (if start < 0 then wrapInt 64 (wrapInt 64 ((input.length : Int) + start) + 1)
        else start) = s at h ⊢
      by_cases h1 : s ≤ 0 ∨ s > (input.length : Int)
      · rw [if_pos h1]
      · rw [if_neg h1] at h
        cases h
  | some pm =>
    obtain ⟨p, m⟩ := pm
    have hb := SubstrFunction.byteRangeArguments_bounds 64 (by decide) _ start length p m
      (Int.ofNat_nonneg _) h
    unfold SubstrFunction.byteRangeArguments at h
    unfold call
    rw [hw] at h
    by_cases h0 : start = 0 ∨ length ≤ 0
    · rw [if_pos h0] at h
      cases h
    · rw [if_neg h0] at h ⊢
      simp only [] at h ⊢
      generalize (if start < 0 then wrapInt 64 (wrapInt 64 ((input.length : Int) + start) + 1)
        else start) = s at h ⊢
      by_cases h1 : s ≤ 0 ∨ s > (input.length : Int)
      · rw [if_pos h1] at h
        cases h
      · rw [if_neg h1] at h ⊢
        simp only [Option.some.injEq, Prod.mk.injEq] at h
        obtain ⟨hp, hm⟩ := h
        rw [hp] at hm ⊢
        rw [hm]
        simp only [stringCore.getByteRange, if_true, viewOf]
        have e : (p + m - 1).toNat - (p - 1).toNat = m.toNat := by omega
        rw [e]

end SubstrVarbinaryFunction

theorem checkedInt_eq_some (bits : Nat) (x : Int) (h : InIntRange bits x) :
    checkedInt bits x = some x := by
  unfold checkedInt
  rw [if_pos (by exact h)]

/-- The adjustment of a negative `start` (lines 165-167) does not overflow. -/
theorem adjust_checked (bits : Nat) (n start : Int) (hn : 0 ≤ n) (hnr : InIntRange bits n)
    (hstart : InIntRange bits start) :
    (if start < 0 then
        (checkedInt bits (n + start)).bind fun sum => checkedInt bits (sum + 1)
      else some start) = some (if start < 0 then n + start + 1 else start) := by
  obtain ⟨_, hn2⟩ := hnr
  obtain ⟨hs1, _⟩ := hstart
  by_cases hneg : start < 0
  · rw [if_pos hneg, if_pos hneg, checkedInt_eq_some bits _ ⟨by omega, by omega⟩,
      Option.some_bind, checkedInt_eq_some bits _ ⟨by omega, by omega⟩]
  · rw [if_neg hneg, if_neg hneg]

theorem adjust_wrap (bits : Nat) (hbits : 0 < bits) (n start : Int) (hn : 0 ≤ n)
    (hnr : InIntRange bits n) (hstart : InIntRange bits start) :
    (if start < 0 then wrapInt bits (wrapInt bits (n + start) + 1) else start)
      = (if start < 0 then n + start + 1 else start) := by
  obtain ⟨_, hn2⟩ := hnr
  obtain ⟨hs1, _⟩ := hstart
  by_cases hneg : start < 0
  · rw [if_pos hneg, if_pos hneg,
      wrapInt_eq_self bits hbits (n + start) ⟨by omega, by omega⟩,
      wrapInt_eq_self bits hbits (n + start + 1) ⟨by omega, by omega⟩]
  · rw [if_neg hneg, if_neg hneg]

/-- The largest valid length `numCharacters - start + 1` (lines 176-179) does not overflow. -/
theorem maxLength_checked (bits : Nat) (n s : Int) (hnr : InIntRange bits n)
    (hs : 1 ≤ s ∧ s ≤ n) :
    ((checkedInt bits (n - s)).bind fun difference => checkedInt bits (difference + 1))
      = some (n - s + 1) := by
  obtain ⟨_, hn2⟩ := hnr
  rw [checkedInt_eq_some bits _ ⟨by omega, by omega⟩, Option.some_bind,
    checkedInt_eq_some bits _ ⟨by omega, by omega⟩]

theorem maxLength_wrap (bits : Nat) (hbits : 0 < bits) (n s : Int) (hnr : InIntRange bits n)
    (hs : 1 ≤ s ∧ s ≤ n) :
    wrapInt bits (wrapInt bits (n - s) + 1) = n - s + 1 := by
  obtain ⟨_, hn2⟩ := hnr
  rw [wrapInt_eq_self bits hbits (n - s) ⟨by omega, by omega⟩,
    wrapInt_eq_self bits hbits (n - s + 1) ⟨by omega, by omega⟩]

theorem inIntRange_size (input : List Nat) (hsize : input.length < 2 ^ 32) :
    InIntRange 64 (input.length : Int) := by
  constructor
  · norm_num
    omega
  · norm_num
    omega

theorem varbinary_byteRange (input : List Nat) (hsize : input.length < 2 ^ 32)
    (start length : Int) (hstart : InIntRange 64 start) :
    ByteRangeInvariant input (SubstrVarbinaryFunction.byteRangeChecked input start length)
      (SubstrVarbinaryFunction.call input start length) := by
  have hnr := inIntRange_size input hsize
  have hn : (0 : Int) ≤ input.length := Int.ofNat_nonneg _
  unfold ByteRangeInvariant SubstrVarbinaryFunction.byteRangeChecked SubstrVarbinaryFunction.call
  by_cases h0 : start = 0 ∨ length ≤ 0
  · rw [if_pos h0, if_pos h0]
    exact ⟨none, rfl, rfl⟩
  · rw [if_neg h0, if_neg h0]
    simp only []
    rw [adjust_checked 64 _ start hn hnr hstart, adjust_wrap 64 (by decide) _ start hn hnr hstart,
      Option.some_bind]
    generalize (if start < 0 then (input.length : Int) + start + 1 else start) = s
    by_cases h1 : s ≤ 0 ∨ s > (input.length : Int)
    · rw [if_pos h1, if_pos h1]
      exact ⟨none, rfl, rfl⟩
    · rw [if_neg h1, if_neg h1, maxLength_checked 64 _ s hnr (by omega),
        maxLength_wrap 64 (by decide) _ s hnr (by omega), Option.some_bind]
      refine ⟨_, rfl, ?_⟩
      simp only []
      have hlen : 1 ≤ (if (input.length : Int) - s + 1 < length then (input.length : Int) - s + 1
          else length) ∧ (if (input.length : Int) - s + 1 < length then
            (input.length : Int) - s + 1 else length) ≤ (input.length : Int) - s + 1 := by
        split <;> omega
      generalize (if (input.length : Int) - s + 1 < length then (input.length : Int) - s + 1
          else length) = m at hlen
      refine ⟨by omega, by omega, by omega, ?_⟩
      simp only [viewOf]
      have e : (s - 1 + m).toNat - (s - 1).toNat = m.toNat := by omega
      rw [e]

theorem substr_byteRange (decode : Decoder) (bits : Nat) (hbits : 0 < bits)
    (input : List Nat) (hnr : InIntRange bits (input.length : Int))
    (start length : Int) (hstart : InIntRange bits start) :
    ByteRangeInvariant input (SubstrFunction.byteRangeAsciiChecked bits input start length)
      (SubstrFunction.callAscii decode bits input start length) := by
  have hn : (0 : Int) ≤ input.length := Int.ofNat_nonneg _
  have hlen : stringImpl.length decode true input = input.length := by
    simp [stringImpl.length]
  unfold ByteRangeInvariant SubstrFunction.byteRangeAsciiChecked SubstrFunction.callAscii
    SubstrFunction.doCall
  by_cases h0 : start = 0 ∨ length ≤ 0
  · rw [if_pos h0, if_pos h0]
    exact ⟨none, rfl, rfl⟩
  · rw [if_neg h0, if_neg h0, hlen, checkedInt_eq_some bits _ hnr, Option.some_bind]
    simp only []
    rw [wrapInt_eq_self bits hbits _ hnr, adjust_checked bits _ start hn hnr hstart,
      adjust_wrap bits hbits _ start hn hnr hstart, Option.some_bind]
    generalize (if start < 0 then (input.length : Int) + start + 1 else start) = s
    by_cases h1 : s ≤ 0 ∨ s > (input.length : Int)
    · rw [if_pos h1, if_pos h1]
      exact ⟨none, rfl, rfl⟩
    · rw [if_neg h1, if_neg h1, maxLength_checked bits _ s hnr (by omega),
        maxLength_wrap bits hbits _ s hnr (by omega), Option.some_bind]
      refine ⟨_, rfl, ?_⟩
      simp only []
      have hlen : 1 ≤ (if (input.length : Int) - s + 1 < length then (input.length : Int) - s + 1
          else length) ∧ (if (input.length : Int) - s + 1 < length then
            (input.length : Int) - s + 1 else length) ≤ (input.length : Int) - s + 1 := by
        split <;> omega
      generalize (if (input.length : Int) - s + 1 < length then (input.length : Int) - s + 1
          else length) = m at hlen
      refine ⟨by omega, by omega, by omega, ?_⟩
      simp only [stringCore.getByteRange, if_true]

theorem trail_byteRange (decode : Decoder) (bits : Nat) (hbits : 0 < bits)
    (input : List Nat) (hnr : InIntRange bits (input.length : Int)) (N : Int) :
    ByteRangeInvariant input (TrailFunction.byteRangeAsciiChecked bits input N)
      (TrailFunction.callAscii decode bits input N) := by
  have hn : (0 : Int) ≤ input.length := Int.ofNat_nonneg _
  have hlen : stringImpl.length decode true input = input.length := by
    simp [stringImpl.length]
  unfold ByteRangeInvariant TrailFunction.byteRangeAsciiChecked TrailFunction.callAscii
    TrailFunction.doCall
  by_cases h0 : N ≤ 0
  · rw [if_pos h0, if_pos h0]
    exact ⟨none, rfl, rfl⟩
  · rw [if_neg h0, if_neg h0, hlen, checkedInt_eq_some bits _ hnr, Option.some_bind]
    simp only []
    rw [wrapInt_eq_self bits hbits _ hnr]
    by_cases h1 : N > (input.length : Int)
    · rw [if_pos h1, if_pos h1, Option.some_bind]
      refine ⟨_, rfl, ?_⟩
      simp only []
      have hmin : min N (input.length : Int) = input.length := by omega
      rw [hmin]
      refine ⟨by omega, by omega, by omega, ?_⟩
      simp only [stringCore.getByteRange, if_true]
    · rw [if_neg h1, if_neg h1, maxLength_checked bits _ N hnr (by omega),
        maxLength_wrap bits hbits _ N hnr (by omega), Option.some_bind]
      refine ⟨_, rfl, ?_⟩
      simp only []
      have hmin : min N (input.length : Int) = N := by omega
      rw [hmin]
      refine ⟨by omega, by omega, by omega, ?_⟩
      simp only [stringCore.getByteRange, if_true]

theorem flatten_characters (decode : Decoder) (isAscii : Bool) (input : List Nat)
    (units : List (Int × List Nat)) (hdec : isAscii = false → Decodes decode input 0 units) :
    (SubstrFunction.characters isAscii input units).flatten = input := by
  cases isAscii with
  | true => simp [SubstrFunction.characters, flatten_map_singleton]
  | false =>
    have := drop_decodes (hdec rfl)
    simpa [SubstrFunction.characters] using this.symm

theorem viewOf_getByteRange_characters (decode : Decoder) (isAscii : Bool) (input : List Nat)
    (units : List (Int × List Nat)) (hdec : isAscii = false → Decodes decode input 0 units)
    (p m : Int) (hp : 1 ≤ p) (hm : 0 ≤ m)
    (hpm : p - 1 + m ≤ (SubstrFunction.characters isAscii input units).length) :
    viewOf input (stringCore.getByteRange decode isAscii input p m)
      = (((SubstrFunction.characters isAscii input units).drop (p - 1).toNat).take
          m.toNat).flatten := by
  cases isAscii with
  | true =>
    simp only [stringCore.getByteRange, if_true]
    rw [SubstrFunction.viewOf_ascii input p m hp hm]
    simp [SubstrFunction.characters]
  | false =>
    simp only [stringCore.getByteRange, Bool.false_eq_true, if_false]
    have hcl : (SubstrFunction.characters false input units).length = units.length := by
      simp [SubstrFunction.characters]
    rw [hcl] at hpm
    rw [SubstrFunction.viewOf_generic decode input units (hdec rfl) (p - 1).toNat m.toNat
      (by omega)]
    simp [SubstrFunction.characters]

namespace TrailFunction

theorem doCall_eq_characters_aux (decode : Decoder) (bits : Nat) (isAscii : Bool)
    (input : List Nat) (N : Int) (units : List (Int × List Nat)) (hbits : 0 < bits)
    (hdec : isAscii = false → Decodes decode input 0 units)
    (hn : InIntRange bits (SubstrFunction.characters isAscii input units).length) :
    doCall decode bits isAscii input N = .ok
      (if N ≤ 0 then []
      else if ((SubstrFunction.characters isAscii input units).length : Int) ≤ N then input
      else ((SubstrFunction.characters isAscii input units).drop
        ((SubstrFunction.characters isAscii input units).length - N.toNat)).flatten) := by
  have hlen := SubstrFunction.length_characters decode isAscii input units hdec
  have hflat := flatten_characters decode isAscii input units hdec
  have hview := viewOf_getByteRange_characters decode isAscii input units hdec
  unfold doCall
  rw [hlen]
  generalize SubstrFunction.characters isAscii input units = cs at hn hflat hview ⊢
  by_cases h0 : N ≤ 0
  · rw [if_pos h0, if_pos h0]
  · rw [if_neg h0, if_neg h0]
    simp only []
    rw [wrapInt_eq_self bits hbits _ hn]
    by_cases h1 : N > (cs.length : Int)
    · rw [if_pos h1, if_pos (by omega)]
      have hmin : min N (cs.length : Int) = cs.length := by omega
      rw [hmin, hview 1 cs.length (by omega) (by omega) (by omega)]
      simp [hflat]
    · rw [if_neg h1, maxLength_wrap bits hbits _ N hn (by omega)]
      have hmin : min N (cs.length : Int) = N := by omega
      rw [hmin, hview _ N (by omega) (by omega) (by omega)]
      have e : ((cs.length : Int) - N + 1 - 1).toNat = cs.length - N.toNat := by omega
      rw [e, List.take_of_length_le (by rw [List.length_drop]; omega)]
      by_cases h2 : (cs.length : Int) ≤ N
      · rw [if_pos h2]
        have e0 : cs.length - N.toNat = 0 := by omega
        rw [e0, List.drop_zero, hflat]
      · rw [if_neg h2]

end TrailFunction

/-! ### Claims C13-C15 -/

/-- C13: `substr_varbinary` applies the sign and clamp rules of `substr` to byte offsets: for
every byte string of a `StringView` size and every `start` and `length`,
`SubstrVarbinaryFunction::call` returns the same bytes as the ascii path of `SubstrFunction`
at `I = int64_t`. -/
theorem varbinary_call_eq_substr (decode : Decoder) (input : List Nat)
    (hsize : input.length < 2 ^ 32) (start length : Int) :
    SubstrVarbinaryFunction.call input start length
      = SubstrFunction.callAscii decode 64 input start length :=
  SubstrVarbinaryFunction.call_eq_substr_aux decode input hsize start length

/-- C13 at `"Hello World"` with `start = -5` and the largest `length`: both return
`"World"`. -/
theorem varbinary_call_eq_substr_witness :
    SubstrVarbinaryFunction.call (asciiBytes "Hello World") (-5) (numericLimitsMax 64)
        = .ok (asciiBytes "World") ∧
      SubstrFunction.callAscii utf8proc_codepoint 64 (asciiBytes "Hello World") (-5)
        (numericLimitsMax 64) = .ok (asciiBytes "World") :=
  ⟨by rfl, (varbinary_call_eq_substr utf8proc_codepoint (asciiBytes "Hello World")
    (by decide) (-5) (numericLimitsMax 64)).symm.trans (by rfl)⟩

/-- C14: the byte-range invariant. For every input buffer of `n` bytes (a `StringView` size)
and every 64-bit `start` and `length`, `INT64_MIN` and `INT64_MAX` included, no operation of
`substr_varbinary` overflows and the view it returns is empty or the byte range
`[start - 1, start - 1 + length)` with `0 <= start - 1 <= start - 1 + length <= n`; the same
holds for the ascii paths of `substr` and of `trail`, for an integer type `I` that holds `n`
and `start`. -/
theorem byteRange_invariant (decode : Decoder) (bits : Nat) (hbits : 0 < bits)
    (input : List Nat) (hsize : input.length < 2 ^ 32) (start length N : Int) :
    (InIntRange 64 start →
        ByteRangeInvariant input (SubstrVarbinaryFunction.byteRangeChecked input start length)
          (SubstrVarbinaryFunction.call input start length)) ∧
      (InIntRange bits (input.length : Int) → InIntRange bits start →
        ByteRangeInvariant input (SubstrFunction.byteRangeAsciiChecked bits input start length)
          (SubstrFunction.callAscii decode bits input start length)) ∧
      (InIntRange bits (input.length : Int) →
        ByteRangeInvariant input (TrailFunction.byteRangeAsciiChecked bits input N)
          (TrailFunction.callAscii decode bits input N)) :=
  ⟨fun hstart => varbinary_byteRange input hsize start length hstart,
    fun hnr hstart => substr_byteRange decode bits hbits input hnr start length hstart,
    fun hnr => trail_byteRange decode bits hbits input hnr N⟩

/-- C14 at `"Hello World"` with `start = INT64_MIN` (the empty string), and with `start = -5`
and `length = INT64_MAX` (the byte range `[6, 11)`). -/
theorem byteRange_invariant_witness :
    ByteRangeInvariant (asciiBytes "Hello World")
        (SubstrVarbinaryFunction.byteRangeChecked (asciiBytes "Hello World")
          (-9223372036854775808) 9223372036854775807)
        (SubstrVarbinaryFunction.call (asciiBytes "Hello World")
          (-9223372036854775808) 9223372036854775807) ∧
      SubstrVarbinaryFunction.byteRangeChecked (asciiBytes "Hello World")
          (-9223372036854775808) 9223372036854775807 = some none ∧
      ByteRangeInvariant (asciiBytes "Hello World")
        (SubstrVarbinaryFunction.byteRangeChecked (asciiBytes "Hello World")
          (-5) 9223372036854775807)
        (SubstrVarbinaryFunction.call (asciiBytes "Hello World") (-5) 9223372036854775807) ∧
      SubstrVarbinaryFunction.byteRangeChecked (asciiBytes "Hello World")
          (-5) 9223372036854775807 = some (some (6, 11)) :=
  ⟨(byteRange_invariant utf8proc_codepoint 64 (by decide) (asciiBytes "Hello World")
      (by decide) (-9223372036854775808) 9223372036854775807 3).1 ⟨by decide, by decide⟩,
    by decide,
    (byteRange_invariant utf8proc_codepoint 64 (by decide) (asciiBytes "Hello World")
      (by decide) (-5) 9223372036854775807 3).1 ⟨by decide, by decide⟩,
    by decide⟩

namespace TrailFunction

/-- C15: for a string `s` of `c` characters (its bytes on the ascii path, the units the decoder
walks it in on the generic path; `c` a value of the integer type `I`) and every integer `n`,
`trail(s, n)` is empty when `n <= 0`, is the whole string when `n >= c`, and otherwise is the
last `n` characters of `s`. -/
theorem doCall_last_characters (decode : Decoder) (bits : Nat) (isAscii : Bool)
    (input : List Nat) (N : Int) (units : List (Int × List Nat)) (hbits : 0 < bits)
    (hdec : isAscii = false → Decodes decode input 0 units)
    (hn : InIntRange bits (SubstrFunction.characters isAscii input units).length) :
    doCall decode bits isAscii input N = .ok
      (if N ≤ 0 then []
      else if ((SubstrFunction.characters isAscii input units).length : Int) ≤ N then input
      else ((SubstrFunction.characters isAscii input units).drop
        ((SubstrFunction.characters isAscii input units).length - N.toNat)).flatten) :=
  doCall_eq_characters_aux decode bits isAscii input N units hbits hdec hn

/-- C15, the scenarios of the specification: `trail("abcdef", 3) = "def"` and
`trail("abcdef", 10) = "abcdef"`; and on the generic path the last two characters of `"aéb"`
are the three bytes of `"éb"`. -/
theorem doCall_last_characters_witness :
    callAscii utf8proc_codepoint 64 (asciiBytes "abcdef") 3 = .ok (asciiBytes "def") ∧
      callAscii utf8proc_codepoint 64 (asciiBytes "abcdef") 10 = .ok (asciiBytes "abcdef") ∧
      callNullFree utf8proc_codepoint 64 [0x61, 0xC3, 0xA9, 0x62] 2 = .ok [0xC3, 0xA9, 0x62] :=
  ⟨(doCall_last_characters utf8proc_codepoint 64 true (asciiBytes "abcdef") 3 []
      (by decide) (fun h => absurd h (by decide)) ⟨by decide, by decide⟩).trans (by rfl),
    (doCall_last_characters utf8proc_codepoint 64 true (asciiBytes "abcdef") 10 []
      (by decide) (fun h => absurd h (by decide)) ⟨by decide, by decide⟩).trans (by rfl),
    (doCall_last_characters utf8proc_codepoint 64 false [0x61, 0xC3, 0xA9, 0x62] 2 _
      (by decide) (fun _ => SubstrFunction.decodes_a_eacute_b)
      ⟨by decide, by decide⟩).trans (by rfl)⟩

end TrailFunction

/-! ## Theorems on `StartsWithFunction` and `EndsWithFunction` -/

theorem memcmp_eq_zero_iff (a b : List Nat) (n : Nat) (ha : n ≤ a.length) (hb : n ≤ b.length) :
    memcmp a b n = 0 ↔ a.take n = b.take n := by
  induction n generalizing a b with
  | zero => simp [memcmp]
  | succ n ih =>
    cases a with
    | nil => simp at ha
    | cons x xs =>
      cases b with
      | nil => simp at hb
      | cons y ys =>
        simp only [List.length_cons, Nat.add_le_add_iff_right] at ha hb
        simp only [memcmp, List.take_succ_cons, List.cons.injEq]
        by_cases hxy : x = y
        · simp [hxy, ih xs ys ha hb]
        · simp only [hxy, if_false, false_and, iff_false]
          omega

theorem startsWith_iff (x y : List Nat) :
    StartsWithFunction.call x y = true ↔ ∃ t, x = y ++ t := by
  unfold StartsWithFunction.call
  by_cases h : x.length < y.length
  · rw [if_pos h]
    simp only [Bool.false_eq_true, false_iff]
    rintro ⟨t, ht⟩
    rw [ht, List.length_append] at h
    omega
  · rw [if_neg h, decide_eq_true_eq, memcmp_eq_zero_iff x y y.length (by omega) (Nat.le_refl _),
      List.take_length]
    constructor
    · intro hx
      have := List.take_append_drop y.length x
      rw [hx] at this
      exact ⟨x.drop y.length, this.symm⟩
    · rintro ⟨t, ht⟩
      rw [ht, List.take_left]

theorem endsWith_iff (x y : List Nat) :
    EndsWithFunction.call x y = true ↔ ∃ t, x = t ++ y := by
  unfold EndsWithFunction.call
  by_cases h : x.length < y.length
  · rw [if_pos h]
    simp only [Bool.false_eq_true, false_iff]
    rintro ⟨t, ht⟩
    rw [ht, List.length_append] at h
    omega
  · rw [if_neg h, decide_eq_true_eq,
      memcmp_eq_zero_iff _ y y.length (by rw [List.length_drop]; omega) (Nat.le_refl _),
      List.take_length, List.take_of_length_le (by rw [List.length_drop]; omega)]
    constructor
    · intro hx
      have := List.take_append_drop (x.length - y.length) x
      rw [hx] at this
      exact ⟨x.take (x.length - y.length), this.symm⟩
    · rintro ⟨t, ht⟩
      rw [ht, List.length_append, Nat.add_sub_cancel, List.drop_left]

/-! ### Claim C16 -/

/-- C16: `starts_with(x, y)` is true if and only if the bytes of `y` are a leading segment of
the bytes of `x`, and `ends_with(x, y)` is true if and only if they are a trailing segment; so
both are true for every `x` when `y` is empty and false whenever `y` is longer than `x`. -/
theorem startsWith_endsWith_spec (x y : List Nat) :
    (StartsWithFunction.call x y = true ↔ ∃ t, x = y ++ t) ∧
      (EndsWithFunction.call x y = true ↔ ∃ t, x = t ++ y) ∧
      StartsWithFunction.call x [] = true ∧ EndsWithFunction.call x [] = true ∧
      (x.length < y.length →
        StartsWithFunction.call x y = false ∧ EndsWithFunction.call x y = false) := by
  refine ⟨startsWith_iff x y, endsWith_iff x y, (startsWith_iff x []).mpr ⟨x, rfl⟩,
    (endsWith_iff x []).mpr ⟨x, by simp⟩, fun h => ⟨?_, ?_⟩⟩
  · unfold StartsWithFunction.call
    rw [if_pos h]
  · unfold EndsWithFunction.call
    rw [if_pos h]

/-- C16 at `x = "Hello World"`: it starts with `"Hello"` and ends with `"World"`, and neither
holds for the longer `"Hello World!"`. -/
theorem startsWith_endsWith_spec_witness :
    StartsWithFunction.call (asciiBytes "Hello World") (asciiBytes "Hello") = true ∧
      EndsWithFunction.call (asciiBytes "Hello World") (asciiBytes "World") = true ∧
      StartsWithFunction.call (asciiBytes "Hello World") (asciiBytes "Hello World!") = false ∧
      EndsWithFunction.call (asciiBytes "Hello World") (asciiBytes "Hello World!") = false :=
  ⟨(startsWith_endsWith_spec (asciiBytes "Hello World") (asciiBytes "Hello")).1.mpr
      ⟨asciiBytes " World", by decide⟩,
    (startsWith_endsWith_spec (asciiBytes "Hello World") (asciiBytes "World")).2.1.mpr
      ⟨asciiBytes "Hello ", by decide⟩,
    ((startsWith_endsWith_spec (asciiBytes "Hello World") (asciiBytes "Hello World!")).2.2.2.2
      (by decide)).1,
    ((startsWith_endsWith_spec (asciiBytes "Hello World") (asciiBytes "Hello World!")).2.2.2.2
      (by decide)).2⟩

/-! ## Theorems on `TrimFunctionBase` -/

namespace TrimFunctionBase

/-! ### Claim C17 -/

/-- C17 as stated fails: the input `"é "` contains non-ASCII bytes, and `trim` with the trim
characters `" "` returns the trimmed result `"é"` instead of the unsupported-operation
error. -/
theorem call_nonAscii_input_counterexample :
    stringCore.isAscii [0xC3, 0xA9, 0x20] = false ∧
      call true true [0xC3, 0xA9, 0x20] [0x20] = .ok [0xC3, 0xA9] := by
  exact ⟨by decide, by rfl⟩

/-- C17, amended: the overload of `trim`, `ltrim` and `rtrim` with custom trim characters fails
with the unsupported-operation error if and only if the trim-character string contains a
non-ASCII byte, for every input string; with ASCII trim characters it returns the trimmed
result, also for an input with non-ASCII bytes. -/
theorem call_unsupported_iff (leftTrim rightTrim : Bool) (input trimCharacters : List Nat) :
    (call leftTrim rightTrim input trimCharacters = .error (.unsupported unsupportedMessage) ↔
        stringCore.isAscii trimCharacters = false) ∧
      (stringCore.isAscii trimCharacters = true →
        call leftTrim rightTrim input trimCharacters =
          .ok (stringImpl.trimAscii leftTrim rightTrim input
            (isTrimCharacter trimCharacters))) := by
  unfold call callAscii
  cases h : stringCore.isAscii trimCharacters with
  | true => simp
  | false => simp

/-- C17, amended, at the trim characters `"é"` (the error, for an ASCII input) and `"x"` (the
trimmed result). -/
theorem call_unsupported_iff_witness :
    call true true (asciiBytes "xabcx") [0xC3, 0xA9] = .error (.unsupported unsupportedMessage) ∧
      call true true (asciiBytes "xabcx") (asciiBytes "x") = .ok (asciiBytes "abc") :=
  ⟨(call_unsupported_iff true true (asciiBytes "xabcx") [0xC3, 0xA9]).1.mpr (by decide),
    ((call_unsupported_iff true true (asciiBytes "xabcx") (asciiBytes "x")).2
      (by decide)).trans (by rfl)⟩

end TrimFunctionBase

/-! ## Theorems on `NormalizeFunction` -/

namespace NormalizeFunction

theorem map_fst_normalizationOptions (o : Utf8procOptions) :
    (normalizationOptions o).map Prod.fst = validForms := rfl

theorem count_ne_zero_iff (o : Utf8procOptions) (form : List Nat) :
    count o form ≠ 0 ↔ form ∈ validForms := by
  rw [← map_fst_normalizationOptions o]
  unfold count
  rw [Nat.ne_zero_iff_zero_lt, List.length_pos_iff_exists_mem]
  constructor
  · rintro ⟨entry, hentry⟩
    rw [List.mem_filter, decide_eq_true_eq] at hentry
    exact List.mem_map.mpr ⟨entry, hentry.1, hentry.2⟩
  · intro h
    obtain ⟨entry, h1, h2⟩ := List.mem_map.mp h
    exact ⟨entry, List.mem_filter.mpr ⟨h1, by simpa using h2⟩⟩

theorem lookup_isSome_of_mem (o : Utf8procOptions) (form : List Nat) (h : form ∈ validForms) :
    ∃ options, (normalizationOptions o).lookup form = some options := by
  unfold validForms at h
  simp only [List.mem_cons, List.mem_singleton, List.mem_nil_iff, or_false] at h
  rcases h with h | h | h | h <;> subst h <;> exact ⟨_, by rfl⟩

theorem initializeForm_ok_iff (o : Utf8procOptions) (form : Option (List Nat)) :
    initializeForm o form = .ok () ↔ ∃ f, form = some f ∧ f ∈ validForms := by
  cases form with
  | none => simp [initializeForm]
  | some f =>
    simp only [initializeForm, Option.some.injEq, exists_eq_left']
    by_cases h : count o f ≠ 0
    · rw [if_pos h]
      exact ⟨fun _ => (count_ne_zero_iff o f).mp h, fun _ => rfl⟩
    · rw [if_neg h]
      constructor
      · intro he
        cases he
      · exact fun hf => absurd ((count_ne_zero_iff o f).mpr hf) h

theorem initializeForm_error (o : Utf8procOptions) (form : Option (List Nat))
    (h : ¬ ∃ f, form = some f ∧ f ∈ validForms) :
    ∃ message, initializeForm o form = .error (.userError message) := by
  cases form with
  | none => exact ⟨_, rfl⟩
  | some f =>
    have hc : ¬ count o f ≠ 0 := fun hc => h ⟨f, rfl, (count_ne_zero_iff o f).mp hc⟩
    refine ⟨"Normalization form must be one of [NFD, NFC, NFKD, NFKC]", ?_⟩
    simp only [initializeForm]
    rw [if_neg hc]

theorem doCall_of_valid (o : Utf8procOptions) (utf8proc_map : Utf8procMap)
    (string form : List Nat) (h : form ∈ validForms) :
    ∃ options, (normalizationOptions o).lookup form = some options ∧
      doCall o utf8proc_map string form =
        .ok (if (utf8proc_map string options).1 < 0 then string
          else (List.range (utf8proc_map string options).1.toNat).map
            (fun i => (utf8proc_map string options).2.getD i 0)) := by
  obtain ⟨options, hopt⟩ := lookup_isSome_of_mem o form h
  refine ⟨options, hopt, ?_⟩
  unfold doCall
  rw [hopt]
  simp only []
  split <;> rfl

theorem map_getD_eq_take (output : List Nat) (n : Nat) (h : n ≤ output.length) :
    (List.range n).map (fun i => output.getD i 0) = output.take n := by
  apply List.ext_getElem
  · simp [h]
  · intro i h1 h2
    simp only [List.length_map, List.length_range] at h1
    simp [List.getD_eq_getElem?_getD, List.getElem?_eq_getElem (show i < output.length by omega)]

/-! ### Claims C18-C19 -/

/-- C18: `NormalizeFunction::initialize` succeeds if and only if the form argument is present
and is exactly one of the four strings `"NFC"`, `"NFD"`, `"NFKC"`, `"NFKD"`; for a missing form
and for any other string it raises a user error; and after a successful `initialize` the
lookup of the form in the options table, done at every row, finds an entry: `doCall` does not
throw `std::out_of_range`. -/
theorem initializeForm_spec (o : Utf8procOptions) (form : Option (List Nat)) :
    (initializeForm o form = .ok () ↔
        ∃ f, form = some f ∧
          f ∈ [asciiBytes "NFC", asciiBytes "NFD", asciiBytes "NFKC", asciiBytes "NFKD"]) ∧
      ((¬ ∃ f, form = some f ∧
          f ∈ [asciiBytes "NFC", asciiBytes "NFD", asciiBytes "NFKC", asciiBytes "NFKD"]) →
        ∃ message, initializeForm o form = .error (.userError message)) ∧
      (∀ f, form = some f → initializeForm o form = .ok () →
        ∀ (utf8proc_map : Utf8procMap) (string : List Nat),
          (∃ options, (normalizationOptions o).lookup f = some options) ∧
            doCall o utf8proc_map string f ≠ .error .outOfRange) := by
  refine ⟨initializeForm_ok_iff o form, initializeForm_error o form, ?_⟩
  intro f hf hok utf8proc_map string
  obtain ⟨f', hf', hmem⟩ := (initializeForm_ok_iff o form).mp hok
  rw [hf] at hf'
  cases hf'
  obtain ⟨options, hopt, hcall⟩ := doCall_of_valid o utf8proc_map string f hmem
  refine ⟨⟨options, hopt⟩, ?_⟩
  rw [hcall]
  intro h
  cases h

/-- C18 at the form `"NFKC"` (accepted) and at the form `"nfc"`, in lower case (a user
error). -/
theorem initializeForm_spec_witness :
    initializeForm ⟨2, 8, 16, 4⟩ (some (asciiBytes "NFKC")) = .ok () ∧
      ∃ message, initializeForm ⟨2, 8, 16, 4⟩ (some (asciiBytes "nfc"))
        = .error (.userError message) :=
  ⟨(initializeForm_spec ⟨2, 8, 16, 4⟩ (some (asciiBytes "NFKC"))).1.mpr
      ⟨asciiBytes "NFKC", rfl, by decide⟩,
    (initializeForm_spec ⟨2, 8, 16, 4⟩ (some (asciiBytes "nfc"))).2.1
      (by
        rintro ⟨f, hf, hmem⟩
        cases hf
        revert hmem
        decide)⟩

/-- C19: for every input string and every valid form, if the transform reports a negative
length then `normalize` returns the bytes of the input; otherwise it returns a string of
exactly the reported length, which is the transform's output: the first `outputLength` bytes
of the buffer, all of it when the buffer holds exactly the reported number of bytes. -/
theorem doCall_fallback (o : Utf8procOptions) (utf8proc_map : Utf8procMap)
    (string form : List Nat) (hform : initializeForm o (some form) = .ok ()) :
    ∃ options, (normalizationOptions o).lookup form = some options ∧
      ((utf8proc_map string options).1 < 0 →
        doCall o utf8proc_map string form = .ok string) ∧
      (0 ≤ (utf8proc_map string options).1 →
        ∃ result, doCall o utf8proc_map string form = .ok result ∧
          (result.length : Int) = (utf8proc_map string options).1 ∧
          (((utf8proc_map string options).1.toNat ≤ (utf8proc_map string options).2.length →
            result = (utf8proc_map string options).2.take
              (utf8proc_map string options).1.toNat) ∧
          (((utf8proc_map string options).2.length : Int) = (utf8proc_map string options).1 →
            result = (utf8proc_map string options).2))) := by
  obtain ⟨f, hf, hmem⟩ := (initializeForm_ok_iff o (some form)).mp hform
  cases hf
  obtain ⟨options, hopt, hcall⟩ := doCall_of_valid o utf8proc_map string form hmem
  refine ⟨options, hopt, ?_, ?_⟩
  · intro hneg
    rw [hcall, if_pos hneg]
  · intro hpos
    rw [hcall, if_neg (by omega)]
    refine ⟨_, rfl, ?_, ?_, ?_⟩
    · simp only [List.length_map, List.length_range]
      omega
    · intro hle
      exact map_getD_eq_take _ _ hle
    · intro heq
      rw [map_getD_eq_take _ _ (by omega), List.take_of_length_le (by omega)]

/-- C19 for a transform that fails (the input comes back) and for one that succeeds with the
three bytes of `"é"` decomposed. -/
theorem doCall_fallback_witness :
    doCall ⟨2, 8, 16, 4⟩ (fun _ _ => (-1, [])) [0xC3, 0xA9] (asciiBytes "NFD")
        = .ok [0xC3, 0xA9] ∧
      doCall ⟨2, 8, 16, 4⟩ (fun _ _ => (3, [0x65, 0xCC, 0x81])) [0xC3, 0xA9] (asciiBytes "NFD")
        = .ok [0x65, 0xCC, 0x81] := by
  obtain ⟨_, _, h1, _⟩ := doCall_fallback ⟨2, 8, 16, 4⟩ (fun _ _ => (-1, [])) [0xC3, 0xA9]
    (asciiBytes "NFD") (by rfl)
  obtain ⟨_, _, _, h2⟩ := doCall_fallback ⟨2, 8, 16, 4⟩ (fun _ _ => (3, [0x65, 0xCC, 0x81]))
    [0xC3, 0xA9] (asciiBytes "NFD") (by rfl)
  refine ⟨h1 (by decide), ?_⟩
  obtain ⟨result, hres, _, _, hall⟩ := h2 (by decide)
  rw [hres, hall (by decide)]

end NormalizeFunction

/-! ## Theorems on `PadFunctionBase` -/

namespace PadFunctionBase

theorem flatten_replicate_flatten {β : Type} (l : List (List β)) (q : Nat) :
    (List.replicate q l.flatten).flatten = ((List.replicate q l).flatten).flatten := by
  induction q with
  | zero => rfl
  | succ q ih => simp [List.replicate_succ, ih]

theorem length_paddingCharacters (padCharacters : List (List Nat)) (count : Nat) (size : Int)
    (hp : padCharacters ≠ []) (hsize : (count : Int) < size) :
    ((paddingCharacters padCharacters count size).length : Int) = size - count := by
  have hpos : (0 : Int) < padCharacters.length := by
    have := List.length_pos.mpr hp
    omega
  have h1 := Int.emod_nonneg (size - count) (show (padCharacters.length : Int) ≠ 0 by omega)
  have h2 := Int.emod_lt_of_pos (size - count) hpos
  have h3 := Int.emod_add_ediv (size - count) padCharacters.length
  have h4 : 0 ≤ (size - count) / (padCharacters.length : Int) :=
    Int.ediv_nonneg (by omega) (by omega)
  unfold paddingCharacters
  simp only [List.length_append, List.length_flatten, List.map_replicate, List.sum_replicate,
    List.length_take, smul_eq_mul, Nat.cast_add, Nat.cast_mul]
  rw [Nat.min_eq_left (by omega), Int.toNat_of_nonneg h4, Int.toNat_of_nonneg h1]
  rw [Int.mul_comm] at h3
  omega

theorem pad_aux (decode : Decoder) (lpad isAscii : Bool) (string padString : List Nat)
    (size : Int) (units padUnits : List (Int × List Nat))
    (hdec : isAscii = false →
      Decodes decode string 0 units ∧ Decodes decode padString 0 padUnits)
    (hpad : padString ≠ []) (hsize : 0 ≤ size) :
    stringImpl.pad decode lpad isAscii string size padString = .ok
      (if size ≤ ((SubstrFunction.characters isAscii string units).length : Int) then
        ((SubstrFunction.characters isAscii string units).take size.toNat).flatten
      else if lpad then
        (paddingCharacters (SubstrFunction.characters isAscii padString padUnits)
            (SubstrFunction.characters isAscii string units).length size ++
          SubstrFunction.characters isAscii string units).flatten
      else
        (SubstrFunction.characters isAscii string units ++
          paddingCharacters (SubstrFunction.characters isAscii padString padUnits)
            (SubstrFunction.characters isAscii string units).length size).flatten) := by
  have hds : isAscii = false → Decodes decode string 0 units := fun h => (hdec h).1
  have hdp : isAscii = false → Decodes decode padString 0 padUnits := fun h => (hdec h).2
  have hlen := SubstrFunction.length_characters decode isAscii string units hds
  have hplen := SubstrFunction.length_characters decode isAscii padString padUnits hdp
  have hflat := flatten_characters decode isAscii string units hds
  have hpflat := flatten_characters decode isAscii padString padUnits hdp
  have hview := viewOf_getByteRange_characters decode isAscii string units hds
  have hpview := viewOf_getByteRange_characters decode isAscii padString padUnits hdp
  unfold stringImpl.pad
  rw [if_neg (by omega), hlen]
  simp only []
  generalize SubstrFunction.characters isAscii string units = cs at hlen hflat hview ⊢
  by_cases h1 : size ≤ (cs.length : Int)
  · rw [if_pos h1, if_pos h1, hview 1 size (by omega) hsize (by omega)]
    simp
  · rw [if_neg h1, if_neg h1, if_neg (by
      intro h0
      exact hpad (List.length_eq_zero.mp h0)), hplen]
    have hps : SubstrFunction.characters isAscii padString padUnits ≠ [] := by
      intro h
      rw [h] at hpflat
      exact hpad hpflat.symm
    generalize SubstrFunction.characters isAscii padString padUnits = ps
      at hplen hpflat hpview hps ⊢
    have hpos : (0 : Int) < ps.length := by
      have := List.length_pos.mpr hps
      omega
    have hr1 := Int.emod_nonneg (size - cs.length) (show (ps.length : Int) ≠ 0 by omega)
    have hr2 := Int.emod_lt_of_pos (size - cs.length) hpos
    rw [hpview 1 _ (by omega) hr1 (by omega)]
    have hpadding : (List.replicate ((size - (cs.length : Int)) / (ps.length : Int)).toNat
          padString).flatten ++
        (List.take ((size - (cs.length : Int)) % (ps.length : Int)).toNat
          (List.drop (1 - 1 : Int).toNat ps)).flatten
        = (paddingCharacters ps cs.length size).flatten := by
      unfold paddingCharacters
      rw [List.flatten_append, ← flatten_replicate_flatten, hpflat]
      simp
    rw [hpadding]
    cases lpad with
    | true => simp [hflat]
    | false => simp [hflat]

/-- The two cases of `stringImpl::pad`, the truncation and the padding, on either path, with
the count of the padding characters; on the ascii path `length` of the result is `size`. -/
theorem pad_characters (decode : Decoder) (isAscii : Bool) (string padString : List Nat)
    (size : Int) (units padUnits : List (Int × List Nat))
    (hdec : isAscii = false →
      Decodes decode string 0 units ∧ Decodes decode padString 0 padUnits)
    (hpad : padString ≠ []) (hsize : 0 ≤ size) :
    (size ≤ ((SubstrFunction.characters isAscii string units).length : Int) →
        stringImpl.pad decode true isAscii string size padString
          = .ok ((SubstrFunction.characters isAscii string units).take size.toNat).flatten ∧
        stringImpl.pad decode false isAscii string size padString
          = .ok ((SubstrFunction.characters isAscii string units).take size.toNat).flatten) ∧
      (((SubstrFunction.characters isAscii string units).length : Int) < size →
        stringImpl.pad decode true isAscii string size padString
          = .ok (paddingCharacters (SubstrFunction.characters isAscii padString padUnits)
              (SubstrFunction.characters isAscii string units).length size ++
            SubstrFunction.characters isAscii string units).flatten ∧
        stringImpl.pad decode false isAscii string size padString
          = .ok (SubstrFunction.characters isAscii string units ++
            paddingCharacters (SubstrFunction.characters isAscii padString padUnits)
              (SubstrFunction.characters isAscii string units).length size).flatten ∧
        (((paddingCharacters (SubstrFunction.characters isAscii padString padUnits)
              (SubstrFunction.characters isAscii string units).length size).length : Int)
            + (SubstrFunction.characters isAscii string units).length = size) ∧
        (isAscii = true → ∀ lpad result,
          stringImpl.pad decode lpad isAscii string size padString = .ok result →
          LengthFunction.callAscii decode result = size)) := by
  have hl := pad_aux decode true isAscii string padString size units padUnits hdec hpad hsize
  have hr := pad_aux decode false isAscii string padString size units padUnits hdec hpad hsize
  constructor
  · intro h
    rw [if_pos h] at hl hr
    exact ⟨hl, hr⟩
  · intro h
    rw [if_neg (by omega)] at hl hr
    have hps : SubstrFunction.characters isAscii padString padUnits ≠ [] := by
      intro he
      have := flatten_characters decode isAscii padString padUnits (fun h => (hdec h).2)
      rw [he] at this
      exact hpad this.symm
    have hcount := length_paddingCharacters _ _ size hps h
    refine ⟨by simpa using hl, by simpa using hr, by omega, ?_⟩
    intro hascii lpad result hres
    subst hascii
    have hsingle : ∀ l : List (List Nat), (∀ c ∈ l, c.length = 1) →
        l.flatten.length = l.length := by
      intro l hl1
      induction l with
      | nil => rfl
      | cons c l ih =>
        rw [List.flatten_cons, List.length_append, List.length_cons,
          hl1 c (List.mem_cons_self _ _), ih (fun c hc => hl1 c (List.mem_cons_of_mem _ hc))]
        omega
    have hcs : ∀ c ∈ SubstrFunction.characters true string units, c.length = 1 := by
      intro c hc
      simp only [SubstrFunction.characters, if_true, List.mem_map] at hc
      obtain ⟨b, _, rfl⟩ := hc
      rfl
    have hpc : ∀ c ∈ paddingCharacters (SubstrFunction.characters true padString padUnits)
        (SubstrFunction.characters true string units).length size, c.length = 1 := by
      intro c hc
      have hmem : c ∈ SubstrFunction.characters true padString padUnits := by
        unfold paddingCharacters at hc
        rcases List.mem_append.mp hc with hc | hc
        · obtain ⟨l, hl, hcl⟩ := List.mem_flatten.mp hc
          rw [List.eq_of_mem_replicate hl] at hcl
          exact hcl
        · exact List.mem_of_mem_take hc
      simp only [SubstrFunction.characters, if_true, List.mem_map] at hmem
      obtain ⟨b, _, rfl⟩ := hmem
      rfl
    have hresult : (result.length : Int) = size := by
      cases lpad with
      | true =>
        rw [hl] at hres
        simp only [if_true] at hres
        injection hres with hres
        rw [← hres, hsingle _ (by
          intro c hc
          rcases List.mem_append.mp hc with hc | hc
          · exact hpc c hc
          · exact hcs c hc), List.length_append]
        push_cast
        omega
      | false =>
        rw [hr] at hres
        simp only [Bool.false_eq_true, if_false] at hres
        injection hres with hres
        rw [← hres, hsingle _ (by
          intro c hc
          rcases List.mem_append.mp hc with hc | hc
          · exact hcs c hc
          · exact hpc c hc), List.length_append]
        push_cast
        omega
    simpa [LengthFunction.callAscii, stringImpl.length] using hresult

end PadFunctionBase

namespace HammingDistanceFunction

theorem loopBody_progress (decode : Decoder) (hprogress : DecoderProgress decode)
    (left right : List Nat) (s : State) (hl : 0 ≤ s.leftPosition) (hr : 0 ≤ s.rightPosition)
    (hc : loopCondition left right s) :
    s.leftPosition < (loopBody decode left right s).leftPosition ∧
      s.rightPosition < (loopBody decode left right s).rightPosition := by
  have h1 := hprogress left s.leftPosition hl hc.1
  have h2 := hprogress right s.rightPosition hr hc.2
  unfold loopBody
  simp only []
  constructor
  · split_ifs with h
    · have := h1 h
      omega
    · omega
  · split_ifs with h
    · have := h2 h
      omega
    · omega

theorem loop_of_not_loopCondition (decode : Decoder) (left right : List Nat) (s : State)
    (hc : ¬ loopCondition left right s) (fuel : Nat) : loop decode left right fuel s = some s := by
  cases fuel <;> simp [loop, hc]

theorem loop_terminates (decode : Decoder) (hprogress : DecoderProgress decode)
    (left right : List Nat) :
    ∀ (n : Nat) (s : State), 0 ≤ s.leftPosition → 0 ≤ s.rightPosition →
      remaining left right s ≤ n →
      ∃ t, ∀ fuel, n ≤ fuel → loop decode left right fuel s = some t := by
  intro n
  induction n with
  | zero =>
    intro s _ _ hn
    refine ⟨s, fun fuel _ => loop_of_not_loopCondition decode left right s ?_ fuel⟩
    intro hc
    unfold remaining at hn
    unfold loopCondition at hc
    omega
  | succ n ih =>
    intro s hl hr hn
    by_cases hc : loopCondition left right s
    · obtain ⟨h1, h2⟩ := loopBody_progress decode hprogress left right s hl hr hc
      obtain ⟨t, ht⟩ := ih (loopBody decode left right s) (by omega) (by omega) (by
        unfold remaining at hn ⊢
        unfold loopCondition at hc
        omega)
      refine ⟨t, fun fuel hfuel => ?_⟩
      obtain ⟨f, rfl⟩ : ∃ f, fuel = f + 1 := ⟨fuel - 1, by omega⟩
      rw [loop, if_pos hc]
      exact ht f (by omega)
    · exact ⟨s, fun fuel _ => loop_of_not_loopCondition decode left right s hc fuel⟩

theorem decoderProgress_utf8proc_codepoint : DecoderProgress utf8proc_codepoint := by
  intro buffer position h0 h1 h
  have := (advance_utf8proc_codepoint buffer position h0 h1).1
  unfold advance at this
  rw [if_pos h] at this
  omega

/-- C21: forward progress of the walk of `call`. Let the decoder report a consumed size of at
least 1 with every valid (non-negative) code point, every other value being negative. Then
each iteration of the loop (the condition of line 457 holding) strictly increases both
`leftPosition` and `rightPosition`; and the loop has left after at most
`min(leftLength, rightLength)` iterations: with that much fuel, and with any more, `loop`
ends in one and the same final state, so `call` returns an outcome. -/
theorem loop_forward_progress (decode : Decoder) (hprogress : DecoderProgress decode)
    (left right : List Nat) :
    (∀ s : State, 0 ≤ s.leftPosition → 0 ≤ s.rightPosition → loopCondition left right s →
      s.leftPosition < (loopBody decode left right s).leftPosition ∧
        s.rightPosition < (loopBody decode left right s).rightPosition) ∧
    ∃ t : State,
      (∀ fuel, min left.length right.length ≤ fuel →
        loop decode left right fuel { leftPosition := 0, rightPosition := 0, distance := 0 }
          = some t) ∧
      ∀ fuel, min left.length right.length ≤ fuel →
        call decode fuel left right
          = some (if t.leftPosition = (left.length : Int) ∧
                t.rightPosition = (right.length : Int) then .ok t.distance
              else .error (.userError sameLengthMessage)) := by
  refine ⟨fun s hl hr hc => loopBody_progress decode hprogress left right s hl hr hc, ?_⟩
  obtain ⟨t, ht⟩ := loop_terminates decode hprogress left right
    (min left.length right.length) { leftPosition := 0, rightPosition := 0, distance := 0 }
    (le_refl _) (le_refl _) (by simp [remaining])
  refine ⟨t, ht, fun fuel hfuel => ?_⟩
  unfold call
  rw [ht fuel hfuel]
  rfl

/-- C21 on the model decoder, with the malformed byte `0xFF` in the left input: the walk over
`"a\xFFb"` and `"abcd"` ends within `min(3, 4) = 3` iterations, in the state where the
left cursor is on the end of its buffer; and the first iteration moves both cursors from 0 to
1. -/
theorem loop_forward_progress_witness :
    loop utf8proc_codepoint [0x61, 0xFF, 0x62] (asciiBytes "abcd") 3
        { leftPosition := 0, rightPosition := 0, distance := 0 }
      = some { leftPosition := 3, rightPosition := 3, distance := 2 } ∧
    (loopBody utf8proc_codepoint [0x61, 0xFF, 0x62] (asciiBytes "abcd")
        { leftPosition := 0, rightPosition := 0, distance := 0 }).leftPosition = 1 ∧
    ∃ t : State, ∀ fuel, 3 ≤ fuel →
      loop utf8proc_codepoint [0x61, 0xFF, 0x62] (asciiBytes "abcd") fuel
        { leftPosition := 0, rightPosition := 0, distance := 0 } = some t :=
  ⟨by decide, by decide,
    (loop_forward_progress utf8proc_codepoint decoderProgress_utf8proc_codepoint
      [0x61, 0xFF, 0x62] (asciiBytes "abcd")).2.imp fun _ h => h.1⟩

end HammingDistanceFunction

/-! ## `TrailFunction` against `SubstrFunction` -/

theorem substr_start_beyond (decode : Decoder) (bits : Nat) (isAscii : Bool) (input : List Nat)
    (n length : Int) (units : List (Int × List Nat)) (hbits : 0 < bits)
    (hdec : isAscii = false → Decodes decode input 0 units)
    (hc : InIntRange bits (SubstrFunction.characters isAscii input units).length)
    (hn : InIntRange bits n)
    (h : ((SubstrFunction.characters isAscii input units).length : Int) < n) :
    SubstrFunction.doCall decode bits isAscii input (-n) length = .ok [] := by
  have hlen := SubstrFunction.length_characters decode isAscii input units hdec
  unfold SubstrFunction.doCall
  rw [hlen]
  generalize (SubstrFunction.characters isAscii input units).length = c at hc h
  by_cases h0 : -n = 0 ∨ length ≤ 0
  · rw [if_pos h0]
  · rw [if_neg h0]
    simp only []
    rw [wrapInt_eq_self bits hbits _ hc, if_pos (show -n < 0 by omega)]
    obtain ⟨hc1, hc2⟩ := hc
    obtain ⟨hn1, hn2⟩ := hn
    rw [wrapInt_eq_self bits hbits ((c : Int) + -n) ⟨by omega, by omega⟩,
      wrapInt_eq_self bits hbits ((c : Int) + -n + 1) ⟨by omega, by omega⟩,
      if_pos (Or.inl (by omega))]

theorem numericLimitsMax_ge (bits : Nat) (c : Nat) (hc : InIntRange bits c) :
    (c : Int) ≤ numericLimitsMax bits := by
  unfold numericLimitsMax
  obtain ⟨_, h⟩ := hc
  omega

theorem trail_eq_substr_aux (decode : Decoder) (bits : Nat) (isAscii : Bool) (input : List Nat)
    (n : Int) (units : List (Int × List Nat)) (hbits : 0 < bits)
    (hdec : isAscii = false → Decodes decode input 0 units)
    (hc : InIntRange bits (SubstrFunction.characters isAscii input units).length)
    (h1 : 1 ≤ n) (h2 : n ≤ (SubstrFunction.characters isAscii input units).length) :
    TrailFunction.doCall decode bits isAscii input n
        = .ok ((SubstrFunction.characters isAscii input units).drop
            ((SubstrFunction.characters isAscii input units).length - n.toNat)).flatten ∧
      SubstrFunction.doCall decode bits isAscii input (-n) (numericLimitsMax bits)
        = TrailFunction.doCall decode bits isAscii input n ∧
      SubstrFunction.doCall decode bits isAscii input
          ((SubstrFunction.characters isAscii input units).length - n + 1) n
        = TrailFunction.doCall decode bits isAscii input n := by
  have hmax := numericLimitsMax_ge bits _ hc
  have htrail := TrailFunction.doCall_eq_characters_aux decode bits isAscii input n units hbits
    hdec hc
  have hneg := SubstrFunction.doCall_eq_characters decode bits isAscii input (-n)
    (numericLimitsMax bits) units hbits hdec hc (by rw [abs_neg, abs_of_pos (by omega)]; omega)
    (by omega)
  have hpos := SubstrFunction.doCall_eq_characters decode bits isAscii input
    ((SubstrFunction.characters isAscii input units).length - n + 1) n units hbits hdec hc
    (by rw [abs_of_pos (by omega)]; omega) h1
  have hflat := flatten_characters decode isAscii input units hdec
  generalize SubstrFunction.characters isAscii input units = cs at *
  have hvalue : TrailFunction.doCall decode bits isAscii input n
      = .ok (cs.drop (cs.length - n.toNat)).flatten := by
    rw [htrail, if_neg (by omega)]
    by_cases he : (cs.length : Int) ≤ n
    · rw [if_pos he]
      have : cs.length - n.toNat = 0 := by omega
      rw [this, List.drop_zero, hflat]
    · rw [if_neg he]
  have htake : ∀ m : Nat, m = n.toNat → ((cs.drop (cs.length - n.toNat)).take m) =
      cs.drop (cs.length - n.toNat) := by
    intro m hm
    apply List.take_of_length_le
    rw [List.length_drop]
    omega
  refine ⟨hvalue, ?_, ?_⟩
  · rw [hvalue, hneg]
    unfold SubstrFunction.startPosition
    rw [if_neg (by omega)]
    have e1 : ((cs.length : Int) + -n + 1 - 1).toNat = cs.length - n.toNat := by omega
    rw [e1, htake _ (by omega)]
  · rw [hvalue, hpos]
    unfold SubstrFunction.startPosition
    rw [if_pos (by omega)]
    have e1 : ((cs.length : Int) - n + 1 - 1).toNat = cs.length - n.toNat := by omega
    rw [e1, htake _ (by omega)]

/-- C24 as stated fails: for the empty string (`c = 0`) and `n = 1 > c`, `trail(s, n)` and
`substr(s, -n)` do not differ, both return the empty string. -/
theorem trail_substr_empty_counterexample :
    stringImpl.length utf8proc_codepoint false [] = 0 ∧
      TrailFunction.doCall utf8proc_codepoint 64 false [] 1 = .ok [] ∧
      SubstrFunction.doCall utf8proc_codepoint 64 false [] (-1) (numericLimitsMax 64)
        = .ok [] ∧
      TrailFunction.doCall utf8proc_codepoint 64 false [] 1
        = SubstrFunction.doCall utf8proc_codepoint 64 false [] (-1) (numericLimitsMax 64) := by
  refine ⟨by rfl, by rfl, by rfl, by rfl⟩

/-- C24, amended: let `s` be a string of `c` characters (its bytes on the ascii path, the units
the decoder walks it in on the generic path; `c` a value of the integer type `I`). For every
`n` with `1 <= n <= c`, `trail(s, n)` is the last `n` characters of `s` and equals both
`substr(s, -n)` (the length omitted) and `substr(s, c - n + 1, n)`. For every `n > c` of the
type `I`, `trail(s, n)` is all of `s` while `substr(s, -n)` is the empty string, so the two
differ exactly when `s` is not empty. -/
theorem trail_eq_substr (decode : Decoder) (bits : Nat) (isAscii : Bool) (input : List Nat)
    (n : Int) (units : List (Int × List Nat)) (hbits : 0 < bits)
    (hdec : isAscii = false → Decodes decode input 0 units)
    (hc : InIntRange bits (SubstrFunction.characters isAscii input units).length) :
    (1 ≤ n → n ≤ (SubstrFunction.characters isAscii input units).length →
      TrailFunction.doCall decode bits isAscii input n
          = .ok ((SubstrFunction.characters isAscii input units).drop
              ((SubstrFunction.characters isAscii input units).length - n.toNat)).flatten ∧
        SubstrFunction.doCall decode bits isAscii input (-n) (numericLimitsMax bits)
          = TrailFunction.doCall decode bits isAscii input n ∧
        SubstrFunction.doCall decode bits isAscii input
            ((SubstrFunction.characters isAscii input units).length - n + 1) n
          = TrailFunction.doCall decode bits isAscii input n) ∧
    (((SubstrFunction.characters isAscii input units).length : Int) < n → InIntRange bits n →
      TrailFunction.doCall decode bits isAscii input n = .ok input ∧
        SubstrFunction.doCall decode bits isAscii input (-n) (numericLimitsMax bits) = .ok [] ∧
        (TrailFunction.doCall decode bits isAscii input n
            ≠ SubstrFunction.doCall decode bits isAscii input (-n) (numericLimitsMax bits)
          ↔ input ≠ [])) := by
  refine ⟨fun h1 h2 => trail_eq_substr_aux decode bits isAscii input n units hbits hdec hc h1 h2,
    fun h hn => ?_⟩
  have htrail : TrailFunction.doCall decode bits isAscii input n = .ok input := by
    rw [TrailFunction.doCall_eq_characters_aux decode bits isAscii input n units hbits hdec hc,
      if_neg (by omega), if_pos (by omega)]
  have hsubstr := substr_start_beyond decode bits isAscii input n (numericLimitsMax bits) units
    hbits hdec hc hn h
  refine ⟨htrail, hsubstr, ?_⟩
  rw [htrail, hsubstr]
  simp

/-- C24, amended, on `"abcdef"` (ascii path, 64 bits):
`trail(s, 2) = substr(s, -2) = substr(s, 5, 2) = "ef"`; and `trail(s, 9) = "abcdef"` while `substr(s, -9)` is empty. On the generic path the
last two characters of `"aéb"` are the three bytes of `"éb"`. -/
theorem trail_eq_substr_witness :
    TrailFunction.callAscii utf8proc_codepoint 64 (asciiBytes "abcdef") 2
        = .ok (asciiBytes "ef") ∧
      SubstrFunction.callAscii utf8proc_codepoint 64 (asciiBytes "abcdef") (-2)
          (numericLimitsMax 64) = .ok (asciiBytes "ef") ∧
      SubstrFunction.callAscii utf8proc_codepoint 64 (asciiBytes "abcdef") 5 2
        = .ok (asciiBytes "ef") ∧
      TrailFunction.callAscii utf8proc_codepoint 64 (asciiBytes "abcdef") 9
        = .ok (asciiBytes "abcdef") ∧
      SubstrFunction.callAscii utf8proc_codepoint 64 (asciiBytes "abcdef") (-9)
          (numericLimitsMax 64) = .ok [] ∧
      SubstrFunction.call utf8proc_codepoint 64 [0x61, 0xC3, 0xA9, 0x62] (-2)
          (numericLimitsMax 64) = .ok [0xC3, 0xA9, 0x62] :=
  have h := trail_eq_substr utf8proc_codepoint 64 true (asciiBytes "abcdef") 2 [] (by decide)
    (fun h => absurd h (by decide)) ⟨by decide, by decide⟩
  have h9 := trail_eq_substr utf8proc_codepoint 64 true (asciiBytes "abcdef") 9 [] (by decide)
    (fun h => absurd h (by decide)) ⟨by decide, by decide⟩
  have hg := trail_eq_substr utf8proc_codepoint 64 false [0x61, 0xC3, 0xA9, 0x62] 2 _
    (by decide) (fun _ => SubstrFunction.decodes_a_eacute_b) ⟨by decide, by decide⟩
  ⟨(h.1 (by decide) (by decide)).1.trans (by rfl),
    ((h.1 (by decide) (by decide)).2.1.trans (h.1 (by decide) (by decide)).1).trans (by rfl),
    ((h.1 (by decide) (by decide)).2.2.trans (h.1 (by decide) (by decide)).1).trans (by rfl),
    (h9.2 (by decide) ⟨by decide, by decide⟩).1,
    (h9.2 (by decide) ⟨by decide, by decide⟩).2.1,
    ((hg.1 (by decide) (by decide)).2.1.trans (hg.1 (by decide) (by decide)).1).trans
      (by rfl)⟩

/-! ## `levenshtein_distance` against `hamming_distance` -/

theorem editScript_mismatches (a b : List Nat) (h : a.length = b.length) :
    LevenshteinDistanceFunction.EditScript a b
      (HammingDistanceFunction.mismatches (a.map (fun (x : Nat) => (x : Int)))
        (b.map (fun (x : Nat) => (x : Int)))) := by
  induction a generalizing b with
  | nil =>
    cases b with
    | nil => exact .done
    | cons y b => simp at h
  | cons x a ih =>
    cases b with
    | nil => simp at h
    | cons y b =>
      simp only [List.length_cons, Nat.add_right_cancel_iff] at h
      rw [List.map_cons, List.map_cons, HammingDistanceFunction.mismatches_cons]
      by_cases hxy : x = y
      · subst hxy
        simpa using LevenshteinDistanceFunction.EditScript.keep x (ih b h)
      · have hne : ((x : Int) ≠ (y : Int)) := by exact_mod_cast hxy
        rw [if_pos hne]
        exact .substitute x y (ih b h)

theorem mismatches_le_length (us vs : List Int) :
    HammingDistanceFunction.mismatches us vs ≤ us.length := by
  unfold HammingDistanceFunction.mismatches
  refine (List.countP_le_length _).trans ?_
  rw [List.length_zip]
  exact Nat.min_le_left _ _

theorem mismatches_eq_zero_iff (a b : List Nat) (h : a.length = b.length) :
    HammingDistanceFunction.mismatches (a.map (fun (x : Nat) => (x : Int)))
        (b.map (fun (x : Nat) => (x : Int))) = 0 ↔ a = b := by
  induction a generalizing b with
  | nil =>
    cases b with
    | nil => simp [HammingDistanceFunction.mismatches]
    | cons y b => simp at h
  | cons x a ih =>
    cases b with
    | nil => simp at h
    | cons y b =>
      simp only [List.length_cons, Nat.add_right_cancel_iff] at h
      rw [List.map_cons, List.map_cons, HammingDistanceFunction.mismatches_cons, List.cons.injEq,
        ← ih b h]
      by_cases hxy : x = y
      · simp [hxy]
      · have hne : ((x : Int) ≠ (y : Int)) := by exact_mod_cast hxy
        simp [hxy, hne]

theorem levenshtein_le_hamming_aux (a b : List Nat) (hlength : a.length = b.length)
    (hsize : a.length * a.length ≤ 1000000) :
    ∃ l h : Nat,
      LevenshteinDistanceFunction.callAscii a b = .ok (l : Int) ∧
      HammingDistanceFunction.callAscii a b = .ok (h : Int) ∧
      l ≤ h ∧ h ≤ a.length ∧ (h = 0 ↔ a = b) := by
  refine ⟨LevenshteinDistanceFunction.lev a b,
    HammingDistanceFunction.mismatches (a.map (fun (x : Nat) => (x : Int)))
      (b.map (fun (x : Nat) => (x : Int))), ?_, ?_,
    LevenshteinDistanceFunction.lev_le_of_editScript (editScript_mismatches a b hlength), ?_,
    mismatches_eq_zero_iff a b hlength⟩
  · exact LevenshteinDistanceFunction.doCall_eq_lev a b (by rw [← hlength]; exact hsize)
  · unfold HammingDistanceFunction.callAscii
    rw [if_neg (by simpa using hlength), HammingDistanceFunction.foldl_eq_mismatches a b hlength]
  · simpa using mismatches_le_length (a.map (fun (x : Nat) => (x : Int)))
      (b.map (fun (x : Nat) => (x : Int)))

/-- C25: for ASCII strings `a` and `b` of one and the same byte length `n` with
`n * n <= 1,000,000`, both distance kernels succeed: `levenshtein_distance(a, b)` returns a
distance `l` and `hamming_distance(a, b)` a distance `h` (on the ascii path, and on the
generic path with a decoder that reads an ASCII byte as a one-byte unit, for any fuel of at
least `n`), with `l <= h <= n`, and `h = 0` if and only if `a = b`. -/
theorem levenshtein_le_hamming (decode : Decoder) (hdec : DecodesAsciiBytes decode)
    (a b : List Nat) (ha : stringCore.isAscii a = true) (hb : stringCore.isAscii b = true)
    (hlength : a.length = b.length) (hsize : a.length * a.length ≤ 1000000) :
    ∃ l h : Nat,
      LevenshteinDistanceFunction.callAscii a b = .ok (l : Int) ∧
      HammingDistanceFunction.callAscii a b = .ok (h : Int) ∧
      (∀ fuel, a.length ≤ fuel →
        HammingDistanceFunction.call decode fuel a b = some (.ok (h : Int))) ∧
      l ≤ h ∧ h ≤ a.length ∧ (h = 0 ↔ a = b) := by
  obtain ⟨l, h, h1, h2, h3, h4, h5⟩ := levenshtein_le_hamming_aux a b hlength hsize
  refine ⟨l, h, h1, h2, fun fuel hfuel => ?_, h3, h4, h5⟩
  rw [HammingDistanceFunction.call_ascii_aux decode hdec a b ha hb fuel (by omega), h2]

/-- C25 at `"karolin"` and `"kathrin"`, of 7 bytes each: the two kernels return 3 and 3; and
at `"abcd"` and `"bcda"`, where the Levenshtein distance 2 is below the Hamming distance 4. -/
theorem levenshtein_le_hamming_witness :
    (∃ l h : Nat,
      LevenshteinDistanceFunction.callAscii (asciiBytes "karolin") (asciiBytes "kathrin")
        = .ok (l : Int) ∧
      HammingDistanceFunction.callAscii (asciiBytes "karolin") (asciiBytes "kathrin")
        = .ok (h : Int) ∧
      (∀ fuel, 7 ≤ fuel →
        HammingDistanceFunction.call utf8proc_codepoint fuel (asciiBytes "karolin")
          (asciiBytes "kathrin") = some (.ok (h : Int))) ∧
      l ≤ h ∧ h ≤ 7 ∧ (h = 0 ↔ asciiBytes "karolin" = asciiBytes "kathrin")) ∧
    LevenshteinDistanceFunction.callAscii (asciiBytes "karolin") (asciiBytes "kathrin")
      = .ok 3 ∧
    HammingDistanceFunction.callAscii (asciiBytes "karolin") (asciiBytes "kathrin") = .ok 3 ∧
    LevenshteinDistanceFunction.callAscii (asciiBytes "abcd") (asciiBytes "bcda") = .ok 2 ∧
    HammingDistanceFunction.callAscii (asciiBytes "abcd") (asciiBytes "bcda") = .ok 4 :=
  ⟨levenshtein_le_hamming utf8proc_codepoint utf8proc_codepoint_ascii (asciiBytes "karolin")
      (asciiBytes "kathrin") (by decide) (by decide) (by decide) (by decide),
    by rfl, by rfl, by rfl, by rfl⟩

/-! ## Theorems on the indices of `LevenshteinDistanceFunction::doCall` -/

namespace LevenshteinDistanceFunction

theorem foldlM_eq_foldl {σ ι : Type} (f : σ → ι → σ) (g : σ → ι → Option σ) (P : σ → Prop)
    (l : List ι) (h : ∀ s j, P s → j ∈ l → g s j = some (f s j) ∧ P (f s j)) :
    ∀ s, P s → l.foldlM g s = some (l.foldl f s) ∧ P (l.foldl f s) := by
  induction l with
  | nil => intro s hs; exact ⟨rfl, hs⟩
  | cons j l ih =>
    intro s hs
    obtain ⟨h1, h2⟩ := h s j hs (List.mem_cons_self _ _)
    rw [List.foldlM_cons, h1, List.foldl_cons]
    exact ih (fun s k hs hk => h s k hs (List.mem_cons_of_mem _ hk)) (f s j) h2

theorem elementAt_natCast {β : Type} (v : List β) (n : Nat) : elementAt v (n : Int) = v[n]? := by
  unfold elementAt
  by_cases h : n < v.length
  · rw [if_pos ⟨by omega, by omega⟩, Int.toNat_ofNat]
  · rw [if_neg (by omega), List.getElem?_eq_none (by omega)]

theorem elementAt_of_lt (v : List Int) (n : Nat) (h : n < v.length) :
    elementAt v (n : Int) = some (v.getD n 0) := by
  rw [elementAt_natCast, List.getD_eq_getElem?_getD, List.getElem?_eq_getElem h]
  rfl

theorem elementAt_pred (v : List Int) (n : Nat) (h1 : 1 ≤ n) (h : n ≤ v.length) :
    elementAt v ((n : Int) - 1) = some (v.getD (n - 1) 0) := by
  have e : ((n : Int) - 1) = ((n - 1 : Nat) : Int) := by omega
  rw [e]
  exact elementAt_of_lt v (n - 1) (by omega)

theorem elementAt_zero (v : List Int) (h : 0 < v.length) :
    elementAt v 0 = some (v.getD 0 0) := by
  simpa using elementAt_of_lt v 0 h

theorem storeAt_zero {β : Type} (v : List β) (x : β) (h : 0 < v.length) :
    storeAt v 0 x = some (v.set 0 x) := by
  unfold storeAt
  rw [if_pos ⟨by omega, by omega⟩]
  rfl

theorem storeAt_of_lt {β : Type} (v : List β) (n : Nat) (x : β) (h : n < v.length) :
    storeAt v (n : Int) x = some (v.set n x) := by
  unfold storeAt
  rw [if_pos ⟨by omega, by omega⟩, Int.toNat_ofNat]

theorem innerBodyInBounds_eq {α : Type} [DecidableEq α] (left right : List α) (i : Nat)
    (state : List Int × Int) (j : Nat) (hi : i < left.length) (hj1 : 1 ≤ j)
    (hj : j < right.length) (hd : state.1.length = right.length) :
    innerBodyInBounds left right i state j = some (innerBody left right i state j) := by
  have hjd : j < state.1.length := by omega
  unfold innerBodyInBounds innerBody
  simp only []
  rw [elementAt_of_lt _ j hjd, elementAt_natCast, elementAt_natCast,
    List.getElem?_eq_getElem hi, List.getElem?_eq_getElem hj, elementAt_pred _ j hj1 (by omega)]
  simp only [Option.some_bind, Option.some.injEq, storeAt_of_lt _ j _ hjd, Option.map_some']
  split <;> rfl

theorem innerBody_length {α : Type} [DecidableEq α] (left right : List α) (i : Nat)
    (state : List Int × Int) (j : Nat) :
    (innerBody left right i state j).1.length = state.1.length := by
  unfold innerBody
  simp only []
  split <;> simp

theorem foldlM_innerBodyInBounds {α : Type} [DecidableEq α] (left right : List α) (i : Nat)
    (hi : i < left.length) (state : List Int × Int) (hd : state.1.length = right.length) :
    (List.range' 1 (right.length - 1)).foldlM (innerBodyInBounds left right i) state
        = some ((List.range' 1 (right.length - 1)).foldl (innerBody left right i) state) ∧
      ((List.range' 1 (right.length - 1)).foldl (innerBody left right i) state).1.length
        = right.length := by
  refine foldlM_eq_foldl (innerBody left right i) (innerBodyInBounds left right i)
    (fun s => s.1.length = right.length) _ (fun s j hs hj => ?_) state hd
  rw [List.mem_range'_1] at hj
  exact ⟨innerBodyInBounds_eq left right i s j hi hj.1 (by omega) hs,
    (innerBody_length left right i s j).trans hs⟩

theorem outerBody_length {α : Type} [DecidableEq α] (left right : List α)
    (distances : List Int) (i : Nat) :
    (outerBody left right distances i).length = distances.length := by
  unfold outerBody
  simp only []
  have : ∀ (l : List Nat) (s : List Int × Int),
      (l.foldl (innerBody left right i) s).1.length = s.1.length := by
    intro l
    induction l with
    | nil => intro s; rfl
    | cons j l ih => intro s; rw [List.foldl_cons, ih, innerBody_length]
  rw [this]
  split <;> simp

theorem outerBodyInBounds_eq {α : Type} [DecidableEq α] (left right : List α)
    (distances : List Int) (i : Nat) (hi : i < left.length) (hr : 0 < right.length)
    (hd : distances.length = right.length) :
    outerBodyInBounds left right distances i = some (outerBody left right distances i) := by
  have hd0 : 0 < distances.length := by omega
  unfold outerBodyInBounds outerBody
  have hr0 : elementAt right 0 = some right[0] := by
    have := elementAt_natCast right 0
    rw [List.getElem?_eq_getElem hr] at this
    simpa using this
  simp only []
  rw [elementAt_zero _ hd0, elementAt_natCast, hr0, List.getElem?_eq_getElem hi,
    List.getElem?_eq_getElem hr]
  simp only [Option.some_bind, Option.some.injEq, storeAt_zero _ _ hd0]
  by_cases h : left[i] = right[0]
  · rw [if_pos h, if_pos h, Option.some_bind,
      (foldlM_innerBodyInBounds left right i hi _ (by simpa using hd)).1]
    rfl
  · rw [if_neg h, if_neg h, Option.some_bind,
      (foldlM_innerBodyInBounds left right i hi _ (by simpa using hd)).1]
    rfl

theorem initDistances_length (n : Nat) : (initDistances n).length = n := by
  unfold initDistances
  rw [foldl_push]
  simp

theorem foldl_outerBody_length {α : Type} [DecidableEq α] (left right : List α) (k : Nat) :
    ((List.range k).foldl (outerBody left right) (initDistances right.length)).length
      = right.length := by
  induction k with
  | zero => simpa using initDistances_length right.length
  | succ k ih =>
    rw [List.range_succ, List.foldl_append, List.foldl_cons, List.foldl_nil, outerBody_length, ih]

theorem doCallOrderedInBounds_eq {α : Type} [DecidableEq α] (left right : List α) :
    doCallOrderedInBounds left right = some (doCallOrdered left right) := by
  unfold doCallOrderedInBounds doCallOrdered
  by_cases h0 : right.length = 0
  · rw [if_pos h0, if_pos h0]
  · rw [if_neg h0, if_neg h0]
    simp only []
    by_cases hg : ¬ (left.length * right.length) % 2 ^ 64 ≤ kMaxCombinedInputSize
    · rw [if_pos hg, if_pos hg]
    · rw [if_neg hg, if_neg hg]
      have hfold := foldlM_eq_foldl (outerBody left right) (outerBodyInBounds left right)
        (fun d => d.length = right.length) (List.range left.length)
        (fun d i hd hi => ⟨outerBodyInBounds_eq left right d i (List.mem_range.mp hi)
          (by omega) hd, (outerBody_length left right d i).trans hd⟩)
        (initDistances right.length) (initDistances_length _)
      rw [hfold.1, Option.some_bind, elementAt_pred _ right.length (by omega)
        (by rw [hfold.2])]
      rfl

theorem doCallInBounds_eq {α : Type} [DecidableEq α] (a b : List α) :
    doCallInBounds a b = some (doCall a b) := by
  unfold doCallInBounds doCall
  split <;> exact doCallOrderedInBounds_eq _ _

/-- C22: in `doCall`, for every pair of inputs `a` and `b` that passes the size guard, the
kernel returns a result and every index used is in bounds: the run in which each element
access is checked (`distances[0]`, `distances[j - 1]`, `distances[j]`, the final
`distances[rightCodePointsSize - 1]`, `leftCodePoints[i]` and `rightCodePoints[j]`) meets no
index out of bounds and returns that result. The row `distances` has, when it is built and
after every iteration of the outer loop, as many elements as the shorter input, which past the
swap is the right one. -/
theorem doCall_indices_in_bounds {α : Type} [DecidableEq α] (a b : List α)
    (h : a.length * b.length ≤ 1000000) :
    (∃ r : Int, doCall a b = .ok r ∧ doCallInBounds a b = some (.ok r)) ∧
      (if a.length < b.length then a else b).length = min a.length b.length ∧
      ∀ k, ((List.range k).foldl
          (outerBody (if a.length < b.length then b else a) (if a.length < b.length then a else b))
          (initDistances (if a.length < b.length then a else b).length)).length
        = min a.length b.length := by
  have hmin : (if a.length < b.length then a else b).length = min a.length b.length := by
    split <;> omega
  refine ⟨⟨(lev a b : Int), doCall_eq_lev a b h, ?_⟩, hmin, fun k => ?_⟩
  · rw [doCallInBounds_eq, doCall_eq_lev a b h]
  · rw [foldl_outerBody_length, hmin]

set_option maxRecDepth 100000 in
/-- C22 at `"kitten"` and `"sitting"`, where the swap takes place: the checked run returns the
distance 3, and the row has the 6 elements of the shorter input. -/
theorem doCall_indices_in_bounds_witness :
    doCallInBounds (asciiBytes "kitten") (asciiBytes "sitting") = some (.ok 3) ∧
      ((List.range 7).foldl (outerBody (asciiBytes "sitting") (asciiBytes "kitten"))
        (initDistances 6)).length = 6 ∧
      ∃ r : Int, doCall (asciiBytes "kitten") (asciiBytes "sitting") = .ok r ∧
        doCallInBounds (asciiBytes "kitten") (asciiBytes "sitting") = some (.ok r) :=
  ⟨by rfl, by rfl,
    (doCall_indices_in_bounds (asciiBytes "kitten") (asciiBytes "sitting") (by decide)).1⟩

end LevenshteinDistanceFunction

/-! ## Theorems on the `int` arithmetic of `LevenshteinDistanceFunction::doCall` -/

namespace LevenshteinDistanceFunction

theorem storedValue_eq_some (bound value : Int) (h0 : 0 ≤ value) (h1 : value ≤ bound) :
    storedValue bound value = some value := by
  unfold storedValue
  rw [if_pos ⟨h0, h1⟩]

theorem checkedInt32_eq_some (x : Int) (h1 : -2147483648 ≤ x) (h2 : x < 2147483648) :
    checkedInt 32 x = some x := by
  unfold checkedInt
  rw [if_pos (by norm_num; omega)]

theorem initDistancesNoOverflow_eq (bound : Int) (n : Nat) (hn : (n : Int) ≤ bound)
    (hb : bound < 2000000000) :
    initDistancesNoOverflow bound n = some (initDistances n) := by
  unfold initDistancesNoOverflow initDistances
  refine (foldlM_eq_foldl _ _ (fun _ => True) (List.range n) (fun s i _ hi => ⟨?_, trivial⟩)
    [] trivial).1
  rw [List.mem_range] at hi
  rw [checkedInt32_eq_some _ (by omega) (by omega), Option.some_bind,
    storedValue_eq_some _ _ (by omega) (by omega), Option.map_some',
    wrapInt32_eq_self _ (by omega) (by omega)]

/-- One iteration of the inner loop on a row whose cell `j - 1` is already updated. -/
theorem innerBody_append_cons {α : Type} [DecidableEq α] (left : List α) (i : Nat) (c : α)
    (hc : left[i]? = some c) (S : List Int) (r : α) (rs : List α) (P : List Int)
    (v d up : Int) (Rpre : List α) (hlen : Rpre.length = P.length + 1) :
    innerBody left (Rpre ++ r :: rs) i (P ++ v :: d :: S, up) (P.length + 1)
      = ((P ++ [v]) ++ (if c = r then up else wrapInt 32 (min v (min up d) + 1)) :: S, d) := by
  have hr : (Rpre ++ r :: rs)[P.length + 1]? = some r := by
    rw [← hlen]; exact getElem?_append_cons Rpre r rs
  unfold innerBody
  simp only [hc, hr, Option.some.injEq, getD_append_cons_succ, set_append_cons_succ,
    Nat.add_sub_cancel, getD_append_cons]
  split <;> simp

theorem innerBodyNoOverflow_append_cons {α : Type} [DecidableEq α] (bound : Int)
    (left : List α) (i : Nat) (c : α)
    (hc : left[i]? = some c) (S : List Int) (r : α) (rs : List α) (P : List Int)
    (v d up : Int) (Rpre : List α) (hlen : Rpre.length = P.length + 1)
    (hb : bound < 2000000000) (hP : (P.length : Int) + 2 ≤ bound)
    (h0 : 0 ≤ (if c = r then up else min v (min up d) + 1))
    (h1 : (if c = r then up else min v (min up d) + 1) ≤ bound) :
    innerBodyNoOverflow bound left (Rpre ++ r :: rs) i (P ++ v :: d :: S, up) (P.length + 1)
      = some (innerBody left (Rpre ++ r :: rs) i (P ++ v :: d :: S, up) (P.length + 1)) := by
  have hr : (Rpre ++ r :: rs)[P.length + 1]? = some r := by
    rw [← hlen]; exact getElem?_append_cons Rpre r rs
  rw [innerBody_append_cons left i c hc S r rs P v d up Rpre hlen]
  unfold innerBodyNoOverflow
  simp only [hc, hr, Option.some.injEq, getD_append_cons_succ, set_append_cons_succ,
    Nat.add_sub_cancel, getD_append_cons]
  rw [checkedInt32_eq_some ((((P.length + 1 : Nat) : Int)) + 1) (by omega) (by omega)]
  by_cases hcr : c = r
  · rw [if_pos hcr] at h0 h1
    rw [if_pos hcr, if_pos hcr, storedValue_eq_some _ _ h0 h1]
    simp
  · rw [if_neg hcr] at h0 h1
    rw [if_neg hcr, if_neg hcr, checkedInt32_eq_some _ (by omega) (by omega), Option.some_bind,
      storedValue_eq_some _ _ h0 h1, wrapInt32_eq_self _ (by omega) (by omega)]
    simp

/-- The exact value of a cell, before it is narrowed to `int32_t`. -/
theorem cell_exact {α : Type} [DecidableEq α] (L Rp : List α) (c r : α) :
    (if c = r then (lev L Rp : Int)
      else min (lev (L ++ [c]) Rp : Int) (min (lev L Rp : Int) (lev L (Rp ++ [r]) : Int)) + 1)
      = (lev (L ++ [c]) (Rp ++ [r]) : Int) := by
  have h1 := lev_le_snoc_right L Rp r
  have h2 := lev_le_snoc_left L Rp c
  have h4 := lev_snoc_snoc c r L Rp
  by_cases hcr : c = r
  · simp only [hcr, if_true] at h4 ⊢
    subst hcr
    omega
  · simp only [hcr, if_false] at h4 ⊢
    omega

theorem foldlM_innerBodyNoOverflow {α : Type} [DecidableEq α] (bound : Int) (left : List α)
    (i : Nat) (c : α) (hc : left[i]? = some c) (L : List α)
    (hL : (L.length : Int) + 1 ≤ bound) (hb : bound < 2000000000) :
    ∀ (rs Rp : List α) (P : List Int), Rp.length = P.length + 1 →
      ((Rp ++ rs).length : Int) ≤ bound →
      (List.range' (P.length + 1) rs.length).foldlM (innerBodyNoOverflow bound left (Rp ++ rs) i)
          (P ++ (lev (L ++ [c]) Rp : Int) :: levRow L Rp rs, (lev L Rp : Int))
        = some ((List.range' (P.length + 1) rs.length).foldl (innerBody left (Rp ++ rs) i)
          (P ++ (lev (L ++ [c]) Rp : Int) :: levRow L Rp rs, (lev L Rp : Int))) := by
  intro rs
  induction rs with
  | nil => intro Rp P _ _; rfl
  | cons r rs ih =>
    intro Rp P hlen hR
    have hR2 : (((Rp ++ [r]) ++ rs).length : Int) ≤ bound := by simpa using hR
    have hmax := lev_le_max (L ++ [c]) (Rp ++ [r])
    have hx := cell_exact L Rp c r
    rw [List.length_append, List.length_cons] at hR
    push_cast at hR
    simp only [List.length_append, List.length_singleton] at hmax
    simp only [levRow]
    rw [List.length_cons, List.range'_succ, List.foldlM_cons, List.foldl_cons,
      innerBodyNoOverflow_append_cons bound left i c hc _ r rs P _ _ _ Rp hlen hb
        (by omega) (by rw [hx]; omega) (by rw [hx]; omega),
      innerBody_append_cons left i c hc _ r rs P _ _ _ Rp hlen,
      cell_eq_lev L Rp c r (by omega) (by omega)]
    have hRR : Rp ++ r :: rs = (Rp ++ [r]) ++ rs := by simp
    have := ih (Rp ++ [r]) (P ++ [(lev (L ++ [c]) Rp : Int)]) (by simp [hlen]) hR2
    rw [List.length_append, List.length_singleton] at this
    rw [hRR]
    exact this

theorem outerBodyNoOverflow_levRow {α : Type} [DecidableEq α] (bound : Int)
    (left right : List α) (i : Nat) (c : α) (hc : left[i]? = some c) (hr : right ≠ [])
    (hi : (i : Int) + 1 ≤ bound) (hright : (right.length : Int) ≤ bound)
    (hb : bound < 2000000000) (L : List α) (hL : L.length = i) :
    outerBodyNoOverflow bound left right (levRow L [] right) i
      = some (outerBody left right (levRow L [] right) i) := by
  cases right with
  | nil => exact absurd rfl hr
  | cons r0 rs =>
    have h1 := lev_le_snoc_right L [] r0
    have h3 := lev_le_max (L ++ [c]) [r0]
    have h4 := lev_snoc_snoc c r0 L []
    rw [lev_nil_right, lev_nil_right] at h4
    rw [lev_nil_right] at h1
    simp only [List.nil_append, List.length_append, List.length_singleton] at h1 h3 h4
    have hfold := foldlM_innerBodyNoOverflow bound left i c hc L (by omega) hb rs [r0] [] rfl
      (by simpa using hright)
    simp only [List.length_nil, Nat.zero_add, List.nil_append, List.singleton_append] at hfold
    unfold outerBodyNoOverflow outerBody
    simp only [levRow, List.nil_append, List.getD_cons_zero, List.set_cons_zero, hc,
      List.getElem?_cons_zero, Option.some.injEq, List.length_cons, Nat.add_sub_cancel]
    rw [checkedInt32_eq_some ((i : Int) + 1) (by omega) (by omega)]
    by_cases hcr : c = r0
    · rw [if_pos hcr] at h4
      have hv : (i : Int) = (lev (L ++ [c]) [r0] : Int) := by omega
      rw [if_pos hcr, if_pos hcr, storedValue_eq_some _ _ (by omega) (by omega),
        Option.some_bind]
      rw [hv, hfold]
      rfl
    · rw [if_neg hcr] at h4
      have hv : min (i : Int) (lev L [r0] : Int) + 1 = (lev (L ++ [c]) [r0] : Int) := by omega
      rw [if_neg hcr, if_neg hcr, checkedInt32_eq_some _ (by omega) (by omega),
        Option.some_bind, storedValue_eq_some _ _ (by omega) (by omega), Option.some_bind,
        wrapInt32_eq_self _ (by omega) (by omega)]
      rw [hv, hfold]
      rfl

theorem foldlM_outerBodyNoOverflow {α : Type} [DecidableEq α] (bound : Int)
    (left right : List α) (hr : right ≠ []) (hleft : (left.length : Int) ≤ bound)
    (hright : (right.length : Int) ≤ bound) (hb : bound < 2000000000) :
    ∀ k, k ≤ left.length →
      (List.range k).foldlM (outerBodyNoOverflow bound left right)
          (initDistances right.length)
        = some ((List.range k).foldl (outerBody left right) (initDistances right.length)) := by
  intro k
  induction k with
  | zero => intro _; rfl
  | succ k ih =>
    intro hk
    have hk2 : k < left.length := hk
    have hc : left[k]? = some left[k] := List.getElem?_eq_getElem hk2
    rw [List.range_succ, List.foldlM_append, ih (by omega), List.foldl_append,
      foldl_outerBody left right (by omega) (by omega) k (by omega)]
    simp only [List.foldlM_cons, List.foldlM_nil, List.foldl_cons, List.foldl_nil,
      Option.bind_eq_bind, Option.some_bind, Option.pure_def]
    rw [outerBodyNoOverflow_levRow bound left right k left[k] hc hr (by omega) hright hb
      (left.take k) (by simp; omega)]
    rfl

theorem doCallOrderedNoOverflow_eq {α : Type} [DecidableEq α] (left right : List α)
    (h : left.length * right.length ≤ 1000000) (hlr : right.length ≤ left.length) :
    doCallOrderedNoOverflow left right = some (doCallOrdered left right) := by
  unfold doCallOrderedNoOverflow doCallOrdered
  by_cases h0 : right.length = 0
  · rw [if_pos h0, if_pos h0]
  · rw [if_neg h0, if_neg h0]
    have hr1 : 1 ≤ right.length := Nat.pos_of_ne_zero h0
    have hl : left.length ≤ 1000000 := by
      calc left.length = left.length * 1 := (Nat.mul_one _).symm
        _ ≤ left.length * right.length := Nat.mul_le_mul_left _ hr1
        _ ≤ 1000000 := h
    have hmod : left.length * right.length % 2 ^ 64 = left.length * right.length :=
      Nat.mod_eq_of_lt (by omega)
    simp only [hmod, kMaxCombinedInputSize, h, not_true_eq_false, if_false]
    rw [initDistancesNoOverflow_eq _ _ (by omega) (by omega), Option.some_bind,
      foldlM_outerBodyNoOverflow _ left right (by intro e; simp [e] at h0) (by omega)
        (by omega) (by omega) left.length (Nat.le_refl _)]
    rfl

theorem doCallNoOverflow_eq {α : Type} [DecidableEq α] (a b : List α)
    (h : a.length * b.length ≤ 1000000) : doCallNoOverflow a b = some (doCall a b) := by
  unfold doCallNoOverflow doCall
  by_cases hlt : a.length < b.length
  · rw [if_pos hlt, if_pos hlt]
    exact doCallOrderedNoOverflow_eq b a (by rw [Nat.mul_comm]; exact h) (by omega)
  · rw [if_neg hlt, if_neg hlt]
    exact doCallOrderedNoOverflow_eq a b h (by omega)

theorem editScript_length {α : Type} {xs ys : List α} {n : Nat} (h : EditScript xs ys n) :
    xs.length ≤ ys.length + n ∧ ys.length ≤ xs.length + n := by
  induction h with
  | done => simp
  | keep x _ ih => simp only [List.length_cons]; omega
  | substitute x y _ ih => simp only [List.length_cons]; omega
  | delete x _ ih => simp only [List.length_cons]; omega
  | insert y _ ih => simp only [List.length_cons]; omega

theorem abs_length_sub_le_lev {α : Type} [DecidableEq α] (a b : List α) :
    |(a.length : Int) - (b.length : Int)| ≤ (lev a b : Int) := by
  obtain ⟨h1, h2⟩ := editScript_length (editScript_lev a b)
  rw [abs_le]
  omega

theorem length_le_of_mul_le {α : Type} (a b : List α) (h : a.length * b.length ≤ 1000000)
    (ha : a ≠ []) (hb : b ≠ []) : max (a.length : Int) (b.length : Int) ≤ 1000000 := by
  have ha1 : 1 ≤ a.length := List.length_pos.mpr ha
  have hb1 : 1 ≤ b.length := List.length_pos.mpr hb
  have h1 : a.length ≤ 1000000 :=
    calc a.length = a.length * 1 := (Nat.mul_one _).symm
      _ ≤ a.length * b.length := Nat.mul_le_mul_left _ hb1
      _ ≤ 1000000 := h
  have h2 : b.length ≤ 1000000 :=
    calc b.length = 1 * b.length := (Nat.one_mul _).symm
      _ ≤ a.length * b.length := Nat.mul_le_mul_right _ ha1
      _ ≤ 1000000 := h
  omega

/-- Lines 549-552: paired with the empty input, an input has its size for distance, whatever
the size. -/
theorem doCall_nil_right {α : Type} [DecidableEq α] (a : List α) :
    doCall a [] = .ok (a.length : Int) := by
  unfold doCall doCallOrdered
  simp

/-- C23 as stated fails: an input of 1,000,001 elements paired with the empty input passes
the size guard (the product of the sizes is 0, and `doCall` returns before the
guard), and the result, 1,000,001, which is `max(|a|, |b|)`, is above 1,000,000. -/
theorem doCall_values_bounded_counterexample :
    (List.replicate 1000001 (0 : Nat)).length * ([] : List Nat).length ≤ 1000000 ∧
      doCall (List.replicate 1000001 (0 : Nat)) [] = .ok 1000001 ∧
      ¬ (max ((List.replicate 1000001 (0 : Nat)).length : Int) (([] : List Nat).length : Int)
        ≤ 1000000) := by
  refine ⟨?_, ?_, ?_⟩
  · rw [List.length_nil, Nat.mul_zero]
    exact Nat.zero_le _
  · rw [doCall_nil_right, List.length_replicate]
    rfl
  · rw [List.length_replicate, List.length_nil]
    omega

/-- C23, amended: in `doCall`, for every pair of inputs `a` and `b` that passes the size
guard, the kernel returns a result `r` with `| |a| - |b| | <= r <= max(|a|, |b|)`, and the run
in which every `int` operation (`i + 1`, `min(...) + 1` and the increments of the loop
counters) is checked for overflow and every value stored in the row `distances` is checked to
lie between 0 and `max(|a|, |b|)` passes every check and returns `r`. When both inputs are
non-empty, `max(|a|, |b|) <= 1,000,000`; when one is empty, no row is built and the result is
the size of the other input, whatever it is. -/
theorem doCall_values_bounded {α : Type} [DecidableEq α] (a b : List α)
    (h : a.length * b.length ≤ 1000000) :
    ∃ r : Int, doCall a b = .ok r ∧ doCallNoOverflow a b = some (.ok r) ∧
      |(a.length : Int) - (b.length : Int)| ≤ r ∧ r ≤ max (a.length : Int) (b.length : Int) ∧
      (a ≠ [] → b ≠ [] → max (a.length : Int) (b.length : Int) ≤ 1000000) ∧
      (b = [] → r = a.length) ∧ (a = [] → r = b.length) := by
  refine ⟨(lev a b : Int), doCall_eq_lev a b h, ?_, abs_length_sub_le_lev a b, ?_,
    length_le_of_mul_le a b h, ?_, ?_⟩
  · rw [doCallNoOverflow_eq a b h, doCall_eq_lev a b h]
  · have := lev_le_max a b
    omega
  · intro hb
    rw [hb, lev_nil_right]
  · intro ha
    rw [ha, lev_nil_left]

set_option maxRecDepth 100000 in
/-- C23, amended, at `"kitten"` and `"sitting"`: the checked run returns the distance 3,
which lies between `|6 - 7| = 1` and `max(6, 7) = 7`. -/
theorem doCall_values_bounded_witness :
    doCallNoOverflow (asciiBytes "kitten") (asciiBytes "sitting") = some (.ok 3) ∧
      ∃ r : Int, doCall (asciiBytes "kitten") (asciiBytes "sitting") = .ok r ∧
        doCallNoOverflow (asciiBytes "kitten") (asciiBytes "sitting") = some (.ok r) ∧
        1 ≤ r ∧ r ≤ 7 :=
  ⟨by rfl,
    (doCall_values_bounded (asciiBytes "kitten") (asciiBytes "sitting") (by decide)).imp
      fun _ hr => ⟨hr.1, hr.2.1, hr.2.2.1, hr.2.2.2.1⟩⟩

end LevenshteinDistanceFunction

/-! ## Theorems on the characters of a padded string -/

theorem getD_take_drop (l : List Nat) (p k j : Nat) (hj : j < k) :
    ((l.drop p).take k).getD j 0 = l.getD (p + j) 0 := by
  rw [List.getD_eq_getElem?_getD, List.getD_eq_getElem?_getD, List.getElem?_take_of_lt hj,
    List.getElem?_drop]

theorem length_le_of_take_drop_eq (buffer other : List Nat) (position place k : Nat)
    (hk : 0 < k) (hfit : position + k ≤ buffer.length)
    (h : (other.drop place).take k = (buffer.drop position).take k) :
    place + k ≤ other.length := by
  have := congrArg List.length h
  rw [List.length_take, List.length_take, List.length_drop, List.length_drop] at this
  omega

theorem decoderLocal_utf8proc_codepoint : DecoderLocal utf8proc_codepoint := by
  intro buffer other position place hvalid hfit htake
  have hg : ∀ k j, (utf8proc_codepoint buffer position).2.toNat = k → j < k →
      other.getD (place + j) 0 = buffer.getD (position + j) 0 := by
    intro k j hk hj
    rw [hk] at htake
    rw [← getD_take_drop other place k j hj, ← getD_take_drop buffer position k j hj, htake]
  have hl : ∀ k, (utf8proc_codepoint buffer position).2.toNat = k →
      0 < k → position + k ≤ buffer.length → place + k ≤ other.length := by
    intro k hk hk1 hk2
    rw [hk] at htake
    exact length_le_of_take_drop_eq buffer other position place k hk1 hk2 htake
  unfold utf8proc_codepoint at hvalid hfit hg hl ⊢
  simp only [Int.toNat_ofNat] at hvalid hfit hg hl ⊢
  split_ifs at hvalid hfit hg hl with h1 h2 h3 h4
  · have e0 := hg 1 0 rfl (by omega)
    simp only [Nat.add_zero] at e0
    rw [e0, if_pos h1, if_pos h1]
  · have e0 := hg 2 0 rfl (by omega)
    have e1 := hg 2 1 rfl (by omega)
    have el := hl 2 rfl (by omega) h2.2.2.1
    simp only [Nat.add_zero] at e0
    rw [e0, e1, if_neg h1, if_pos ⟨h2.1, h2.2.1, el, h2.2.2.2⟩, if_neg h1, if_pos h2]
  · have e0 := hg 3 0 rfl (by omega)
    have e1 := hg 3 1 rfl (by omega)
    have e2 := hg 3 2 rfl (by omega)
    have el := hl 3 rfl (by omega) h3.2.2.1
    simp only [Nat.add_zero] at e0
    rw [e0, e1, e2, if_neg h1, if_neg (fun h => by have := h.2.1; have := h3.1; omega),
      if_pos ⟨h3.1, h3.2.1, el, h3.2.2.2⟩, if_neg h1, if_neg h2, if_pos h3]
  · have e0 := hg 4 0 rfl (by omega)
    have e1 := hg 4 1 rfl (by omega)
    have e2 := hg 4 2 rfl (by omega)
    have e3 := hg 4 3 rfl (by omega)
    have el := hl 4 rfl (by omega) h4.2.2.1
    simp only [Nat.add_zero] at e0
    rw [e0, e1, e2, e3, if_neg h1, if_neg (fun h => by have := h.2.1; have := h4.1; omega),
      if_neg (fun h => by have := h.2.1; have := h4.1; omega),
      if_pos ⟨h4.1, h4.2.1, el, h4.2.2.2⟩, if_neg h1, if_neg h2, if_neg h3, if_pos h4]
  · simp at hvalid

theorem decodes_of_validUnits (decode : Decoder) (hlocal : DecoderLocal decode) :
    ∀ (us : List (Int × List Nat)) (pre : List Nat), (∀ u ∈ us, ValidUnit decode u) →
      Decodes decode (pre ++ (us.map Prod.snd).flatten) (pre.length : Int) us := by
  intro us
  induction us with
  | nil =>
    intro pre _
    exact Decodes.done _ (by simp)
  | cons u us ih =>
    intro pre h
    obtain ⟨hv, hpos, buffer, position, hd, hfit, hbytes⟩ := h u (List.mem_cons_self _ _)
    have hsize : (decode buffer position).2.toNat = u.2.length := by rw [hd]; simp
    have hB : pre ++ ((u :: us).map Prod.snd).flatten
        = (pre ++ u.2) ++ (us.map Prod.snd).flatten := by simp
    have htake : ((pre ++ ((u :: us).map Prod.snd).flatten).drop pre.length).take u.2.length
        = u.2 := by
      simp
    have hdec : decode (pre ++ ((u :: us).map Prod.snd).flatten) (pre.length : Int)
        = (u.1, (u.2.length : Int)) := by
      rw [← hd]
      apply hlocal buffer _ position pre.length
      · rw [hd]; exact hv
      · rw [hd]; simp only []; omega
      · rw [hsize, htake, hbytes]
    have hadv : advance decode (pre ++ ((u :: us).map Prod.snd).flatten) (pre.length : Int)
        = (u.2.length : Int) := by
      unfold advance
      rw [hdec]
      simp [hv]
    have hrest := ih (pre ++ u.2) (fun w hw => h w (List.mem_cons_of_mem _ hw))
    rw [← hB, List.length_append] at hrest
    push_cast at hrest
    rw [← hadv] at hrest
    have hunit := Decodes.unit (pre.length : Int) us (by omega)
      (by rw [hB]; simp only [List.length_append]; push_cast; omega) (by rw [hadv]; omega) hrest
    rw [hdec, hadv] at hunit
    simp only [Int.toNat_ofNat, htake] at hunit
    exact hunit

theorem validUnit_of_decodes {decode : Decoder} {buffer : List Nat} {position : Int}
    {units : List (Int × List Nat)} (h : Decodes decode buffer position units) :
    ∀ u ∈ units, 0 ≤ u.1 → ValidUnit decode u := by
  induction h with
  | done _ _ => intro u hu; simp at hu
  | unit position units h0 h1 h2 hrest ih =>
    intro u hu hvalid
    rcases List.mem_cons.mp hu with rfl | hu
    · have hb := decodes_bounds hrest
      have hadv : advance decode buffer position = (decode buffer position).2 := by
        unfold advance
        rw [if_pos hvalid]
      have hlen : ((buffer.drop position.toNat).take
          (advance decode buffer position).toNat).length
          = (advance decode buffer position).toNat := by
        rw [List.length_take, List.length_drop]
        omega
      refine ⟨hvalid, by simp only []; rw [hlen]; omega, buffer, position.toNat, ?_, ?_, ?_⟩
      · simp only []
        rw [hlen, Int.toNat_of_nonneg h0, Int.toNat_of_nonneg (by omega), hadv]
      · simp only []
        rw [hlen]
        omega
      · simp only []
        rw [hlen]
    · exact ih u hu hvalid

theorem length_flatten_of_validUnits (decode : Decoder) (hlocal : DecoderLocal decode)
    (cs : List (List Nat)) (h : ∀ c ∈ cs, ∃ u, ValidUnit decode u ∧ u.2 = c) :
    stringImpl.length decode false cs.flatten = cs.length := by
  have hus : ∃ us : List (Int × List Nat), us.map Prod.snd = cs ∧
      ∀ u ∈ us, ValidUnit decode u := by
    induction cs with
    | nil => exact ⟨[], rfl, by simp⟩
    | cons c cs ih =>
      obtain ⟨u, hu, huc⟩ := h c (List.mem_cons_self _ _)
      obtain ⟨us, hus1, hus2⟩ := ih (fun c hc => h c (List.mem_cons_of_mem _ hc))
      refine ⟨u :: us, by simp [huc, hus1], ?_⟩
      intro w hw
      rcases List.mem_cons.mp hw with rfl | hw
      · exact hu
      · exact hus2 w hw
  obtain ⟨us, hus1, hus2⟩ := hus
  have hdec := decodes_of_validUnits decode hlocal us [] hus2
  rw [hus1] at hdec
  simp only [List.nil_append, List.length_nil, Nat.cast_zero] at hdec
  rw [length_decodes hdec, ← hus1, List.length_map]

namespace PadFunctionBase

theorem mem_paddingCharacters (padCharacters : List (List Nat)) (count : Nat) (size : Int)
    (c : List Nat) (hc : c ∈ paddingCharacters padCharacters count size) :
    c ∈ padCharacters := by
  unfold paddingCharacters at hc
  rcases List.mem_append.mp hc with hc | hc
  · obtain ⟨l, hl, hcl⟩ := List.mem_flatten.mp hc
    rw [List.eq_of_mem_replicate hl] at hcl
    exact hcl
  · exact List.mem_of_mem_take hc

/-- On the generic path, for inputs whose units are all valid, the padded result is walked by
the decoder in the units of the padding and of the string: it has `size` characters. -/
theorem length_padded (decode : Decoder) (hlocal : DecoderLocal decode)
    (string padString : List Nat) (size : Int) (units padUnits : List (Int × List Nat))
    (hs : Decodes decode string 0 units) (hp : Decodes decode padString 0 padUnits)
    (hvs : ∀ u ∈ units, 0 ≤ u.1) (hvp : ∀ u ∈ padUnits, 0 ≤ u.1)
    (hpad : padString ≠ []) (hsize : (units.length : Int) < size) (lpad : Bool) :
    LengthFunction.call decode
      (if lpad then
        (paddingCharacters (padUnits.map Prod.snd) units.length size).flatten ++ string
      else
        string ++ (paddingCharacters (padUnits.map Prod.snd) units.length size).flatten)
      = size := by
  have hflat : (units.map Prod.snd).flatten = string := by
    simpa [SubstrFunction.characters] using
      flatten_characters decode false string units (fun _ => hs)
  have hpflat : (padUnits.map Prod.snd).flatten = padString := by
    simpa [SubstrFunction.characters] using
      flatten_characters decode false padString padUnits (fun _ => hp)
  have hps : padUnits.map Prod.snd ≠ [] := by
    intro he
    rw [he] at hpflat
    exact hpad hpflat.symm
  have hcount := length_paddingCharacters (padUnits.map Prod.snd) units.length size hps hsize
  have hcs : ∀ c ∈ units.map Prod.snd, ∃ u, ValidUnit decode u ∧ u.2 = c := by
    intro c hc
    obtain ⟨u, hu, rfl⟩ := List.mem_map.mp hc
    exact ⟨u, validUnit_of_decodes hs u hu (hvs u hu), rfl⟩
  have hpc : ∀ c ∈ paddingCharacters (padUnits.map Prod.snd) units.length size,
      ∃ u, ValidUnit decode u ∧ u.2 = c := by
    intro c hc
    obtain ⟨u, hu, rfl⟩ := List.mem_map.mp (mem_paddingCharacters _ _ _ c hc)
    exact ⟨u, validUnit_of_decodes hp u hu (hvp u hu), rfl⟩
  unfold LengthFunction.call
  cases lpad with
  | true =>
    have h := length_flatten_of_validUnits decode hlocal
      (paddingCharacters (padUnits.map Prod.snd) units.length size ++ units.map Prod.snd)
      (fun c hc => (List.mem_append.mp hc).elim (hpc c) (hcs c))
    rw [List.flatten_append, hflat, List.length_append, List.length_map] at h
    simp only [if_true]
    rw [h]
    push_cast
    omega
  | false =>
    have h := length_flatten_of_validUnits decode hlocal
      (units.map Prod.snd ++ paddingCharacters (padUnits.map Prod.snd) units.length size)
      (fun c hc => (List.mem_append.mp hc).elim (hcs c) (hpc c))
    rw [List.flatten_append, hflat, List.length_append, List.length_map] at h
    simp only [Bool.false_eq_true, if_false]
    rw [h]
    push_cast
    omega

theorem callAscii_eq (decode : Decoder) (lpad : Bool) (string padString : List Nat)
    (size : Int) (hpad : padString ≠ []) (hsize : 0 ≤ size) :
    callAscii decode lpad string size padString = .ok
      (if size ≤ (string.length : Int) then string.take size.toNat
      else if lpad then
        (paddingCharacters (padString.map (fun b => [b])) string.length size).flatten ++ string
      else
        string ++ (paddingCharacters (padString.map (fun b => [b])) string.length size).flatten)
      := by
  have h := pad_aux decode lpad true string padString size [] []
    (fun h => absurd h (by decide)) hpad hsize
  unfold callAscii
  rw [h]
  simp only [SubstrFunction.characters, if_true, List.length_map, List.flatten_append,
    flatten_map_singleton, ← List.map_take]

theorem call_eq (decode : Decoder) (lpad : Bool) (string padString : List Nat)
    (size : Int) (units padUnits : List (Int × List Nat))
    (hs : Decodes decode string 0 units) (hp : Decodes decode padString 0 padUnits)
    (hpad : padString ≠ []) (hsize : 0 ≤ size) :
    call decode lpad string size padString = .ok
      (if size ≤ (units.length : Int) then ((units.map Prod.snd).take size.toNat).flatten
      else if lpad then
        (paddingCharacters (padUnits.map Prod.snd) units.length size).flatten ++ string
      else
        string ++ (paddingCharacters (padUnits.map Prod.snd) units.length size).flatten) := by
  have h := pad_aux decode lpad false string padString size units padUnits
    (fun _ => ⟨hs, hp⟩) hpad hsize
  have hflat : (units.map Prod.snd).flatten = string := by
    simpa [SubstrFunction.characters] using
      flatten_characters decode false string units (fun _ => hs)
  unfold call
  rw [h]
  simp only [SubstrFunction.characters, Bool.false_eq_true, if_false, List.length_map,
    List.flatten_append, hflat]

theorem decodes_eacute :
    Decodes utf8proc_codepoint [0xC3, 0xA9] 0 [(0xE9, [0xC3, 0xA9])] :=
  Decodes.unit 0 _ (by decide) (by decide) (by decide) (Decodes.done _ (by decide))

/-! ### Claim C20 -/

/-- C20 as stated fails on the generic path for malformed UTF-8: the string `0xC3`, a lead byte
cut short, has 1 character, and `rpad` to size 2 with the pad string `0xA9`, a lone
continuation byte, returns the two bytes `0xC3 0xA9`, which the decoder walks as the single
character `é`: the result has 1 character, not 2. So has `lpad` of `0xA9` with the pad string
`0xC3`. -/
theorem call_malformed_counterexample :
    LengthFunction.call utf8proc_codepoint [0xC3] = 1 ∧
      call utf8proc_codepoint false [0xC3] 2 [0xA9] = .ok [0xC3, 0xA9] ∧
      LengthFunction.call utf8proc_codepoint [0xA9] = 1 ∧
      call utf8proc_codepoint true [0xA9] 2 [0xC3] = .ok [0xC3, 0xA9] ∧
      LengthFunction.call utf8proc_codepoint [0xC3, 0xA9] = 1 :=
  ⟨by rfl, by rfl, by rfl, by rfl, by rfl⟩

/-- C20, amended: for every string `s`, target size `n >= 0` and non-empty pad string, on the
ascii path (`callAscii`, characters are bytes) and on the generic path (`call`, characters are
the units the decoder walks `s` and the pad string in), with `lpad` and with `rpad`: when
`n <= length(s)` the result is `s` truncated to its first `n` characters, without padding;
when `n > length(s)` the result is `s` with `n - length(s)` characters of padding (whole copies
of the pad string, then its first characters) before it (`lpad`) or after it (`rpad`). That
result has exactly `n` characters on the ascii path, and on the generic path when `s` and the
pad string are valid UTF-8 (every unit a valid code point, for a decoder that decodes a valid
unit from its own bytes). -/
theorem pad_spec (decode : Decoder) (lpad : Bool) (string padString : List Nat) (size : Int)
    (units padUnits : List (Int × List Nat)) (hpad : padString ≠ []) (hsize : 0 ≤ size) :
    (LengthFunction.callAscii decode string = string.length ∧
      (size ≤ (string.length : Int) →
        callAscii decode lpad string size padString = .ok (string.take size.toNat)) ∧
      ((string.length : Int) < size →
        callAscii decode lpad string size padString = .ok
          (if lpad then
            (paddingCharacters (padString.map (fun b => [b])) string.length size).flatten
              ++ string
          else
            string ++
              (paddingCharacters (padString.map (fun b => [b])) string.length size).flatten) ∧
        ((paddingCharacters (padString.map (fun b => [b])) string.length size).length : Int)
          = size - string.length ∧
        ∀ result, callAscii decode lpad string size padString = .ok result →
          LengthFunction.callAscii decode result = size)) ∧
    (Decodes decode string 0 units → Decodes decode padString 0 padUnits →
      LengthFunction.call decode string = units.length ∧
      (size ≤ (units.length : Int) →
        call decode lpad string size padString
          = .ok ((units.map Prod.snd).take size.toNat).flatten) ∧
      ((units.length : Int) < size →
        call decode lpad string size padString = .ok
          (if lpad then
            (paddingCharacters (padUnits.map Prod.snd) units.length size).flatten ++ string
          else
            string ++ (paddingCharacters (padUnits.map Prod.snd) units.length size).flatten) ∧
        ((paddingCharacters (padUnits.map Prod.snd) units.length size).length : Int)
          = size - units.length ∧
        (DecoderLocal decode → (∀ u ∈ units, 0 ≤ u.1) → (∀ u ∈ padUnits, 0 ≤ u.1) →
          ∀ result, call decode lpad string size padString = .ok result →
            LengthFunction.call decode result = size))) := by
  constructor
  · have hA := callAscii_eq decode lpad string padString size hpad hsize
    have hC := pad_characters decode true string padString size [] []
      (fun h => absurd h (by decide)) hpad hsize
    simp only [SubstrFunction.characters, if_true, List.length_map] at hC
    refine ⟨by simp [LengthFunction.callAscii, stringImpl.length], fun h => ?_, fun h => ?_⟩
    · rw [hA, if_pos h]
    · refine ⟨by rw [hA, if_neg (by omega)], ?_, fun result hres => ?_⟩
      · have := (hC.2 h).2.2.1
        omega
      · exact (hC.2 h).2.2.2 trivial lpad result hres
  · intro hs hp
    have hG := call_eq decode lpad string padString size units padUnits hs hp hpad hsize
    have hflat : (padUnits.map Prod.snd).flatten = padString := by
      simpa [SubstrFunction.characters] using
        flatten_characters decode false padString padUnits (fun _ => hp)
    have hps : padUnits.map Prod.snd ≠ [] := by
      intro he
      rw [he] at hflat
      exact hpad hflat.symm
    refine ⟨length_decodes hs, fun h => ?_, fun h => ?_⟩
    · rw [hG, if_pos h]
    · refine ⟨by rw [hG, if_neg (by omega)], ?_, fun hlocal hvs hvp result hres => ?_⟩
      · have := length_paddingCharacters (padUnits.map Prod.snd) units.length size hps h
        omega
      · rw [hG, if_neg (by omega)] at hres
        injection hres with hres
        rw [← hres]
        exact length_padded decode hlocal string padString size units padUnits hs hp hvs hvp
          hpad h lpad

/-- C20, amended, on the scenario of the specification, `lpad("5", 3, "0") = "005"`; and
`rpad("5", 3, "0") = "500"` and `lpad("hello", 2, "x") = "he"`. On the generic path
`lpad("aéb", 5, "é") = "ééaéb"`, of 5 characters in 8 bytes, and `rpad("aéb", 2, "é") = "aé"`. -/
theorem pad_spec_witness :
    callAscii utf8proc_codepoint true (asciiBytes "5") 3 (asciiBytes "0")
        = .ok (asciiBytes "005") ∧
      callAscii utf8proc_codepoint false (asciiBytes "5") 3 (asciiBytes "0")
        = .ok (asciiBytes "500") ∧
      callAscii utf8proc_codepoint true (asciiBytes "hello") 2 (asciiBytes "x")
        = .ok (asciiBytes "he") ∧
      call utf8proc_codepoint true [0x61, 0xC3, 0xA9, 0x62] 5 [0xC3, 0xA9]
        = .ok [0xC3, 0xA9, 0xC3, 0xA9, 0x61, 0xC3, 0xA9, 0x62] ∧
      LengthFunction.call utf8proc_codepoint [0xC3, 0xA9, 0xC3, 0xA9, 0x61, 0xC3, 0xA9, 0x62]
        = 5 ∧
      call utf8proc_codepoint false [0x61, 0xC3, 0xA9, 0x62] 2 [0xC3, 0xA9]
        = .ok [0x61, 0xC3, 0xA9] :=
  have hl := pad_spec utf8proc_codepoint true (asciiBytes "5") (asciiBytes "0") 3 [] []
    (by decide) (by decide)
  have hr := pad_spec utf8proc_codepoint false (asciiBytes "5") (asciiBytes "0") 3 [] []
    (by decide) (by decide)
  have ht := pad_spec utf8proc_codepoint true (asciiBytes "hello") (asciiBytes "x") 2 [] []
    (by decide) (by decide)
  have hg := (pad_spec utf8proc_codepoint true [0x61, 0xC3, 0xA9, 0x62] [0xC3, 0xA9] 5 _ _
    (by decide) (by decide)).2 SubstrFunction.decodes_a_eacute_b decodes_eacute
  have hgt := (pad_spec utf8proc_codepoint false [0x61, 0xC3, 0xA9, 0x62] [0xC3, 0xA9] 2 _ _
    (by decide) (by decide)).2 SubstrFunction.decodes_a_eacute_b decodes_eacute
  ⟨((hl.1.2.2 (by decide)).1).trans (by rfl),
    ((hr.1.2.2 (by decide)).1).trans (by rfl),
    (ht.1.2.1 (by decide)).trans (by rfl),
    ((hg.2.2 (by decide)).1).trans (by rfl),
    (hg.2.2 (by decide)).2.2 decoderLocal_utf8proc_codepoint (by decide) (by decide) _
      (((hg.2.2 (by decide)).1).trans (by rfl)),
    (hgt.2.1 (by decide)).trans (by rfl)⟩

end PadFunctionBase

end Velox
